import Mathlib

/-!
# MinHook buffer allocator (`src/buffer.c`), x64 release build

A shallow embedding of the executable-memory slab allocator.  The process
memory is a byte-addressed map; the pointer fields of `MEMORY_BLOCK`
(`pNext` at offset 0, `pFree` at offset 8) and of `MEMORY_SLOT` (`pNext` at
offset 0) are read and written as 8-byte little-endian words, exactly where
the C code reads and writes them, so that aliasing between slots and block
headers is visible.  `ULONG_PTR` arithmetic is arithmetic modulo `2 ^ 64`.
Loops that the C code runs without an a-priori bound take a fuel argument
and return `none` when the fuel runs out.

`VirtualAlloc` is an oracle `os : Nat → Nat` giving, for the address
requested, the pointer returned (`0` for `NULL`).  In `GetMemoryBlock`,
`AllocateBuffer` and `FreeBuffer` every address can be read and written; the
functions `GetMemoryBlockChecked` and `AllocateBufferChecked` run the same
code with every load and store checked against the set of mapped bytes, and
agree with the unchecked functions on every run that ends without an access
violation.  The memory is written by the allocator only, and the `_DEBUG`
fills (`memset`) are not part of the build.

`UninitializeBuffer` returns, with the new state, the addresses it passes to
`VirtualFree`.  `IsExecutableAddress` takes what `VirtualQuery` reports as an
oracle and the constants of the Windows headers as parameters.
-/

namespace MinHook

/-! ## Constants -/

/-- Size of each memory block (`MH_BLOCK_SIZE`, the page size). -/
def MH_BLOCK_SIZE : Nat := 0x1000

/-- Size of each buffer (`MH_SLOT_SIZE` under `_M_X64`); also `sizeof(MEMORY_SLOT)`. -/
def MH_SLOT_SIZE : Nat := 64

/-- Max range for seeking a memory block in x64 mode (`MH_MAX_RANGE`, 16MB). -/
def MH_MAX_RANGE : Nat := 0x01000000

/-- Size of the block header, `sizeof(MEMORY_BLOCK)`: two 8-byte pointers. -/
def SIZEOF_MEMORY_BLOCK : Nat := 16

/-- Modulus of `ULONG_PTR` arithmetic on x64. -/
def PTR_MOD : Nat := 2 ^ 64

/-- Unsigned pointer addition, `a + b` in `ULONG_PTR`. -/
def addPtr (a b : Nat) : Nat := (a + b) % PTR_MOD

/-- Unsigned pointer subtraction, `a - b` in `ULONG_PTR`. -/
def subPtr (a b : Nat) : Nat := (a + (PTR_MOD - b % PTR_MOD)) % PTR_MOD

/-- Evaluates `v` before handing it on: `eager v k` is `k v`.  The probe
loops use it for the address of the next iteration, so that the address is
a numeral and not a tower of pending subtractions. -/
def eager {α : Type} (v : Nat) (k : Nat → α) : α :=
  match v with
  | 0 => k 0
  | n + 1 => k (n + 1)

/-! ## Memory -/

/-- Byte-addressed memory: the byte stored at each address. -/
abbrev Mem := Nat → Nat

/-- Read of a pointer-sized field: eight bytes, little endian. -/
def load64 (m : Mem) (a : Nat) : Nat :=
  m a % 256 + 256 * (m (a + 1) % 256 + 256 * (m (a + 2) % 256 + 256 * (m (a + 3) % 256
    + 256 * (m (a + 4) % 256 + 256 * (m (a + 5) % 256 + 256 * (m (a + 6) % 256
    + 256 * (m (a + 7) % 256)))))))

/-- Write of a pointer-sized field: the bytes at `a, ..., a + 7` receive the
eight low bytes of `v`, little endian; every other byte is kept. -/
def store64 (m : Mem) (a v : Nat) : Mem :=
  fun x => bif Nat.ble a x && Nat.blt x (a + 8) then v / 256 ^ (x - a) % 256 else m x

/-- Address of the field `pFree` of the block header at `pBlock`. -/
def pFreeField (pBlock : Nat) : Nat := pBlock + 8

/-! ## Global variables -/

/-- The globals of `buffer.c` together with the process memory. -/
structure State where
  /-- Lowest memory address accessible. -/
  g_MinAddress : Nat
  /-- Highest memory address accessible. -/
  g_MaxAddress : Nat
  /-- First element of the memory block list. -/
  g_pMemoryBlocks : Nat
  /-- The process memory. -/
  mem : Mem

/-! ## `GetMemoryBlock` -/

/-- Lower end `minAddr` of the search window of `GetMemoryBlock` (x64). -/
def windowLo (st : State) (pOrigin : Nat) : Nat :=
  if pOrigin > MH_MAX_RANGE then max st.g_MinAddress (subPtr pOrigin MH_MAX_RANGE)
  else st.g_MinAddress

/-- Upper end `maxAddr` of the search window of `GetMemoryBlock` (x64). -/
def windowHi (st : State) (pOrigin : Nat) : Nat :=
  min st.g_MaxAddress (addPtr pOrigin MH_MAX_RANGE)

/-- The loop "Look the registered blocks for a reachable one".  `some p` with
`p ≠ 0` is the block returned from inside the loop; `some 0` means the loop
ran off the end of the list. -/
def scanBlocks : Nat → Mem → Nat → Nat → Nat → Option Nat
  | 0, _, _, _, _ => none
  | fuel + 1, m, minAddr, maxAddr, pBlock =>
    if pBlock = 0 then some 0
    else if pBlock < minAddr ∨ pBlock ≥ maxAddr then
      scanBlocks fuel m minAddr maxAddr (load64 m pBlock)
    else if load64 m (pFreeField pBlock) ≠ 0 then some pBlock
    else scanBlocks fuel m minAddr maxAddr (load64 m pBlock)

/-- The downward probe loop, entered with `pBlock = NULL`.  Returns the final
`pBlock` and the addresses passed to `VirtualAlloc`, in order. -/
def probeDown : Nat → (Nat → Nat) → Nat → Nat → Option (Nat × List Nat)
  | 0, _, _, _ => none
  | fuel + 1, os, minAddr, pAlloc =>
    if pAlloc ≥ minAddr then
      if os pAlloc ≠ 0 then some (os pAlloc, [pAlloc])
      else
        eager (subPtr pAlloc MH_BLOCK_SIZE) fun pNext =>
          match probeDown fuel os minAddr pNext with
          | none => none
          | some (p, tr) => some (p, pAlloc :: tr)
    else some (0, [])

/-- The upward probe loop, entered with `pBlock = NULL`. -/
def probeUp : Nat → (Nat → Nat) → Nat → Nat → Option (Nat × List Nat)
  | 0, _, _, _ => none
  | fuel + 1, os, maxAddr, pAlloc =>
    if pAlloc < maxAddr then
      if os pAlloc ≠ 0 then some (os pAlloc, [pAlloc])
      else
        eager (addPtr pAlloc MH_BLOCK_SIZE) fun pNext =>
          match probeUp fuel os maxAddr pNext with
          | none => none
          | some (p, tr) => some (p, pAlloc :: tr)
    else some (0, [])

/-- The `do ... while` loop building the linked list of all the slots of the
block at `pBlock`, entered with the current `pSlot`.  The stores are made
whether or not the address is mapped; `buildSlotsChecked` is the same loop
with the accesses checked. -/
def buildSlots : Nat → Mem → Nat → Nat → Option Mem
  | 0, _, _, _ => none
  | fuel + 1, m, pBlock, pSlot =>
    let m1 := store64 m pSlot (load64 m (pFreeField pBlock))
    let m2 := store64 m1 (pFreeField pBlock) pSlot
    if subPtr (addPtr pSlot MH_SLOT_SIZE) pBlock ≤ MH_BLOCK_SIZE then
      buildSlots fuel m2 pBlock (addPtr pSlot MH_SLOT_SIZE)
    else some m2

/-- The block "Alloc a new block if not found": both probe loops. -/
def probeNew (fuel : Nat) (os : Nat → Nat) (minAddr maxAddr pOrigin : Nat) :
    Option (Nat × List Nat) :=
  let pStart := pOrigin / MH_BLOCK_SIZE * MH_BLOCK_SIZE
  match probeDown fuel os minAddr (subPtr pStart MH_BLOCK_SIZE) with
  | none => none
  | some (pBlock, tr) =>
    if pBlock = 0 then
      match probeUp fuel os maxAddr (addPtr pStart MH_BLOCK_SIZE) with
      | none => none
      | some (pBlock2, tr2) => some (pBlock2, tr ++ tr2)
    else some (pBlock, tr)

/-- Initialisation of a freshly mapped block and insertion at the head of the
block list (`if (pBlock != NULL) { ... }`). -/
def initBlock (fuel : Nat) (st : State) (pBlock : Nat) : Option State :=
  match buildSlots fuel (store64 st.mem (pFreeField pBlock) 0) pBlock
      (addPtr pBlock MH_SLOT_SIZE) with
  | none => none
  | some m => some { st with mem := store64 m pBlock st.g_pMemoryBlocks,
                             g_pMemoryBlocks := pBlock }

/-- `GetMemoryBlock(pOrigin)`: the block returned (`0` for `NULL`), the state
afterwards and the addresses passed to `VirtualAlloc`. -/
def GetMemoryBlock (fuel : Nat) (os : Nat → Nat) (st : State) (pOrigin : Nat) :
    Option (Nat × State × List Nat) :=
  match scanBlocks fuel st.mem (windowLo st pOrigin) (windowHi st pOrigin)
      st.g_pMemoryBlocks with
  | none => none
  | some pFound =>
    if pFound ≠ 0 then some (pFound, st, [])
    else
      match probeNew fuel os (windowLo st pOrigin) (windowHi st pOrigin) pOrigin with
      | none => none
      | some (pBlock, tr) =>
        if pBlock ≠ 0 then
          match initBlock fuel st pBlock with
          | none => none
          | some st1 => some (pBlock, st1, tr)
        else some (0, st, tr)

/-! ## `AllocateBuffer`, `FreeBuffer` -/

/-- `AllocateBuffer(pOrigin)`: the pointer returned (`0` for `NULL`), the
state afterwards and the addresses passed to `VirtualAlloc`. -/
def AllocateBuffer (fuel : Nat) (os : Nat → Nat) (st : State) (pOrigin : Nat) :
    Option (Nat × State × List Nat) :=
  match GetMemoryBlock fuel os st pOrigin with
  | none => none
  | some (pBlock, st1, tr) =>
    if pBlock = 0 then some (0, st1, tr)
    else
      let pSlot := load64 st1.mem (pFreeField pBlock)
      some (pSlot,
        { st1 with mem := store64 st1.mem (pFreeField pBlock) (load64 st1.mem pSlot) }, tr)

/-- The `while (pBlock != NULL)` loop of `FreeBuffer`. -/
def freeLoop : Nat → Mem → Nat → Nat → Nat → Option Mem
  | 0, _, _, _, _ => none
  | fuel + 1, m, pBlock, pTargetBlock, pBuffer =>
    if pBlock = 0 then some m
    else if pBlock = pTargetBlock then
      some (store64 (store64 m pBuffer (load64 m (pFreeField pBlock)))
        (pFreeField pBlock) pBuffer)
    else freeLoop fuel m (load64 m pBlock) pTargetBlock pBuffer

/-- `FreeBuffer(pBuffer)`. -/
def FreeBuffer (fuel : Nat) (st : State) (pBuffer : Nat) : Option State :=
  match freeLoop fuel st.mem st.g_pMemoryBlocks
      (pBuffer / MH_BLOCK_SIZE * MH_BLOCK_SIZE) pBuffer with
  | none => none
  | some m => some { st with mem := m }

/-! ## Reading the lists out of memory -/

/-- Follows the `pNext` links (offset 0 in both `MEMORY_BLOCK` and
`MEMORY_SLOT`) from `p` until `NULL`, collecting the addresses visited. -/
def chain : Nat → Mem → Nat → Option (List Nat)
  | 0, _, _ => none
  | fuel + 1, m, p =>
    if p = 0 then some []
    else
      match chain fuel m (load64 m p) with
      | none => none
      | some l => some (p :: l)

/-- The list `l` is the chain of `pNext` links from `p` to `NULL`. -/
def IsChain (m : Mem) : Nat → List Nat → Prop
  | p, [] => p = 0
  | p, x :: xs => p = x ∧ x ≠ 0 ∧ IsChain m (load64 m x) xs

/-- The block list of a state, read with the given fuel. -/
def blockList (fuel : Nat) (st : State) : Option (List Nat) :=
  chain fuel st.mem st.g_pMemoryBlocks

/-- The free list of the block at `pBlock`, read with the given fuel. -/
def freeList (fuel : Nat) (st : State) (pBlock : Nat) : Option (List Nat) :=
  chain fuel st.mem (load64 st.mem (pFreeField pBlock))

/-- The state before any block exists: empty list, zeroed memory. -/
def emptyState (minAddress maxAddress : Nat) : State :=
  { g_MinAddress := minAddress, g_MaxAddress := maxAddress,
    g_pMemoryBlocks := 0, mem := fun _ => 0 }

instance decIsChain (m : Mem) : (p : Nat) → (l : List Nat) → Decidable (IsChain m p l)
  | p, [] => inferInstanceAs (Decidable (p = 0))
  | p, x :: xs =>
    have := decIsChain m (load64 m x) xs
    inferInstanceAs (Decidable (p = x ∧ x ≠ 0 ∧ IsChain m (load64 m x) xs))

/-- The 8-byte fields at `a` and at `b` do not overlap. -/
def Disj8 (a b : Nat) : Prop := a + 8 ≤ b ∨ b + 8 ≤ a

instance decDisj8 (a b : Nat) : Decidable (Disj8 a b) :=
  inferInstanceAs (Decidable (a + 8 ≤ b ∨ b + 8 ≤ a))

/-! ## Call sequences -/

/-- A call into the allocator; an allocation carries the behaviour of
`VirtualAlloc` during that call. -/
inductive Call where
  | allocate (os : Nat → Nat) (pOrigin : Nat)
  | release (pBuffer : Nat)

/-- Runs the calls in order from `st`; returns the final state and the
pointers returned by the `AllocateBuffer` calls, in call order. -/
def runCalls (fuel : Nat) : State → List Call → Option (State × List Nat)
  | st, [] => some (st, [])
  | st, Call.allocate os pOrigin :: cs =>
    match AllocateBuffer fuel os st pOrigin with
    | none => none
    | some (p, st1, _) =>
      match runCalls fuel st1 cs with
      | none => none
      | some (st2, ps) => some (st2, p :: ps)
  | st, Call.release pBuffer :: cs =>
    match FreeBuffer fuel st pBuffer with
    | none => none
    | some st1 => runCalls fuel st1 cs

/-- The state reached by the calls, or the starting state when a call runs
out of fuel. -/
def stateAfter (fuel : Nat) (st : State) (cs : List Call) : State :=
  match runCalls fuel st cs with
  | none => st
  | some (st1, _) => st1

/-- An operating system that grants every request at the address asked. -/
def osGrantAll : Nat → Nat := fun a => a

/-- An operating system that refuses every request. -/
def osRefuseAll : Nat → Nat := fun _ => 0

/-- An operating system that grants exactly the request at address `b`. -/
def osGrantOnly (b : Nat) : Nat → Nat := fun a => if a = b then a else 0

/-- An operating system that grants every request except the one at `b`. -/
def osGrantExcept (b : Nat) : Nat → Nat := fun a => if a = b then 0 else a

/-- The address range used in the worked scenarios: the user-mode range
reported by 64-bit Windows. -/
def demoRange : State := emptyState 0x10000 0x7FFFFFFEFFFF

/-- The state after the first `AllocateBuffer(0x20010)`, the operating system
granting the first address probed (`0x1F000`). -/
def demoOneBlock : State :=
  stateAfter 100 demoRange [Call.allocate osGrantAll 0x20010]

/-- The memory of `st` holds the block list `blocks` and, for each block
`b` of it, the free list `fl b`, and the `pFree` field of a block overlaps
no `pNext` field of a block, no other `pFree` field and no link field of a
free slot. -/
structure WellFormed (st : State) (blocks : List Nat) (fl : Nat → List Nat) : Prop where
  /-- The block list is a `NULL`-terminated chain. -/
  blocks_chain : IsChain st.mem st.g_pMemoryBlocks blocks
  /-- Every free list is a `NULL`-terminated chain. -/
  free_chain : ∀ b ∈ blocks, IsChain st.mem (load64 st.mem (pFreeField b)) (fl b)
  /-- A `pFree` field overlaps no `pNext` field of a block. -/
  pFree_pNext : ∀ b ∈ blocks, ∀ c ∈ blocks, Disj8 (pFreeField b) c
  /-- The `pFree` fields of two blocks do not overlap. -/
  pFree_pFree : ∀ b ∈ blocks, ∀ c ∈ blocks, b ≠ c → Disj8 (pFreeField b) (pFreeField c)
  /-- A `pFree` field overlaps no link field of a free slot. -/
  pFree_slot : ∀ b ∈ blocks, ∀ c ∈ blocks, ∀ s ∈ fl c, Disj8 (pFreeField b) s

/-- The block at `x` lies in the search window for `pOrigin` and has the
non-empty free list `fl x`. -/
def usable (st : State) (pOrigin : Nat) (fl : Nat → List Nat) (x : Nat) : Bool :=
  decide (windowLo st pOrigin ≤ x ∧ x < windowHi st pOrigin ∧ fl x ≠ [])

/-- The free lists after the head of the free list of `b` has been popped. -/
def popFree (fl : Nat → List Nat) (b : Nat) : Nat → List Nat :=
  fun x => if x = b then (fl x).tail else fl x

/-- The free lists after `p` has been pushed on the free list of `b`. -/
def pushFree (fl : Nat → List Nat) (b p : Nat) : Nat → List Nat :=
  fun x => if x = b then p :: fl x else fl x

/-- The slots `b + 64 * j, ..., b + 64 * 1` of the block at `b`, highest first. -/
def slotsDown (b : Nat) : Nat → List Nat
  | 0 => []
  | j + 1 => (b + MH_SLOT_SIZE * (j + 1)) :: slotsDown b j

/-- The 63 slots left on the free list of a fresh block at `b` after its
first buffer has been handed out, in list order. -/
def freshTail (b : Nat) : List Nat := slotsDown b 63

/-- The free lists of `demoOneBlock`. -/
def demoFree : Nat → List Nat :=
  fun x => if x = 0x1F000 then freshTail 0x1F000 else []

/-- The state after two `AllocateBuffer(0x20010)` calls: the buffers
`0x20000` and `0x1FFC0` are outstanding. -/
def demoTwoOut : State :=
  stateAfter 100 demoRange [Call.allocate osGrantAll 0x20010, Call.allocate osGrantAll 0x20010]

/-- Sixty-four `AllocateBuffer(0x20010)` calls: the first creates the block
`0x1F000`, the others take its remaining slots until its free list is empty. -/
def exhaustOneBlock : List Call :=
  List.replicate 64 (Call.allocate osGrantAll 0x20010)

/-! ## Reachable states and outstanding buffers -/

/-- The operating system never grants an address that is currently a block
base: no answer of `os` is an entry of the block list read from memory. -/
def OsAvoidsBlocks (os : Nat → Nat) (st : State) : Prop :=
  ∀ n l, blockList n st = some l → ∀ a, os a ∉ l

/-- The operating system returns `NULL` or the address asked, and grants
only page-aligned addresses at least two pages below `2 ^ 64` that are
neither a block base nor directly next to one. -/
def OsGrantsApart (os : Nat → Nat) (st : State) : Prop :=
  ∀ a, os a = 0 ∨ (os a = a ∧ a % MH_BLOCK_SIZE = 0 ∧ a + 2 * MH_BLOCK_SIZE ≤ PTR_MOD
    ∧ ∀ n l, blockList n st = some l →
        a ∉ l ∧ a + MH_BLOCK_SIZE ∉ l ∧ ∀ c ∈ l, c + MH_BLOCK_SIZE ≠ a)

/-- The states reachable from an empty block list by `AllocateBuffer` and
`FreeBuffer` calls, `FreeBuffer` being applied to outstanding buffers only,
together with the list of outstanding buffers (returned and not released
since).  `ok` is the assumption made on the operating system at each
allocation. -/
inductive Reach (ok : (Nat → Nat) → State → Prop) : State → List Nat → Prop where
  | init (minAddress maxAddress : Nat) (m : Mem) :
      Reach ok { g_MinAddress := minAddress, g_MaxAddress := maxAddress,
                 g_pMemoryBlocks := 0, mem := m } []
  | allocate (st : State) (out : List Nat) (os : Nat → Nat) (pOrigin fuel B : Nat)
      (st2 : State) (tr : List Nat) :
      Reach ok st out → ok os st → AllocateBuffer fuel os st pOrigin = some (B, st2, tr) →
      B ≠ 0 → Reach ok st2 (B :: out)
  | allocateFailed (st : State) (out : List Nat) (os : Nat → Nat) (pOrigin fuel : Nat)
      (st2 : State) (tr : List Nat) :
      Reach ok st out → ok os st → AllocateBuffer fuel os st pOrigin = some (0, st2, tr) →
      Reach ok st2 out
  | release (st : State) (out : List Nat) (B fuel : Nat) (st2 : State) :
      Reach ok st out → B ∈ out → FreeBuffer fuel st B = some st2 →
      Reach ok st2 (out.erase B)

/-- Any two distinct outstanding buffers have disjoint ranges
`[B, B + MH_SLOT_SIZE)`. -/
def NoOverlap (out : List Nat) : Prop :=
  out.Pairwise (fun B1 B2 => B1 + MH_SLOT_SIZE ≤ B2 ∨ B2 + MH_SLOT_SIZE ≤ B1)

instance decNoOverlap (out : List Nat) : Decidable (NoOverlap out) :=
  inferInstanceAs (Decidable (out.Pairwise
    (fun B1 B2 => B1 + MH_SLOT_SIZE ≤ B2 ∨ B2 + MH_SLOT_SIZE ≤ B1)))

/-- A scripted call: an allocation during which the operating system grants
the request at `grant` only (none when `grant = 0`), or a release. -/
inductive Script where
  | allocate (grant pOrigin : Nat)
  | release (pBuffer : Nat)

/-- Runs a script from `st` with the outstanding buffers `out`.  An
allocation is run only if `grant` is not an entry of the current block list,
a release only if the buffer is outstanding. -/
def runScript (fuel : Nat) : State → List Nat → List Script → Option (State × List Nat)
  | st, out, [] => some (st, out)
  | st, out, Script.allocate grant pOrigin :: cs =>
    match blockList fuel st with
    | none => none
    | some l =>
      if grant ∈ l then none
      else
        match AllocateBuffer fuel (osGrantOnly grant) st pOrigin with
        | none => none
        | some (B, st2, _) =>
          if B = 0 then runScript fuel st2 out cs else runScript fuel st2 (B :: out) cs
  | st, out, Script.release pBuffer :: cs =>
    if pBuffer ∈ out then
      match FreeBuffer fuel st pBuffer with
      | none => none
      | some st2 => runScript fuel st2 (out.erase pBuffer) cs
    else none

/-- A block is mapped at `0x5000000` and a block at `0x2000000`; a third
block is mapped at `0x1FFF000`, directly below the second, for an origin
whose window ends at `0x2000000`; then the operating system is asked for
`0x5000000` again. -/
def lostBlockScript : List Script :=
  [Script.allocate 0x5000000 0x5001010, Script.allocate 0x2000000 0x2001010,
    Script.allocate 0x1FFF000 0x1000000, Script.allocate 0x5000000 0x5001010]

/-- The invariant of the allocator under `OsGrantsApart`: the memory is
well formed for the block list `blocks` and the free lists `fl`, block bases
are page aligned and not adjacent, free slots and outstanding buffers are
slots of blocks of the list, and no slot is both free and outstanding or
listed twice. -/
structure Sound (st : State) (out : List Nat) (blocks : List Nat) (fl : Nat → List Nat) :
    Prop where
  /-- The memory holds the block list and the free lists. -/
  wf : WellFormed st blocks fl
  /-- Block bases are page aligned, at least two pages below `2 ^ 64`. -/
  aligned : ∀ b ∈ blocks, b % MH_BLOCK_SIZE = 0 ∧ b + 2 * MH_BLOCK_SIZE ≤ PTR_MOD
  /-- No block lies directly above another. -/
  apart : ∀ b ∈ blocks, b + MH_BLOCK_SIZE ∉ blocks
  /-- No free list holds a slot twice. -/
  free_nodup : ∀ b ∈ blocks, (fl b).Nodup
  /-- A free slot is one of the slots 1 to 63 of its block. -/
  free_form : ∀ b ∈ blocks, ∀ s ∈ fl b, ∃ k, 1 ≤ k ∧ k ≤ 63 ∧ s = b + MH_SLOT_SIZE * k
  /-- No buffer is outstanding twice. -/
  out_nodup : out.Nodup
  /-- An outstanding buffer is one of the slots 1 to 64 of a block. -/
  out_form : ∀ B ∈ out, ∃ b ∈ blocks, ∃ k, 1 ≤ k ∧ k ≤ 64 ∧ B = b + MH_SLOT_SIZE * k
  /-- No free slot is outstanding. -/
  out_free : ∀ b ∈ blocks, ∀ s ∈ fl b, s ∉ out

/-! ## `UninitializeBuffer` -/

/-- The `while (pBlock)` loop of `UninitializeBuffer`: reads `pBlock->pNext`,
passes `pBlock` to `VirtualFree` and moves on.  Returns the addresses passed
to `VirtualFree`, in order. -/
def releaseLoop : Nat → Mem → Nat → Option (List Nat)
  | 0, _, _ => none
  | fuel + 1, m, pBlock =>
    if pBlock = 0 then some []
    else
      match releaseLoop fuel m (load64 m pBlock) with
      | none => none
      | some tr => some (pBlock :: tr)

/-- `UninitializeBuffer()`: the state afterwards and the addresses passed to
`VirtualFree`.  The bytes of a released page stay as they were in the model:
`pNext` is read before the block is released, and after the call the
allocator reads a page only once it has mapped and initialised a block there
anew. -/
def UninitializeBuffer (fuel : Nat) (st : State) : Option (State × List Nat) :=
  match releaseLoop fuel st.mem st.g_pMemoryBlocks with
  | none => none
  | some tr => some ({ st with g_pMemoryBlocks := 0 }, tr)

/-- The state after `UninitializeBuffer()`, or `st` itself when the loop runs
out of fuel. -/
def stateAfterTeardown (fuel : Nat) (st : State) : State :=
  match UninitializeBuffer fuel st with
  | none => st
  | some (st2, _) => st2

/-- The states reachable from an empty block list by `AllocateBuffer`,
`FreeBuffer` and `UninitializeBuffer` calls, `FreeBuffer` being applied only
to buffers returned since the last `UninitializeBuffer` and not released
since, together with the list of those buffers.  `ok` is the assumption made
on the operating system at each allocation. -/
inductive ReachAll (ok : (Nat → Nat) → State → Prop) : State → List Nat → Prop where
  | init (minAddress maxAddress : Nat) (m : Mem) :
      ReachAll ok { g_MinAddress := minAddress, g_MaxAddress := maxAddress,
                    g_pMemoryBlocks := 0, mem := m } []
  | allocate (st : State) (out : List Nat) (os : Nat → Nat) (pOrigin fuel B : Nat)
      (st2 : State) (tr : List Nat) :
      ReachAll ok st out → ok os st → AllocateBuffer fuel os st pOrigin = some (B, st2, tr) →
      B ≠ 0 → ReachAll ok st2 (B :: out)
  | allocateFailed (st : State) (out : List Nat) (os : Nat → Nat) (pOrigin fuel : Nat)
      (st2 : State) (tr : List Nat) :
      ReachAll ok st out → ok os st → AllocateBuffer fuel os st pOrigin = some (0, st2, tr) →
      ReachAll ok st2 out
  | release (st : State) (out : List Nat) (B fuel : Nat) (st2 : State) :
      ReachAll ok st out → B ∈ out → FreeBuffer fuel st B = some st2 →
      ReachAll ok st2 (out.erase B)
  | teardown (st : State) (out : List Nat) (fuel : Nat) (st2 : State) (tr : List Nat) :
      ReachAll ok st out → UninitializeBuffer fuel st = some (st2, tr) →
      ReachAll ok st2 []

/-! ## `IsExecutableAddress` -/

/-- The constants of the Windows headers that `IsExecutableAddress` uses.
They are not defined in this repository and are taken as parameters. -/
structure PageConstants where
  /-- The value of `MEM_COMMIT`. -/
  MEM_COMMIT : Nat
  /-- The value of `PAGE_EXECUTE`. -/
  PAGE_EXECUTE : Nat
  /-- The value of `PAGE_EXECUTE_READ`. -/
  PAGE_EXECUTE_READ : Nat
  /-- The value of `PAGE_EXECUTE_READWRITE`. -/
  PAGE_EXECUTE_READWRITE : Nat
  /-- The value of `PAGE_EXECUTE_WRITECOPY`. -/
  PAGE_EXECUTE_WRITECOPY : Nat

/-- The values the constants have in the Windows SDK (`winnt.h`). -/
def winConstants : PageConstants :=
  { MEM_COMMIT := 0x1000, PAGE_EXECUTE := 0x10, PAGE_EXECUTE_READ := 0x20,
    PAGE_EXECUTE_READWRITE := 0x40, PAGE_EXECUTE_WRITECOPY := 0x80 }

/-- The two fields of `MEMORY_BASIC_INFORMATION` that `IsExecutableAddress`
reads after `VirtualQuery` has filled the structure. -/
structure MEMORY_BASIC_INFORMATION where
  /-- The field `State`. -/
  State : Nat
  /-- The field `Protect`. -/
  Protect : Nat

/-- The local constant `PageExecuteMask`. -/
def PageExecuteMask (k : PageConstants) : Nat :=
  k.PAGE_EXECUTE ||| k.PAGE_EXECUTE_READ ||| k.PAGE_EXECUTE_READWRITE
    ||| k.PAGE_EXECUTE_WRITECOPY

/-- `IsExecutableAddress(pAddress)`; `VirtualQuery` gives what the operating
system reports for an address.  The function reads and writes no global. -/
def IsExecutableAddress (k : PageConstants) (VirtualQuery : Nat → MEMORY_BASIC_INFORMATION)
    (pAddress : Nat) : Bool :=
  let mi := VirtualQuery pAddress
  if mi.State = k.MEM_COMMIT ∧ (mi.Protect &&& PageExecuteMask k) ≠ 0 then true else false

/-! ## Access violations

The functions above run on a memory in which every address can be read and
written.  The functions of this section run the same code on a machine where
only the bytes in `mapped` can be accessed: every load and store of a pointer
field is checked, and the run ends with `Run.fault` at the first field that
is not mapped.  A successful `VirtualAlloc` maps the `MH_BLOCK_SIZE` bytes it
was asked for at the pointer it returns. -/

/-- The outcome of a run with checked memory accesses: a result, an access
violation at the pointer field starting at `addr`, or the end of the fuel. -/
inductive Run (α : Type) where
  | ok (a : α)
  | fault (addr : Nat)
  | noFuel

/-- The address of the access violation, if the run ended with one. -/
def Run.faultAt {α : Type} : Run α → Option Nat
  | Run.fault addr => some addr
  | _ => none

/-- The result of the run, if it returned. -/
def Run.result {α : Type} : Run α → Option α
  | Run.ok a => some a
  | _ => none

/-- The eight bytes of the pointer field at `a` are mapped. -/
def mapped8 (mapped : Nat → Bool) (a : Nat) : Bool :=
  mapped a && mapped (a + 1) && mapped (a + 2) && mapped (a + 3)
    && mapped (a + 4) && mapped (a + 5) && mapped (a + 6) && mapped (a + 7)

/-- The bytes mapped once `VirtualAlloc(pAlloc, MH_BLOCK_SIZE, ...)` has
returned `p`: the `MH_BLOCK_SIZE` bytes at `p` are added. -/
def mapBlock (mapped : Nat → Bool) (p : Nat) : Nat → Bool :=
  fun a => mapped a || (Nat.ble p a && Nat.blt a (p + MH_BLOCK_SIZE))

/-- The loop of `scanBlocks` with the loads of `pBlock->pFree` and
`pBlock->pNext` checked. -/
def scanBlocksChecked (mapped : Nat → Bool) : Nat → Mem → Nat → Nat → Nat → Run Nat
  | 0, _, _, _, _ => Run.noFuel
  | fuel + 1, m, minAddr, maxAddr, pBlock =>
    if pBlock = 0 then Run.ok 0
    else if pBlock < minAddr ∨ pBlock ≥ maxAddr then
      if mapped8 mapped pBlock then
        scanBlocksChecked mapped fuel m minAddr maxAddr (load64 m pBlock)
      else Run.fault pBlock
    else if mapped8 mapped (pFreeField pBlock) then
      if load64 m (pFreeField pBlock) ≠ 0 then Run.ok pBlock
      else if mapped8 mapped pBlock then
        scanBlocksChecked mapped fuel m minAddr maxAddr (load64 m pBlock)
      else Run.fault pBlock
    else Run.fault (pFreeField pBlock)

/-- The loop of `buildSlots` with its accesses checked, in the order of the
source: the load of `pBlock->pFree` and the store to `pSlot->pNext`
(`pSlot->pNext = pBlock->pFree`), then the store to `pBlock->pFree`. -/
def buildSlotsChecked (mapped : Nat → Bool) : Nat → Mem → Nat → Nat → Run Mem
  | 0, _, _, _ => Run.noFuel
  | fuel + 1, m, pBlock, pSlot =>
    if mapped8 mapped (pFreeField pBlock) then
      if mapped8 mapped pSlot then
        let m1 := store64 m pSlot (load64 m (pFreeField pBlock))
        let m2 := store64 m1 (pFreeField pBlock) pSlot
        if subPtr (addPtr pSlot MH_SLOT_SIZE) pBlock ≤ MH_BLOCK_SIZE then
          buildSlotsChecked mapped fuel m2 pBlock (addPtr pSlot MH_SLOT_SIZE)
        else Run.ok m2
      else Run.fault pSlot
    else Run.fault (pFreeField pBlock)

/-- The block initialisation of `initBlock` with its accesses checked: the
store `pBlock->pFree = NULL`, the slot loop, the store
`pBlock->pNext = g_pMemoryBlocks`. -/
def initBlockChecked (mapped : Nat → Bool) (fuel : Nat) (st : State) (pBlock : Nat) :
    Run State :=
  if mapped8 mapped (pFreeField pBlock) then
    match buildSlotsChecked mapped fuel (store64 st.mem (pFreeField pBlock) 0) pBlock
        (addPtr pBlock MH_SLOT_SIZE) with
    | Run.noFuel => Run.noFuel
    | Run.fault addr => Run.fault addr
    | Run.ok m =>
      if mapped8 mapped pBlock then
        Run.ok { st with mem := store64 m pBlock st.g_pMemoryBlocks,
                         g_pMemoryBlocks := pBlock }
      else Run.fault pBlock
  else Run.fault (pFreeField pBlock)

/-- `GetMemoryBlock(pOrigin)` with checked accesses, started with the bytes
`mapped`.  Returns, with the result of `GetMemoryBlock`, the bytes mapped
afterwards: a block obtained from `VirtualAlloc` adds its `MH_BLOCK_SIZE`
bytes. -/
def GetMemoryBlockChecked (mapped : Nat → Bool) (fuel : Nat) (os : Nat → Nat) (st : State)
    (pOrigin : Nat) : Run (Nat × State × List Nat × (Nat → Bool)) :=
  match scanBlocksChecked mapped fuel st.mem (windowLo st pOrigin) (windowHi st pOrigin)
      st.g_pMemoryBlocks with
  | Run.noFuel => Run.noFuel
  | Run.fault addr => Run.fault addr
  | Run.ok pFound =>
    if pFound ≠ 0 then Run.ok (pFound, st, [], mapped)
    else
      match probeNew fuel os (windowLo st pOrigin) (windowHi st pOrigin) pOrigin with
      | none => Run.noFuel
      | some (pBlock, tr) =>
        if pBlock ≠ 0 then
          match initBlockChecked (mapBlock mapped pBlock) fuel st pBlock with
          | Run.noFuel => Run.noFuel
          | Run.fault addr => Run.fault addr
          | Run.ok st1 => Run.ok (pBlock, st1, tr, mapBlock mapped pBlock)
        else Run.ok (0, st, tr, mapped)

/-- `AllocateBuffer(pOrigin)` with checked accesses: after `GetMemoryBlock`,
the load of `pBlock->pFree`, the load of `pSlot->pNext` and the store to
`pBlock->pFree`. -/
def AllocateBufferChecked (mapped : Nat → Bool) (fuel : Nat) (os : Nat → Nat) (st : State)
    (pOrigin : Nat) : Run (Nat × State × List Nat) :=
  match GetMemoryBlockChecked mapped fuel os st pOrigin with
  | Run.noFuel => Run.noFuel
  | Run.fault addr => Run.fault addr
  | Run.ok (pBlock, st1, tr, mapped1) =>
    if pBlock = 0 then Run.ok (0, st1, tr)
    else if mapped8 mapped1 (pFreeField pBlock) then
      if mapped8 mapped1 (load64 st1.mem (pFreeField pBlock)) then
        Run.ok (load64 st1.mem (pFreeField pBlock),
          { st1 with mem := (store64 st1.mem (pFreeField pBlock)
              (load64 st1.mem (load64 st1.mem (pFreeField pBlock)))) }, tr)
      else Run.fault (load64 st1.mem (pFreeField pBlock))
    else Run.fault (pFreeField pBlock)

/-- No byte is mapped but those of the blocks the run itself obtains from
`VirtualAlloc`. -/
def mappedNone : Nat → Bool := fun _ => false

/-- Only the page `[0x20000, 0x21000)` is mapped. -/
def mappedNextPage : Nat → Bool := fun a => Nat.ble 0x20000 a && Nat.blt a 0x21000

/-- The operating system returns `NULL` or the address asked, and grants only
addresses at least two pages below `2 ^ 64` that are neither a block base nor
directly next to one.  Nothing is assumed on the alignment of the addresses
granted. -/
def OsReturnsAsked (os : Nat → Nat) (st : State) : Prop :=
  ∀ a, os a = 0 ∨ (os a = a ∧ a + 2 * MH_BLOCK_SIZE ≤ PTR_MOD
    ∧ ∀ n l, blockList n st = some l →
        a ∉ l ∧ a + MH_BLOCK_SIZE ∉ l ∧ ∀ c ∈ l, c + MH_BLOCK_SIZE ≠ a)

/-! ## Memory lemmas -/

theorem eager_eq {α : Type} (v : Nat) (k : Nat → α) : eager v k = k v := by
  cases v <;> rfl

theorem load64_lt (m : Mem) (a : Nat) : load64 m a < 2 ^ 64 := by
  unfold load64
  omega

theorem store64_apply_out (m : Mem) (a v x : Nat) (h : x < a ∨ a + 8 ≤ x) :
    store64 m a v x = m x := by
  have hc : (Nat.ble a x && Nat.blt x (a + 8)) = false := by
    rcases h with h | h
    · have : Nat.ble a x = false := by
        rw [← Bool.not_eq_true, Nat.ble_eq]
        omega
      rw [this, Bool.false_and]
    · have : Nat.blt x (a + 8) = false := by
        rw [← Bool.not_eq_true, Nat.blt_eq]
        omega
      rw [this, Bool.and_false]
  unfold store64
  rw [hc]
  rfl

theorem load64_store64_disj (m : Mem) (a v b : Nat) (h : Disj8 a b) :
    load64 (store64 m a v) b = load64 m b := by
  unfold Disj8 at h
  unfold load64
  rw [store64_apply_out m a v b (by omega), store64_apply_out m a v (b + 1) (by omega),
    store64_apply_out m a v (b + 2) (by omega), store64_apply_out m a v (b + 3) (by omega),
    store64_apply_out m a v (b + 4) (by omega), store64_apply_out m a v (b + 5) (by omega),
    store64_apply_out m a v (b + 6) (by omega), store64_apply_out m a v (b + 7) (by omega)]

theorem store64_apply_in (m : Mem) (a v i : Nat) (h : i < 8) :
    store64 m a v (a + i) = v / 256 ^ i % 256 := by
  have h1 : Nat.ble a (a + i) = true := by
    rw [Nat.ble_eq]
    omega
  have h2 : Nat.blt (a + i) (a + 8) = true := by
    rw [Nat.blt_eq]
    omega
  unfold store64
  rw [h1, h2, Bool.and_self, cond_true, Nat.add_sub_cancel_left]

theorem load64_store64_same (m : Mem) (a v : Nat) (hv : v < 2 ^ 64) :
    load64 (store64 m a v) a = v := by
  unfold load64
  have h0 := store64_apply_in m a v 0 (by omega)
  rw [Nat.add_zero] at h0
  rw [h0, store64_apply_in m a v 1 (by omega), store64_apply_in m a v 2 (by omega),
    store64_apply_in m a v 3 (by omega), store64_apply_in m a v 4 (by omega),
    store64_apply_in m a v 5 (by omega), store64_apply_in m a v 6 (by omega),
    store64_apply_in m a v 7 (by omega)]
  norm_num
  omega

theorem Disj8.symm {a b : Nat} (h : Disj8 a b) : Disj8 b a := by
  unfold Disj8 at *
  omega

/-! ## Chains -/

/-- A write that overlaps no link field of a chain leaves the chain as it is. -/
theorem IsChain.store (m : Mem) (a v : Nat) :
    ∀ (l : List Nat) (p : Nat), IsChain m p l → (∀ x ∈ l, Disj8 a x) →
      IsChain (store64 m a v) p l := by
  intro l
  induction l with
  | nil => intro p h _; exact h
  | cons x xs ih =>
    intro p h hd
    obtain ⟨h1, h2, h3⟩ := h
    refine ⟨h1, h2, ?_⟩
    rw [load64_store64_disj m a v x (hd x (List.mem_cons_self x xs))]
    exact ih _ h3 (fun y hy => hd y (List.mem_cons_of_mem x hy))

theorem IsChain.zero_not_mem (m : Mem) :
    ∀ (l : List Nat) (p : Nat), IsChain m p l → 0 ∉ l := by
  intro l
  induction l with
  | nil => intro p _; simp
  | cons x xs ih =>
    intro p h
    obtain ⟨_, h2, h3⟩ := h
    intro hmem
    rcases List.mem_cons.mp hmem with h0 | h0
    · exact h2 h0.symm
    · exact ih _ h3 h0

/-- The reader `chain` returns a chain once the fuel exceeds its length. -/
theorem chain_of_isChain (m : Mem) :
    ∀ (l : List Nat) (p fuel : Nat), IsChain m p l → l.length < fuel →
      chain fuel m p = some l := by
  intro l
  induction l with
  | nil =>
    intro p fuel h hf
    cases fuel with
    | zero => exact absurd hf (by simp)
    | succ n =>
      have hp : p = 0 := h
      simp [chain, hp]
  | cons x xs ih =>
    intro p fuel h hf
    obtain ⟨h1, h2, h3⟩ := h
    cases fuel with
    | zero => exact absurd hf (by simp)
    | succ n =>
      have hlen : xs.length < n := by simpa using hf
      subst h1
      simp [chain, h2, ih _ n h3 hlen]

/-! ## `FreeBuffer` on a pointer whose page is no block -/

theorem freeLoop_not_found (m : Mem) (pTargetBlock pBuffer : Nat) :
    ∀ (l : List Nat) (p fuel : Nat), IsChain m p l → pTargetBlock ∉ l → l.length < fuel →
      freeLoop fuel m p pTargetBlock pBuffer = some m := by
  intro l
  induction l with
  | nil =>
    intro p fuel h _ hf
    cases fuel with
    | zero => exact absurd hf (by simp)
    | succ n =>
      have hp : p = 0 := h
      simp [freeLoop, hp]
  | cons x xs ih =>
    intro p fuel h hno hf
    obtain ⟨h1, h2, h3⟩ := h
    cases fuel with
    | zero => exact absurd hf (by simp)
    | succ n =>
      have hlen : xs.length < n := by simpa using hf
      subst h1
      have hne : p ≠ pTargetBlock := fun e => hno (by simp [e])
      have hno2 : pTargetBlock ∉ xs := fun e => hno (List.mem_cons_of_mem p e)
      simp [freeLoop, h2, hne, ih _ n h3 hno2 hlen]

theorem FreeBuffer_not_found (st : State) (blocks : List Nat) (pBuffer fuel : Nat)
    (hlist : IsChain st.mem st.g_pMemoryBlocks blocks)
    (hno : pBuffer / MH_BLOCK_SIZE * MH_BLOCK_SIZE ∉ blocks)
    (hfuel : blocks.length < fuel) :
    FreeBuffer fuel st pBuffer = some st := by
  unfold FreeBuffer
  rw [freeLoop_not_found st.mem _ pBuffer blocks _ fuel hlist hno hfuel]

/-! ## Claims -/

/-- C2: the first buffer handed out of a freshly created block does not lie
inside that block.  On the empty list, `AllocateBuffer(0x20010)` with the
operating system granting `0x1F000` creates the single block `0x1F000` and
returns `0x20000 = 0x1F000 + MH_BLOCK_SIZE`, the slot that starts where the
one-page mapping ends, so its extent is not contained in
`[base + sizeof(MEMORY_BLOCK), base + MH_BLOCK_SIZE)`. -/
theorem C2_first_buffer_outside_block :
    (runCalls 100 demoRange [Call.allocate osGrantAll 0x20010]).bind
        (fun r => (blockList 100 r.1).map (fun l => (r.2, l)))
      = some ([0x1F000 + MH_BLOCK_SIZE], [0x1F000])
    ∧ ¬ (0x1F000 + SIZEOF_MEMORY_BLOCK ≤ 0x1F000 + MH_BLOCK_SIZE
          ∧ (0x1F000 + MH_BLOCK_SIZE) + MH_SLOT_SIZE ≤ 0x1F000 + MH_BLOCK_SIZE) := by
  constructor
  · decide!
  · decide

/-- C4: a released buffer is not put back on the free list of the block it
was allocated from.  The buffer `0x20000` returned out of the fresh block
`0x1F000` is released; afterwards the free list of block `0x1F000` holds 63
slots, `0x20000` is not among them, and the next allocation returns
`0x1FFC0`. -/
theorem C4_released_buffer_not_on_free_list :
    (runCalls 100 demoRange [Call.allocate osGrantAll 0x20010, Call.release 0x20000]).bind
        (fun r => (freeList 100 r.1 0x1F000).map
          (fun l => (r.2, blockList 100 r.1, l.length, decide (0x20000 ∈ l))))
      = some ([0x20000], some [0x1F000], 63, false)
    ∧ (runCalls 100 demoRange [Call.allocate osGrantAll 0x20010, Call.release 0x20000,
          Call.allocate osRefuseAll 0x20010]).map (fun r => r.2)
      = some [0x20000, 0x1FFC0] := by
  constructor
  · decide!
  · decide!

/-- C8: releasing a pointer whose page is not the base of any block in the
block list completes and leaves the whole state, memory included, exactly as
it was. -/
theorem C8_unrecognized_release_is_noop (st : State) (blocks : List Nat)
    (pBuffer fuel : Nat)
    (hlist : IsChain st.mem st.g_pMemoryBlocks blocks)
    (hno : pBuffer / MH_BLOCK_SIZE * MH_BLOCK_SIZE ∉ blocks)
    (hfuel : blocks.length < fuel) :
    FreeBuffer fuel st pBuffer = some st :=
  FreeBuffer_not_found st blocks pBuffer fuel hlist hno hfuel

/-- Witness for C8: in the state with the single block `0x1F000`, releasing
`0x50040` changes nothing. -/
theorem C8_unrecognized_release_is_noop_witness :
    IsChain demoOneBlock.mem demoOneBlock.g_pMemoryBlocks [0x1F000]
    ∧ 0x50040 / MH_BLOCK_SIZE * MH_BLOCK_SIZE ∉ [0x1F000]
    ∧ FreeBuffer 2 demoOneBlock 0x50040 = some demoOneBlock :=
  ⟨by decide!, by decide!,
    C8_unrecognized_release_is_noop demoOneBlock [0x1F000] 0x50040 2 (by decide!) (by decide!)
      (by decide)⟩


/-! ## The probe loops -/

theorem subPtr_block (a : Nat) (h1 : MH_BLOCK_SIZE ≤ a) (h2 : a < PTR_MOD) :
    subPtr a MH_BLOCK_SIZE = a - MH_BLOCK_SIZE := by
  unfold subPtr PTR_MOD MH_BLOCK_SIZE at *
  omega

theorem subPtr_lt (a b : Nat) : subPtr a b < 2 ^ 64 := by
  unfold subPtr PTR_MOD
  omega

theorem addPtr_lt (a b : Nat) : addPtr a b < 2 ^ 64 := by
  unfold addPtr PTR_MOD
  omega

theorem scanBlocks_none_free (m : Mem) (lo hi : Nat) :
    ∀ (l : List Nat) (p fuel : Nat), IsChain m p l →
      (∀ b ∈ l, lo ≤ b → b < hi → load64 m (pFreeField b) = 0) → l.length < fuel →
      scanBlocks fuel m lo hi p = some 0 := by
  intro l
  induction l with
  | nil =>
    intro p fuel h _ hf
    cases fuel with
    | zero => exact absurd hf (by simp)
    | succ n =>
      have hp : p = 0 := h
      simp [scanBlocks, hp]
  | cons x xs ih =>
    intro p fuel h hfull hf
    obtain ⟨h1, h2, h3⟩ := h
    cases fuel with
    | zero => exact absurd hf (by simp)
    | succ n =>
      have hlen : xs.length < n := by simpa using hf
      subst h1
      have hrec := ih _ n h3 (fun b hb => hfull b (List.mem_cons_of_mem p hb)) hlen
      unfold scanBlocks
      rw [if_neg h2]
      by_cases hw : p < lo ∨ p ≥ hi
      · rw [if_pos hw]; exact hrec
      · rw [if_neg hw]
        have hz : load64 m (pFreeField p) = 0 :=
          hfull p (List.mem_cons_self p xs) (by omega) (by omega)
        rw [if_neg (by simp [hz])]
        exact hrec

theorem probeDown_refused (os : Nat → Nat) (hos : ∀ a, os a = 0) (lo : Nat) (hlo : 0 < lo) :
    ∀ (n a : Nat), a % MH_BLOCK_SIZE = 0 → a < PTR_MOD → a / MH_BLOCK_SIZE < n →
      ∃ tr, probeDown n os lo a = some (0, tr) ∧ tr.length ≤ a / MH_BLOCK_SIZE + 1 := by
  intro n
  induction n with
  | zero => intro a _ _ h; exact absurd h (by simp)
  | succ k ih =>
    intro a hal hlt hn
    unfold probeDown
    simp only [eager_eq]
    by_cases hge : a ≥ lo
    · rw [if_pos hge, if_neg (by simp [hos a])]
      have hbig : MH_BLOCK_SIZE ≤ a := by
        unfold MH_BLOCK_SIZE at *
        omega
      rw [subPtr_block a hbig hlt]
      have h1 : (a - MH_BLOCK_SIZE) % MH_BLOCK_SIZE = 0 := by
        unfold MH_BLOCK_SIZE at *
        omega
      have h2 : (a - MH_BLOCK_SIZE) / MH_BLOCK_SIZE < k := by
        unfold MH_BLOCK_SIZE at *
        omega
      obtain ⟨tr, htr, hlen⟩ := ih (a - MH_BLOCK_SIZE) h1 (by omega) h2
      rw [htr]
      refine ⟨a :: tr, rfl, ?_⟩
      simp only [List.length_cons]
      unfold MH_BLOCK_SIZE at *
      omega
    · rw [if_neg hge]
      exact ⟨[], rfl, by simp⟩

theorem probeUp_refused (os : Nat → Nat) (hos : ∀ a, os a = 0) (hi : Nat)
    (hhi : hi ≤ PTR_MOD - MH_BLOCK_SIZE) :
    ∀ (n a : Nat), (hi - a + 4095) / MH_BLOCK_SIZE < n →
      ∃ tr, probeUp n os hi a = some (0, tr) ∧ tr.length ≤ (hi - a + 4095) / MH_BLOCK_SIZE := by
  intro n
  induction n with
  | zero => intro a h; exact absurd h (by simp)
  | succ k ih =>
    intro a hn
    unfold probeUp
    simp only [eager_eq]
    by_cases hlt : a < hi
    · rw [if_pos hlt, if_neg (by simp [hos a])]
      have hadd : addPtr a MH_BLOCK_SIZE = a + MH_BLOCK_SIZE := by
        unfold addPtr PTR_MOD MH_BLOCK_SIZE at *
        omega
      rw [hadd]
      clear hadd
      have h2 : (hi - (a + MH_BLOCK_SIZE) + 4095) / MH_BLOCK_SIZE < k := by
        unfold MH_BLOCK_SIZE at *
        omega
      obtain ⟨tr, htr, hlen⟩ := ih (a + MH_BLOCK_SIZE) h2
      rw [htr]
      refine ⟨a :: tr, rfl, ?_⟩
      simp only [List.length_cons]
      unfold MH_BLOCK_SIZE at *
      omega
    · rw [if_neg hlt]
      exact ⟨[], rfl, by simp⟩

theorem probeNew_refused (os : Nat → Nat) (hos : ∀ a, os a = 0) (lo hi pOrigin fuel : Nat)
    (hlo : 0 < lo) (hhi : hi ≤ PTR_MOD - MH_BLOCK_SIZE)
    (hfuel : PTR_MOD / MH_BLOCK_SIZE < fuel) :
    ∃ tr, probeNew fuel os lo hi pOrigin = some (0, tr)
      ∧ tr.length ≤ 2 * (PTR_MOD / MH_BLOCK_SIZE) := by
  unfold probeNew
  have ha : subPtr (pOrigin / MH_BLOCK_SIZE * MH_BLOCK_SIZE) MH_BLOCK_SIZE % MH_BLOCK_SIZE = 0 := by
    unfold subPtr PTR_MOD MH_BLOCK_SIZE
    omega
  have hb := subPtr_lt (pOrigin / MH_BLOCK_SIZE * MH_BLOCK_SIZE) MH_BLOCK_SIZE
  obtain ⟨tr1, h1, hl1⟩ := probeDown_refused os hos lo hlo fuel _ ha hb (by
    unfold PTR_MOD MH_BLOCK_SIZE at *
    omega)
  have hc := addPtr_lt (pOrigin / MH_BLOCK_SIZE * MH_BLOCK_SIZE) MH_BLOCK_SIZE
  obtain ⟨tr2, h2, hl2⟩ := probeUp_refused os hos hi hhi fuel
    (addPtr (pOrigin / MH_BLOCK_SIZE * MH_BLOCK_SIZE) MH_BLOCK_SIZE) (by
    unfold PTR_MOD MH_BLOCK_SIZE at *
    omega)
  simp only [h1, h2, if_true]
  refine ⟨tr1 ++ tr2, rfl, ?_⟩
  rw [List.length_append]
  unfold PTR_MOD MH_BLOCK_SIZE at *
  omega

theorem windowLo_pos (st : State) (pOrigin : Nat) (hmin : 0 < st.g_MinAddress) :
    0 < windowLo st pOrigin := by
  unfold windowLo
  split
  · exact lt_of_lt_of_le hmin (le_max_left _ _)
  · exact hmin

theorem windowHi_le (st : State) (pOrigin : Nat) : windowHi st pOrigin ≤ st.g_MaxAddress := by
  unfold windowHi
  exact min_le_left _ _

/-- C10 (amended): with `0 < minAddress` and `maxAddress ≤ 2 ^ 64 - MH_BLOCK_SIZE`,
when no block of the list inside the window has a free slot and the operating
system refuses every request, `AllocateBuffer` returns `NULL` for every fuel
above `length of the block list + 2 ^ 52`, after at most `2 ^ 53` probes, and
leaves the state unchanged. -/
theorem C10_exhaustion_returns_null (st : State) (blocks : List Nat) (os : Nat → Nat)
    (pOrigin fuel : Nat)
    (hmin : 0 < st.g_MinAddress)
    (hmax : st.g_MaxAddress ≤ PTR_MOD - MH_BLOCK_SIZE)
    (hlist : IsChain st.mem st.g_pMemoryBlocks blocks)
    (hfull : ∀ b ∈ blocks, windowLo st pOrigin ≤ b → b < windowHi st pOrigin →
      load64 st.mem (pFreeField b) = 0)
    (hos : ∀ a, os a = 0)
    (hfuel : blocks.length + PTR_MOD / MH_BLOCK_SIZE < fuel) :
    ∃ tr, AllocateBuffer fuel os st pOrigin = some (0, st, tr)
      ∧ tr.length ≤ 2 * (PTR_MOD / MH_BLOCK_SIZE) := by
  have hscan := scanBlocks_none_free st.mem (windowLo st pOrigin) (windowHi st pOrigin)
    blocks st.g_pMemoryBlocks fuel hlist hfull
    (Nat.lt_of_le_of_lt (Nat.le_add_right _ _) hfuel)
  obtain ⟨tr, hp, hl⟩ := probeNew_refused os hos (windowLo st pOrigin) (windowHi st pOrigin)
    pOrigin fuel (windowLo_pos st pOrigin hmin) (le_trans (windowHi_le st pOrigin) hmax)
    (by
      unfold PTR_MOD MH_BLOCK_SIZE at *
      omega)
  refine ⟨tr, ?_, hl⟩
  unfold AllocateBuffer GetMemoryBlock
  simp [hscan, hp]

/-- Witness for C10: the empty list with the 64-bit Windows user range. -/
theorem C10_exhaustion_returns_null_witness :
    ∃ tr, AllocateBuffer (2 ^ 52 + 1) osRefuseAll demoRange 0x20010 = some (0, demoRange, tr)
      ∧ tr.length ≤ 2 * (PTR_MOD / MH_BLOCK_SIZE) :=
  C10_exhaustion_returns_null demoRange [] osRefuseAll 0x20010 (2 ^ 52 + 1)
    (by decide) (by decide) (by decide) (by simp) (fun _ => rfl) (by decide)

theorem probeDown_zero_of_refused (os : Nat → Nat) (hos : ∀ a, os a = 0) (lo : Nat) :
    ∀ (n a p : Nat) (tr : List Nat), probeDown n os lo a = some (p, tr) → p = 0 := by
  intro n
  induction n with
  | zero => intro a p tr h; simp [probeDown] at h
  | succ k ih =>
    intro a p tr h
    unfold probeDown at h
    simp only [eager_eq] at h
    by_cases hge : a ≥ lo
    · rw [if_pos hge, if_neg (by simp [hos a])] at h
      cases hrec : probeDown k os lo (subPtr a MH_BLOCK_SIZE) with
      | none => rw [hrec] at h; simp at h
      | some r =>
        rw [hrec] at h
        simp only [Option.some.injEq, Prod.mk.injEq] at h
        rw [← h.1]
        exact ih _ r.1 r.2 hrec
    · rw [if_neg hge] at h
      simp only [Option.some.injEq, Prod.mk.injEq] at h
      exact h.1.symm

/-- With a lower bound of zero the downward loop never leaves: the test
`pAlloc >= minAddr` holds for every unsigned `pAlloc`. -/
theorem probeDown_diverges (os : Nat → Nat) (hos : ∀ a, os a = 0) :
    ∀ (n a : Nat), probeDown n os 0 a = none := by
  intro n
  induction n with
  | zero => intro a; rfl
  | succ k ih =>
    intro a
    unfold probeDown
    simp only [eager_eq]
    rw [if_pos (Nat.zero_le a), if_neg (by simp [hos a]), ih]

/-- With an upper bound above `2 ^ 64 - MH_BLOCK_SIZE` the upward loop never
leaves: every page-aligned `pAlloc` is below the bound. -/
theorem probeUp_diverges (os : Nat → Nat) (hos : ∀ a, os a = 0) (hi : Nat)
    (hhi : PTR_MOD - MH_BLOCK_SIZE < hi) :
    ∀ (n a : Nat), a % MH_BLOCK_SIZE = 0 → a < PTR_MOD → probeUp n os hi a = none := by
  intro n
  induction n with
  | zero => intro a _ _; rfl
  | succ k ih =>
    intro a hal hlt
    unfold probeUp
    simp only [eager_eq]
    have h1 : a < hi := by
      unfold PTR_MOD MH_BLOCK_SIZE at *
      omega
    have h2 : addPtr a MH_BLOCK_SIZE % MH_BLOCK_SIZE = 0 := by
      unfold addPtr PTR_MOD MH_BLOCK_SIZE at *
      omega
    rw [if_pos h1, if_neg (by simp [hos a]), ih _ h2 (addPtr_lt _ _)]

/-- C10 (counterexample): on the empty block list, with the operating system
refusing every request, `AllocateBuffer` does not return, whatever the fuel:
with `minAddress = 0` and origin `0x20010` the downward loop runs forever, and
with `maxAddress = 2 ^ 64 - 1` and origin `2 ^ 64 - MH_MAX_RANGE - 1` the
upward loop runs forever. -/
theorem C10_counterexample :
    (∀ fuel, AllocateBuffer fuel osRefuseAll (emptyState 0 0x7FFFFFFEFFFF) 0x20010 = none)
    ∧ (∀ fuel, AllocateBuffer fuel osRefuseAll (emptyState 0x10000 (2 ^ 64 - 1))
        (2 ^ 64 - MH_MAX_RANGE - 1) = none) := by
  constructor
  · intro fuel
    unfold AllocateBuffer GetMemoryBlock
    cases fuel with
    | zero => rfl
    | succ n =>
      have hlo : windowLo (emptyState 0 0x7FFFFFFEFFFF) 0x20010 = 0 := by decide
      simp only [hlo]
      have hs : scanBlocks (n + 1) (emptyState 0 0x7FFFFFFEFFFF).mem 0
          (windowHi (emptyState 0 0x7FFFFFFEFFFF) 0x20010)
          (emptyState 0 0x7FFFFFFEFFFF).g_pMemoryBlocks = some 0 := by
        simp [scanBlocks, emptyState]
      rw [hs]
      simp [probeNew, probeDown_diverges osRefuseAll (fun _ => rfl)]
  · intro fuel
    unfold AllocateBuffer GetMemoryBlock
    cases fuel with
    | zero => rfl
    | succ n =>
      have hhi : windowHi (emptyState 0x10000 (2 ^ 64 - 1)) (2 ^ 64 - MH_MAX_RANGE - 1)
          = 2 ^ 64 - 1 := by decide
      simp only [hhi]
      have hs : scanBlocks (n + 1) (emptyState 0x10000 (2 ^ 64 - 1)).mem
          (windowLo (emptyState 0x10000 (2 ^ 64 - 1)) (2 ^ 64 - MH_MAX_RANGE - 1))
          (2 ^ 64 - 1)
          (emptyState 0x10000 (2 ^ 64 - 1)).g_pMemoryBlocks = some 0 := by
        simp [scanBlocks, emptyState]
      rw [hs]
      have hup : ∀ a, a % MH_BLOCK_SIZE = 0 → a < PTR_MOD →
          probeUp (n + 1) osRefuseAll (2 ^ 64 - 1) a = none :=
        probeUp_diverges osRefuseAll (fun _ => rfl) (2 ^ 64 - 1) (by decide) (n + 1)
      simp only [probeNew]
      cases hd : probeDown (n + 1) osRefuseAll
          (windowLo (emptyState 0x10000 (2 ^ 64 - 1)) (2 ^ 64 - MH_MAX_RANGE - 1))
          (subPtr ((2 ^ 64 - MH_MAX_RANGE - 1) / MH_BLOCK_SIZE * MH_BLOCK_SIZE) MH_BLOCK_SIZE) with
      | none => simp
      | some r =>
        obtain ⟨p, tr⟩ := r
        have hz : p = 0 := probeDown_zero_of_refused osRefuseAll (fun _ => rfl) _ _ _ p tr hd
        have hu := hup (addPtr ((2 ^ 64 - MH_MAX_RANGE - 1) / MH_BLOCK_SIZE * MH_BLOCK_SIZE)
          MH_BLOCK_SIZE) (by decide) (by decide)
        subst hz
        simp only [hu, if_true]
        simp

/-! ## Where the block returned by `GetMemoryBlock` lies -/

theorem scanBlocks_found (m : Mem) (lo hi : Nat) :
    ∀ (fuel p b : Nat), scanBlocks fuel m lo hi p = some b → b ≠ 0 →
      lo ≤ b ∧ b < hi ∧ load64 m (pFreeField b) ≠ 0 := by
  intro fuel
  induction fuel with
  | zero => intro p b h; simp [scanBlocks] at h
  | succ n ih =>
    intro p b h hb
    unfold scanBlocks at h
    by_cases hp : p = 0
    · rw [if_pos hp] at h
      exact absurd (Option.some.inj h).symm hb
    · rw [if_neg hp] at h
      by_cases hw : p < lo ∨ p ≥ hi
      · rw [if_pos hw] at h
        exact ih _ b h hb
      · rw [if_neg hw] at h
        by_cases hfree : load64 m (pFreeField p) ≠ 0
        · rw [if_pos hfree] at h
          have hpb : p = b := Option.some.inj h
          subst hpb
          exact ⟨by omega, by omega, hfree⟩
        · rw [if_neg hfree] at h
          exact ih _ b h hb

theorem probeDown_found (os : Nat → Nat) (hos : ∀ a, os a = 0 ∨ os a = a) (lo : Nat)
    (hlo : 0 < lo) :
    ∀ (n a p : Nat) (tr : List Nat), a % MH_BLOCK_SIZE = 0 → a < PTR_MOD →
      probeDown n os lo a = some (p, tr) → p ≠ 0 → lo ≤ p ∧ p ≤ a := by
  intro n
  induction n with
  | zero => intro a p tr _ _ h; simp [probeDown] at h
  | succ k ih =>
    intro a p tr hal hlt h hp
    unfold probeDown at h
    simp only [eager_eq] at h
    by_cases hge : a ≥ lo
    · rw [if_pos hge] at h
      by_cases hgrant : os a ≠ 0
      · rw [if_pos hgrant] at h
        simp only [Option.some.injEq, Prod.mk.injEq] at h
        rcases hos a with h0 | h0
        · exact absurd h0 hgrant
        · rw [← h.1, h0]
          exact ⟨hge, le_refl a⟩
      · rw [if_neg hgrant] at h
        have hbig : MH_BLOCK_SIZE ≤ a := by
          unfold MH_BLOCK_SIZE at *
          omega
        rw [subPtr_block a hbig hlt] at h
        cases hrec : probeDown k os lo (a - MH_BLOCK_SIZE) with
        | none => rw [hrec] at h; simp at h
        | some r =>
          obtain ⟨q, tr2⟩ := r
          rw [hrec] at h
          simp only [Option.some.injEq, Prod.mk.injEq] at h
          have hq : q = p := h.1
          subst hq
          have h1 : (a - MH_BLOCK_SIZE) % MH_BLOCK_SIZE = 0 := by
            unfold MH_BLOCK_SIZE at *
            omega
          have := ih (a - MH_BLOCK_SIZE) q tr2 h1 (by omega) hrec hp
          exact ⟨this.1, by omega⟩
    · rw [if_neg hge] at h
      simp only [Option.some.injEq, Prod.mk.injEq] at h
      exact absurd h.1.symm hp

theorem probeUp_found (os : Nat → Nat) (hos : ∀ a, os a = 0 ∨ os a = a) (hi : Nat)
    (hhi : hi ≤ PTR_MOD - MH_BLOCK_SIZE) :
    ∀ (n a p : Nat) (tr : List Nat),
      probeUp n os hi a = some (p, tr) → p ≠ 0 → a ≤ p ∧ p < hi := by
  intro n
  induction n with
  | zero => intro a p tr h; simp [probeUp] at h
  | succ k ih =>
    intro a p tr h hp
    unfold probeUp at h
    simp only [eager_eq] at h
    by_cases hlt : a < hi
    · rw [if_pos hlt] at h
      by_cases hgrant : os a ≠ 0
      · rw [if_pos hgrant] at h
        simp only [Option.some.injEq, Prod.mk.injEq] at h
        rcases hos a with h0 | h0
        · exact absurd h0 hgrant
        · rw [← h.1, h0]
          exact ⟨le_refl a, hlt⟩
      · rw [if_neg hgrant] at h
        have hadd : addPtr a MH_BLOCK_SIZE = a + MH_BLOCK_SIZE := by
          unfold addPtr PTR_MOD MH_BLOCK_SIZE at *
          omega
        rw [hadd] at h
        cases hrec : probeUp k os hi (a + MH_BLOCK_SIZE) with
        | none => rw [hrec] at h; simp at h
        | some r =>
          obtain ⟨q, tr2⟩ := r
          rw [hrec] at h
          simp only [Option.some.injEq, Prod.mk.injEq] at h
          have hq : q = p := h.1
          subst hq
          have := ih (a + MH_BLOCK_SIZE) q tr2 hrec hp
          exact ⟨by omega, this.2⟩
    · rw [if_neg hlt] at h
      simp only [Option.some.injEq, Prod.mk.injEq] at h
      exact absurd h.1.symm hp

/-- The block returned by the probe loops, under an operating system that
returns the address asked or `NULL` and away from unsigned wrap-around, lies
in the window and is not the page of the origin. -/
theorem probeNew_found (os : Nat → Nat) (hos : ∀ a, os a = 0 ∨ os a = a)
    (lo hi pOrigin fuel p : Nat) (tr : List Nat)
    (hlo : 0 < lo) (hhi : hi ≤ PTR_MOD - MH_BLOCK_SIZE)
    (ho1 : MH_BLOCK_SIZE ≤ pOrigin) (ho2 : pOrigin + MH_BLOCK_SIZE < PTR_MOD)
    (h : probeNew fuel os lo hi pOrigin = some (p, tr)) (hp : p ≠ 0) :
    (lo ≤ p ∧ p + MH_BLOCK_SIZE ≤ pOrigin / MH_BLOCK_SIZE * MH_BLOCK_SIZE)
    ∨ (pOrigin / MH_BLOCK_SIZE * MH_BLOCK_SIZE + MH_BLOCK_SIZE ≤ p ∧ p < hi) := by
  unfold probeNew at h
  simp only at h
  have hs1 : MH_BLOCK_SIZE ≤ pOrigin / MH_BLOCK_SIZE * MH_BLOCK_SIZE := by
    unfold MH_BLOCK_SIZE at *
    omega
  have hs2 : pOrigin / MH_BLOCK_SIZE * MH_BLOCK_SIZE < PTR_MOD := by
    unfold MH_BLOCK_SIZE at *
    omega
  rw [subPtr_block _ hs1 hs2] at h
  have hadd : addPtr (pOrigin / MH_BLOCK_SIZE * MH_BLOCK_SIZE) MH_BLOCK_SIZE
      = pOrigin / MH_BLOCK_SIZE * MH_BLOCK_SIZE + MH_BLOCK_SIZE := by
    unfold addPtr PTR_MOD MH_BLOCK_SIZE at *
    omega
  rw [hadd] at h
  clear hadd
  cases hd : probeDown fuel os lo (pOrigin / MH_BLOCK_SIZE * MH_BLOCK_SIZE - MH_BLOCK_SIZE) with
  | none => rw [hd] at h; simp at h
  | some r =>
    obtain ⟨q, tr1⟩ := r
    rw [hd] at h
    simp only at h
    by_cases hq : q = 0
    · rw [if_pos hq] at h
      cases hu : probeUp fuel os hi (pOrigin / MH_BLOCK_SIZE * MH_BLOCK_SIZE + MH_BLOCK_SIZE) with
      | none => rw [hu] at h; simp at h
      | some r2 =>
        obtain ⟨q2, tr2⟩ := r2
        rw [hu] at h
        simp only [Option.some.injEq, Prod.mk.injEq] at h
        have hq2 : q2 = p := h.1
        subst hq2
        exact Or.inr (probeUp_found os hos hi hhi fuel _ q2 tr2 hu hp)
    · rw [if_neg hq] at h
      simp only [Option.some.injEq, Prod.mk.injEq] at h
      have hqp : q = p := h.1
      subst hqp
      have hal : (pOrigin / MH_BLOCK_SIZE * MH_BLOCK_SIZE - MH_BLOCK_SIZE) % MH_BLOCK_SIZE = 0 := by
        unfold MH_BLOCK_SIZE at *
        omega
      have := probeDown_found os hos lo hlo fuel _ q tr1 hal (by omega) hd hq
      exact Or.inl ⟨this.1, by omega⟩

theorem window_lower (st : State) (pOrigin b : Nat) (ho : pOrigin < PTR_MOD)
    (h : windowLo st pOrigin ≤ b) : pOrigin ≤ b + MH_MAX_RANGE := by
  unfold windowLo at h
  by_cases hc : pOrigin > MH_MAX_RANGE
  · rw [if_pos hc] at h
    have h2 : subPtr pOrigin MH_MAX_RANGE ≤ b := le_trans (le_max_right _ _) h
    unfold subPtr PTR_MOD MH_MAX_RANGE at *
    omega
  · omega

theorem window_upper (st : State) (pOrigin b : Nat)
    (h : b < windowHi st pOrigin) : b < pOrigin + MH_MAX_RANGE := by
  unfold windowHi at h
  have h2 : b < addPtr pOrigin MH_MAX_RANGE := lt_of_lt_of_le h (min_le_right _ _)
  unfold addPtr PTR_MOD at h2
  have := Nat.mod_le (pOrigin + MH_MAX_RANGE) (2 ^ 64)
  omega

/-- The base of the block returned by `GetMemoryBlock` is within
`MH_MAX_RANGE` of the origin. -/
theorem GetMemoryBlock_base_near (st : State) (os : Nat → Nat)
    (pOrigin fuel pBlock : Nat) (st1 : State) (tr : List Nat)
    (hmin : 0 < st.g_MinAddress)
    (hmax : st.g_MaxAddress ≤ PTR_MOD - MH_BLOCK_SIZE)
    (ho1 : MH_BLOCK_SIZE ≤ pOrigin) (ho2 : pOrigin + MH_BLOCK_SIZE < PTR_MOD)
    (hos : ∀ a, os a = 0 ∨ os a = a)
    (h : GetMemoryBlock fuel os st pOrigin = some (pBlock, st1, tr)) (hp : pBlock ≠ 0) :
    pOrigin ≤ pBlock + MH_MAX_RANGE ∧ pBlock < pOrigin + MH_MAX_RANGE := by
  have ho : pOrigin < PTR_MOD := by omega
  unfold GetMemoryBlock at h
  cases hs : scanBlocks fuel st.mem (windowLo st pOrigin) (windowHi st pOrigin)
      st.g_pMemoryBlocks with
  | none => rw [hs] at h; simp at h
  | some pFound =>
    rw [hs] at h
    simp only at h
    by_cases hf : pFound ≠ 0
    · rw [if_pos hf] at h
      simp only [Option.some.injEq, Prod.mk.injEq] at h
      have hb : pFound = pBlock := h.1
      subst hb
      have := scanBlocks_found st.mem _ _ fuel _ pFound hs hf
      exact ⟨window_lower st pOrigin pFound ho this.1, window_upper st pOrigin pFound this.2.1⟩
    · rw [if_neg hf] at h
      cases hn : probeNew fuel os (windowLo st pOrigin) (windowHi st pOrigin) pOrigin with
      | none => rw [hn] at h; simp at h
      | some r =>
        obtain ⟨q, tr1⟩ := r
        rw [hn] at h
        simp only at h
        by_cases hq : q ≠ 0
        · rw [if_pos hq] at h
          cases hi : initBlock fuel st q with
          | none => rw [hi] at h; simp at h
          | some st2 =>
            rw [hi] at h
            simp only [Option.some.injEq, Prod.mk.injEq] at h
            have hb : q = pBlock := h.1
            subst hb
            rcases probeNew_found os hos _ _ pOrigin fuel q tr1 (windowLo_pos st pOrigin hmin)
              (le_trans (windowHi_le st pOrigin) hmax) ho1 ho2 hn hq with hd | hu
            · refine ⟨window_lower st pOrigin q ho hd.1, ?_⟩
              have := hd.2
              unfold MH_BLOCK_SIZE MH_MAX_RANGE at *
              omega
            · refine ⟨?_, window_upper st pOrigin q hu.2⟩
              have := hu.1
              unfold MH_BLOCK_SIZE MH_MAX_RANGE at *
              omega
        · rw [if_neg hq] at h
          simp only [Option.some.injEq, Prod.mk.injEq] at h
          exact absurd h.1.symm hp

/-- C1 (amended): with `0 < minAddress`, `maxAddress ≤ 2 ^ 64 - MH_BLOCK_SIZE`,
`MH_BLOCK_SIZE ≤ origin < 2 ^ 64 - MH_BLOCK_SIZE` and an operating system that
returns `NULL` or the address asked, a buffer returned by `AllocateBuffer` is
the free-list head of a block whose base is within `MH_MAX_RANGE` of the
origin. -/
theorem C1_block_base_within_range (st : State) (os : Nat → Nat)
    (pOrigin fuel B : Nat) (st2 : State) (tr : List Nat)
    (hmin : 0 < st.g_MinAddress)
    (hmax : st.g_MaxAddress ≤ PTR_MOD - MH_BLOCK_SIZE)
    (ho1 : MH_BLOCK_SIZE ≤ pOrigin) (ho2 : pOrigin + MH_BLOCK_SIZE < PTR_MOD)
    (hos : ∀ a, os a = 0 ∨ os a = a)
    (h : AllocateBuffer fuel os st pOrigin = some (B, st2, tr)) (hB : B ≠ 0) :
    ∃ pBlock st1, GetMemoryBlock fuel os st pOrigin = some (pBlock, st1, tr)
      ∧ pBlock ≠ 0 ∧ B = load64 st1.mem (pFreeField pBlock)
      ∧ pOrigin ≤ pBlock + MH_MAX_RANGE ∧ pBlock < pOrigin + MH_MAX_RANGE := by
  unfold AllocateBuffer at h
  cases hg : GetMemoryBlock fuel os st pOrigin with
  | none => rw [hg] at h; simp at h
  | some r =>
    obtain ⟨pBlock, st1, tr1⟩ := r
    rw [hg] at h
    simp only at h
    by_cases hp : pBlock = 0
    · rw [if_pos hp] at h
      simp only [Option.some.injEq, Prod.mk.injEq] at h
      exact absurd h.1.symm hB
    · rw [if_neg hp] at h
      simp only [Option.some.injEq, Prod.mk.injEq] at h
      obtain ⟨h1, _, h3⟩ := h
      subst h3
      exact ⟨pBlock, st1, rfl, hp, h1.symm,
        GetMemoryBlock_base_near st os pOrigin fuel pBlock st1 tr1 hmin hmax ho1 ho2 hos hg hp⟩

/-- Witness for C1: the first allocation at `0x20010` on the empty list. -/
theorem C1_block_base_within_range_witness :
    ∃ B st2 tr, AllocateBuffer 100 osGrantAll demoRange 0x20010 = some (B, st2, tr) ∧ B ≠ 0
      ∧ ∃ pBlock st1, GetMemoryBlock 100 osGrantAll demoRange 0x20010 = some (pBlock, st1, tr)
        ∧ pBlock ≠ 0 ∧ B = load64 st1.mem (pFreeField pBlock)
        ∧ 0x20010 ≤ pBlock + MH_MAX_RANGE ∧ pBlock < 0x20010 + MH_MAX_RANGE := by
  have hv : (AllocateBuffer 100 osGrantAll demoRange 0x20010).map (fun r => r.1)
      = some 0x20000 := by decide!
  cases h : AllocateBuffer 100 osGrantAll demoRange 0x20010 with
  | none => rw [h] at hv; simp at hv
  | some r =>
    obtain ⟨B, st2, tr⟩ := r
    rw [h] at hv
    have hB : B ≠ 0 := by
      simp only [Option.map_some', Option.some.injEq] at hv
      omega
    exact ⟨B, st2, tr, rfl, hB,
      C1_block_base_within_range demoRange osGrantAll 0x20010 100 B st2 tr (by decide)
        (by decide) (by decide) (by decide) (fun a => Or.inr rfl) h hB⟩

/-- C1 (counterexample): buffers further than `MH_MAX_RANGE` from the origin.
(1) After a first allocation has created the block `0x7FF60001F000`, a second
`AllocateBuffer(0x7FF60001F000 - MH_MAX_RANGE + 1)` reuses that block, whose
base is inside the window, and returns `0x7FF60001FFC0`, which is
`MH_MAX_RANGE + 4031` above the origin.  (2) For the origin `0x10`, below
the first page boundary, `pStart - MH_BLOCK_SIZE` wraps around and the block
is mapped at the top of the address space.  (3) With `minAddress = 0` the
downward loop passes address `0` and wraps around likewise.  (4) With
`maxAddress = 2 ^ 64 - 1` the upward loop wraps around to the bottom of the
address space.  (5) A block at whatever address the operating system
returns is used as it is. -/
theorem C1_counterexample :
    ((runCalls 100 demoRange [Call.allocate osGrantAll 0x7FF600020010,
        Call.allocate osRefuseAll (0x7FF60001F000 - MH_MAX_RANGE + 1)]).map (fun r => r.2)
      = some [0x7FF600020000, 0x7FF60001FFC0]
      ∧ MH_MAX_RANGE < 0x7FF60001FFC0 - (0x7FF60001F000 - MH_MAX_RANGE + 1))
    ∧ (runCalls 100 demoRange [Call.allocate (osGrantOnly (2 ^ 64 - 0x2000)) 0x10]).bind
        (fun r => (blockList 10 r.1).map (fun l => (r.2, l)))
      = some ([2 ^ 64 - 0x1000], [2 ^ 64 - 0x2000])
    ∧ (runCalls 100 (emptyState 0 0x7FFFFFFEFFFF)
        [Call.allocate (osGrantOnly (2 ^ 64 - 0x2000)) 0x1800]).bind
        (fun r => (blockList 10 r.1).map (fun l => (r.2, l)))
      = some ([2 ^ 64 - 0x1000], [2 ^ 64 - 0x2000])
    ∧ (runCalls 5000 (emptyState (2 ^ 64 - MH_MAX_RANGE - 0x1000) (2 ^ 64 - 1))
        [Call.allocate (osGrantOnly 0x5000) (2 ^ 64 - MH_MAX_RANGE - 1)]).bind
        (fun r => (blockList 10 r.1).map (fun l => (r.2, l)))
      = some ([0x6000], [0x5000])
    ∧ (runCalls 100 demoRange [Call.allocate (fun _ => 0x700000000000) 0x20010]).bind
        (fun r => (blockList 10 r.1).map (fun l => (r.2, l)))
      = some ([0x700000001000], [0x700000000000]) := by
  refine ⟨⟨?_, ?_⟩, ?_, ?_, ?_, ?_⟩
  · decide!
  · decide
  · decide!
  · decide!
  · decide!
  · decide!

theorem demoOneBlock_wf : WellFormed demoOneBlock [0x1F000] demoFree where
  blocks_chain := by decide!
  free_chain := by decide!
  pFree_pNext := by decide!
  pFree_pFree := by decide!
  pFree_slot := by decide!

/-! ## Popping and pushing on well-formed memory -/

theorem IsChain.nil_iff (m : Mem) (p : Nat) (l : List Nat) (h : IsChain m p l) :
    l = [] ↔ p = 0 := by
  cases l with
  | nil => exact ⟨fun _ => h, fun _ => rfl⟩
  | cons x xs =>
    obtain ⟨h1, h2, _⟩ := h
    constructor
    · intro e; exact absurd e (by simp)
    · intro e; exact absurd (h1 ▸ e) h2

/-- On a chain of blocks the scan returns the first block in the window
whose `pFree` is not `NULL`. -/
theorem scanBlocks_find (m : Mem) (lo hi : Nat) (ok : Nat → Bool) (b : Nat) :
    ∀ (l : List Nat) (p fuel : Nat), IsChain m p l →
      (∀ x ∈ l, ok x = true ↔ (lo ≤ x ∧ x < hi ∧ load64 m (pFreeField x) ≠ 0)) →
      l.find? ok = some b → l.length < fuel →
      scanBlocks fuel m lo hi p = some b := by
  intro l
  induction l with
  | nil => intro p fuel _ _ hfind _; simp at hfind
  | cons x xs ih =>
    intro p fuel h hok hfind hf
    obtain ⟨h1, h2, h3⟩ := h
    cases fuel with
    | zero => exact absurd hf (by simp)
    | succ n =>
      have hlen : xs.length < n := by simpa using hf
      subst h1
      unfold scanBlocks
      rw [if_neg h2]
      have hokp := hok p (List.mem_cons_self p xs)
      by_cases hx : ok p = true
      · have hpb : p = b := by
          rw [List.find?_cons_of_pos _ hx] at hfind
          exact Option.some.inj hfind
        obtain ⟨ha, hb, hc⟩ := hokp.mp hx
        rw [if_neg (by omega), if_pos hc, hpb]
      · rw [List.find?_cons_of_neg _ hx] at hfind
        have hrec := ih _ n h3 (fun y hy => hok y (List.mem_cons_of_mem p hy)) hfind hlen
        by_cases hw : p < lo ∨ p ≥ hi
        · rw [if_pos hw]; exact hrec
        · rw [if_neg hw]
          have hz : ¬ load64 m (pFreeField p) ≠ 0 := fun hc =>
            hx (hokp.mpr ⟨by omega, by omega, hc⟩)
          rw [if_neg hz]
          exact hrec

theorem usable_iff (st : State) (blocks : List Nat) (fl : Nat → List Nat) (pOrigin : Nat)
    (hwf : WellFormed st blocks fl) (x : Nat) (hx : x ∈ blocks) :
    usable st pOrigin fl x = true ↔ (windowLo st pOrigin ≤ x ∧ x < windowHi st pOrigin
      ∧ load64 st.mem (pFreeField x) ≠ 0) := by
  unfold usable
  rw [decide_eq_true_iff]
  have := IsChain.nil_iff st.mem _ _ (hwf.free_chain x hx)
  constructor
  · rintro ⟨h1, h2, h3⟩
    exact ⟨h1, h2, fun e => h3 (this.mpr e)⟩
  · rintro ⟨h1, h2, h3⟩
    exact ⟨h1, h2, fun e => h3 (this.mp e)⟩

/-- Writing the `pFree` field of a block of a well-formed memory keeps the
block list and the free lists of the other blocks. -/
theorem WellFormed.set_pFree (st : State) (blocks : List Nat) (fl fl2 : Nat → List Nat)
    (b v : Nat) (hwf : WellFormed st blocks fl) (hb : b ∈ blocks)
    (hother : ∀ x, x ≠ b → fl2 x = fl x)
    (hsep : ∀ c ∈ blocks, ∀ s ∈ fl2 b, Disj8 (pFreeField c) s)
    (hchain : IsChain (store64 st.mem (pFreeField b) v) v (fl2 b)) (hv : v < 2 ^ 64) :
    WellFormed { st with mem := store64 st.mem (pFreeField b) v } blocks fl2 where
  blocks_chain :=
    IsChain.store st.mem _ v blocks _ hwf.blocks_chain (fun c hc => hwf.pFree_pNext b hb c hc)
  free_chain := by
    intro x hx
    by_cases hxb : x = b
    · subst hxb
      show IsChain (store64 st.mem (pFreeField x) v) (load64 (store64 st.mem (pFreeField x) v)
        (pFreeField x)) (fl2 x)
      rw [load64_store64_same _ _ _ hv]
      exact hchain
    · show IsChain (store64 st.mem (pFreeField b) v) (load64 (store64 st.mem (pFreeField b) v)
        (pFreeField x)) (fl2 x)
      rw [load64_store64_disj _ _ _ _ (hwf.pFree_pFree b hb x hx (Ne.symm hxb)), hother x hxb]
      exact IsChain.store st.mem _ v _ _ (hwf.free_chain x hx)
        (fun s hs => hwf.pFree_slot b hb x hx s hs)
  pFree_pNext := hwf.pFree_pNext
  pFree_pFree := hwf.pFree_pFree
  pFree_slot := by
    intro c hc x hx s hs
    by_cases hxb : x = b
    · subst hxb
      exact hsep c hc s hs
    · rw [hother x hxb] at hs
      exact hwf.pFree_slot c hc x hx s hs

/-- `AllocateBuffer` when the scan finds the block `b`: no request to the
operating system, the head of the free list of `b` is returned and popped. -/
theorem AllocateBuffer_reuse (st : State) (blocks : List Nat) (fl : Nat → List Nat)
    (os : Nat → Nat) (pOrigin fuel b : Nat)
    (hwf : WellFormed st blocks fl)
    (hfind : blocks.find? (usable st pOrigin fl) = some b)
    (hfuel : blocks.length < fuel) :
    ∃ B st2, AllocateBuffer fuel os st pOrigin = some (B, st2, [])
      ∧ (fl b).head? = some B
      ∧ (st2.g_pMemoryBlocks, st2.g_MinAddress, st2.g_MaxAddress)
          = (st.g_pMemoryBlocks, st.g_MinAddress, st.g_MaxAddress)
      ∧ WellFormed st2 blocks (popFree fl b) := by
  have hb : b ∈ blocks := List.mem_of_find?_eq_some hfind
  have hscan := scanBlocks_find st.mem (windowLo st pOrigin) (windowHi st pOrigin)
    (usable st pOrigin fl) b blocks st.g_pMemoryBlocks fuel hwf.blocks_chain
    (fun x hx => usable_iff st blocks fl pOrigin hwf x hx) hfind hfuel
  have hb0 : b ≠ 0 := fun e => IsChain.zero_not_mem st.mem blocks _ hwf.blocks_chain (e ▸ hb)
  have huse : usable st pOrigin fl b = true := List.find?_some hfind
  have hne : fl b ≠ [] := by
    unfold usable at huse
    rw [decide_eq_true_iff] at huse
    exact huse.2.2
  have hfc := hwf.free_chain b hb
  obtain ⟨B, t, hBt⟩ := List.exists_cons_of_ne_nil hne
  rw [hBt] at hfc
  obtain ⟨h1, h2, h3⟩ := hfc
  refine ⟨B, { st with mem := store64 st.mem (pFreeField b) (load64 st.mem B) }, ?_, ?_, rfl, ?_⟩
  · unfold AllocateBuffer GetMemoryBlock
    simp [hscan, hb0, h1]
  · rw [hBt]; rfl
  · have hpop : popFree fl b b = t := by simp [popFree, hBt]
    apply WellFormed.set_pFree st blocks fl (popFree fl b) b (load64 st.mem B) hwf hb
    · intro x hx
      simp [popFree, hx]
    · intro c hc s hs
      rw [hpop] at hs
      exact hwf.pFree_slot c hc b hb s (by rw [hBt]; exact List.mem_cons_of_mem B hs)
    · rw [hpop]
      exact IsChain.store st.mem _ _ t _ h3
        (fun s hs => hwf.pFree_slot b hb b hb s (by rw [hBt]; exact List.mem_cons_of_mem B hs))
    · exact load64_lt _ _

/-- C5: on a well-formed memory, when some block of the list lies in the
window and has a non-empty free list, `AllocateBuffer` issues no request to
the operating system, returns the head of the free list of the first such
block `b` in list order, and leaves the block list as it is, the free list
of `b` being its former tail and every other free list unchanged. -/
theorem C5_reuse_before_create (st : State) (blocks : List Nat) (fl : Nat → List Nat)
    (os : Nat → Nat) (pOrigin fuel : Nat)
    (hwf : WellFormed st blocks fl)
    (hex : ∃ x ∈ blocks, windowLo st pOrigin ≤ x ∧ x < windowHi st pOrigin ∧ fl x ≠ [])
    (hfuel : blocks.length < fuel) :
    ∃ b B st2, blocks.find? (usable st pOrigin fl) = some b
      ∧ AllocateBuffer fuel os st pOrigin = some (B, st2, [])
      ∧ (fl b).head? = some B
      ∧ (st2.g_pMemoryBlocks, st2.g_MinAddress, st2.g_MaxAddress)
          = (st.g_pMemoryBlocks, st.g_MinAddress, st.g_MaxAddress)
      ∧ WellFormed st2 blocks (popFree fl b) := by
  obtain ⟨x, hx, hux⟩ := hex
  have hsome : (blocks.find? (usable st pOrigin fl)).isSome = true := by
    rw [List.find?_isSome]
    exact ⟨x, hx, by unfold usable; exact decide_eq_true hux⟩
  obtain ⟨b, hb⟩ := Option.isSome_iff_exists.mp hsome
  obtain ⟨B, st2, h⟩ := AllocateBuffer_reuse st blocks fl os pOrigin fuel b hwf hb hfuel
  exact ⟨b, B, st2, hb, h⟩

/-- Witness for C5: the state with the one block `0x1F000` and 63 free
slots; the allocation returns the head `0x1FFC0`. -/
theorem C5_reuse_before_create_witness :
    WellFormed demoOneBlock [0x1F000] demoFree
    ∧ (∃ x ∈ [0x1F000], windowLo demoOneBlock 0x20010 ≤ x ∧ x < windowHi demoOneBlock 0x20010
        ∧ demoFree x ≠ [])
    ∧ ∃ b B st2, [0x1F000].find? (usable demoOneBlock 0x20010 demoFree) = some b
      ∧ AllocateBuffer 2 osRefuseAll demoOneBlock 0x20010 = some (B, st2, [])
      ∧ (demoFree b).head? = some B
      ∧ (st2.g_pMemoryBlocks, st2.g_MinAddress, st2.g_MaxAddress)
          = (demoOneBlock.g_pMemoryBlocks, demoOneBlock.g_MinAddress,
              demoOneBlock.g_MaxAddress)
      ∧ WellFormed st2 [0x1F000] (popFree demoFree b) :=
  ⟨demoOneBlock_wf, by decide!,
    C5_reuse_before_create demoOneBlock [0x1F000] demoFree osRefuseAll 0x20010 2
      demoOneBlock_wf (by decide!) (by decide)⟩

/-! ## `FreeBuffer` on a pointer whose page is a block -/

theorem freeLoop_found (m : Mem) (pTargetBlock pBuffer : Nat) :
    ∀ (l : List Nat) (p fuel : Nat), IsChain m p l → pTargetBlock ∈ l → l.length < fuel →
      freeLoop fuel m p pTargetBlock pBuffer
        = some (store64 (store64 m pBuffer (load64 m (pFreeField pTargetBlock)))
            (pFreeField pTargetBlock) pBuffer) := by
  intro l
  induction l with
  | nil => intro p fuel _ hmem _; simp at hmem
  | cons x xs ih =>
    intro p fuel h hmem hf
    obtain ⟨h1, h2, h3⟩ := h
    cases fuel with
    | zero => exact absurd hf (by simp)
    | succ n =>
      have hlen : xs.length < n := by simpa using hf
      subst h1
      unfold freeLoop
      rw [if_neg h2]
      by_cases hpt : p = pTargetBlock
      · rw [if_pos hpt, hpt]
      · rw [if_neg hpt]
        rcases List.mem_cons.mp hmem with e | e
        · exact absurd e.symm hpt
        · exact ih _ n h3 e hlen

/-- Pushing `p` on the free list of the block `b`: the two stores of
`FreeBuffer` keep a well-formed memory well formed when the link field at
`p` overlaps no block header and no link field of a free slot. -/
theorem WellFormed.push (st : State) (blocks : List Nat) (fl : Nat → List Nat) (p b : Nat)
    (hwf : WellFormed st blocks fl) (hmem : b ∈ blocks) (hp0 : p ≠ 0) (hp : p < 2 ^ 64)
    (hhdr : ∀ c ∈ blocks, Disj8 p c ∧ Disj8 p (pFreeField c))
    (hslot : ∀ c ∈ blocks, ∀ s ∈ fl c, Disj8 p s) :
    WellFormed { st with mem := (store64 (store64 st.mem p (load64 st.mem (pFreeField b)))
      (pFreeField b) p) } blocks (pushFree fl b p) := by
  have hwf1 : WellFormed { st with mem := store64 st.mem p (load64 st.mem (pFreeField b)) }
      blocks fl :=
    { blocks_chain := IsChain.store st.mem p _ blocks _ hwf.blocks_chain
        (fun c hc => (hhdr c hc).1)
      free_chain := by
        intro x hx
        show IsChain (store64 st.mem p _) (load64 (store64 st.mem p _) (pFreeField x)) (fl x)
        rw [load64_store64_disj _ _ _ _ (hhdr x hx).2]
        exact IsChain.store st.mem p _ _ _ (hwf.free_chain x hx) (fun s hs => hslot x hx s hs)
      pFree_pNext := hwf.pFree_pNext
      pFree_pFree := hwf.pFree_pFree
      pFree_slot := hwf.pFree_slot }
  have hpush : pushFree fl b p b = p :: fl b := by simp [pushFree]
  apply WellFormed.set_pFree _ blocks fl (pushFree fl b p) b p hwf1 hmem
  · intro x hx
    simp [pushFree, hx]
  · intro c hc s hs
    rw [hpush] at hs
    rcases List.mem_cons.mp hs with e | e
    · rw [e]; exact Disj8.symm (hhdr c hc).2
    · exact hwf.pFree_slot c hc b hmem s e
  · rw [hpush]
    refine ⟨rfl, hp0, ?_⟩
    show IsChain (store64 (store64 st.mem p (load64 st.mem (pFreeField b))) (pFreeField b) p)
      (load64 (store64 (store64 st.mem p (load64 st.mem (pFreeField b))) (pFreeField b) p) p)
      (fl b)
    rw [load64_store64_disj _ _ _ _ (Disj8.symm (hhdr b hmem).2),
      load64_store64_same _ _ _ (load64_lt _ _)]
    apply IsChain.store _ _ _ _ _ _ (fun s hs => hwf.pFree_slot b hmem b hmem s hs)
    exact IsChain.store st.mem p _ _ _ (hwf.free_chain b hmem) (fun s hs => hslot b hmem s hs)
  · exact hp

/-- C7 (amended): on a well-formed memory, when the page of `p` is the base
of a block `b` of the list and the 8-byte link field at `p` overlaps no
block header and no link field of a free slot, `FreeBuffer(p)` makes `p` the
head of the free list of `b`, the previous free list being its tail, and
keeps the block list and every other free list. -/
theorem C7_release_pushes_on_owner (st : State) (blocks : List Nat) (fl : Nat → List Nat)
    (p fuel b : Nat)
    (hwf : WellFormed st blocks fl)
    (hb : b = p / MH_BLOCK_SIZE * MH_BLOCK_SIZE) (hmem : b ∈ blocks)
    (hp : p < PTR_MOD)
    (hhdr : ∀ c ∈ blocks, Disj8 p c ∧ Disj8 p (pFreeField c))
    (hslot : ∀ c ∈ blocks, ∀ s ∈ fl c, Disj8 p s)
    (hfuel : blocks.length < fuel) :
    ∃ st2, FreeBuffer fuel st p = some st2
      ∧ (st2.g_pMemoryBlocks, st2.g_MinAddress, st2.g_MaxAddress)
          = (st.g_pMemoryBlocks, st.g_MinAddress, st.g_MaxAddress)
      ∧ WellFormed st2 blocks (pushFree fl b p) := by
  have hb0 : b ≠ 0 := fun e => IsChain.zero_not_mem st.mem blocks _ hwf.blocks_chain (e ▸ hmem)
  have hp0 : p ≠ 0 := by
    intro e
    rw [e] at hb
    exact hb0 (by simpa using hb)
  have hloop := freeLoop_found st.mem b p blocks st.g_pMemoryBlocks fuel hwf.blocks_chain
    hmem hfuel
  refine ⟨{ st with mem := (store64 (store64 st.mem p (load64 st.mem (pFreeField b)))
      (pFreeField b) p) }, ?_, rfl, ?_⟩
  · unfold FreeBuffer
    rw [← hb, hloop]
  · exact WellFormed.push st blocks fl p b hwf hmem hp0 (by unfold PTR_MOD at hp; exact hp)
      hhdr hslot

theorem demoTwoOut_wf : WellFormed demoTwoOut [0x1F000] (popFree demoFree 0x1F000) where
  blocks_chain := by decide!
  free_chain := by decide!
  pFree_pNext := by decide!
  pFree_pFree := by decide!
  pFree_slot := by decide!

/-- Witness for C7: after two allocations from the block `0x1F000`, the
second buffer, `0x1FFC0`, is released. -/
theorem C7_release_pushes_on_owner_witness :
    WellFormed demoTwoOut [0x1F000] (popFree demoFree 0x1F000)
    ∧ (0x1F000 = 0x1FFC0 / MH_BLOCK_SIZE * MH_BLOCK_SIZE)
    ∧ (∀ c ∈ [0x1F000], Disj8 0x1FFC0 c ∧ Disj8 0x1FFC0 (pFreeField c))
    ∧ (∀ c ∈ [0x1F000], ∀ s ∈ popFree demoFree 0x1F000 c, Disj8 0x1FFC0 s)
    ∧ ∃ st2, FreeBuffer 2 demoTwoOut 0x1FFC0 = some st2
      ∧ (st2.g_pMemoryBlocks, st2.g_MinAddress, st2.g_MaxAddress)
          = (demoTwoOut.g_pMemoryBlocks, demoTwoOut.g_MinAddress, demoTwoOut.g_MaxAddress)
      ∧ WellFormed st2 [0x1F000] (pushFree (popFree demoFree 0x1F000) 0x1F000 0x1FFC0) :=
  ⟨demoTwoOut_wf, by decide, by decide!, by decide!,
    C7_release_pushes_on_owner demoTwoOut [0x1F000] (popFree demoFree 0x1F000) 0x1FFC0 2
      0x1F000 demoTwoOut_wf (by decide) (by decide) (by decide) (by decide!) (by decide!)
      (by decide)⟩

/-- C7 (counterexample): (1) in the state with the single block `0x1F000`,
`FreeBuffer(0x1F000)` stores the old `pFree` over the `pNext` field of the
block header, and the block list grows from one entry to 64.  (2) Releasing
`0x1FFC0`, which is already the head of the free list, makes the slot its own
successor, so the tail of the new free list is not the previous free list. -/
theorem C7_counterexample :
    (0x1F000 = 0x1F000 / MH_BLOCK_SIZE * MH_BLOCK_SIZE
      ∧ blockList 100 demoOneBlock = some [0x1F000]
      ∧ (FreeBuffer 100 demoOneBlock 0x1F000).bind
          (fun st => (blockList 100 st).map (fun l => (l.length, l.take 3)))
        = some (64, [0x1F000, 0x1FFC0, 0x1FF80]))
    ∧ (0x1F000 = 0x1FFC0 / MH_BLOCK_SIZE * MH_BLOCK_SIZE
      ∧ (freeList 100 demoOneBlock 0x1F000).map (fun l => l.take 2) = some [0x1FFC0, 0x1FF80]
      ∧ (FreeBuffer 100 demoOneBlock 0x1FFC0).map
          (fun st => (load64 st.mem (pFreeField 0x1F000), load64 st.mem 0x1FFC0,
            freeList 1000 st 0x1F000))
        = some (0x1FFC0, 0x1FFC0, none)) := by
  refine ⟨⟨by decide, ?_, ?_⟩, by decide, ?_, ?_⟩
  · decide!
  · decide!
  · decide!
  · decide!

/-- C9 (counterexample): `0x1F064` was never returned by `AllocateBuffer`
(the only buffer returned so far is `0x20000`), yet `FreeBuffer(0x1F064)`
lengthens the free list of the block `0x1F000` from 63 to 64 entries. -/
theorem C9_counterexample :
    (runCalls 100 demoRange [Call.allocate osGrantAll 0x20010]).bind
        (fun r => (freeList 100 r.1 0x1F000).map (fun l => (r.2, l.length)))
      = some ([0x20000], 63)
    ∧ (runCalls 100 demoRange [Call.allocate osGrantAll 0x20010, Call.release 0x1F064]).bind
        (fun r => (freeList 100 r.1 0x1F000).map (fun l => (r.2, l.length, l.head?)))
      = some ([0x20000], 64, some 0x1F064) := by
  constructor
  · decide!
  · decide!

/-- C9 (amended): when the block list is a `NULL`-terminated chain and the
page of `p` is not the base of a block of the list, `FreeBuffer(p)`
completes and leaves the block list and the length of every free list
unchanged. -/
theorem C9_release_outside_blocks (st : State) (blocks : List Nat) (p fuel : Nat)
    (hlist : IsChain st.mem st.g_pMemoryBlocks blocks)
    (hno : p / MH_BLOCK_SIZE * MH_BLOCK_SIZE ∉ blocks)
    (hfuel : blocks.length < fuel) :
    ∃ st2, FreeBuffer fuel st p = some st2
      ∧ (∀ n, blockList n st2 = blockList n st)
      ∧ ∀ n b, (freeList n st2 b).map List.length = (freeList n st b).map List.length := by
  refine ⟨st, FreeBuffer_not_found st blocks p fuel hlist hno hfuel, ?_, ?_⟩
  · intro n; rfl
  · intro n b; rfl

/-- Witness for C9: in the state with the single block `0x1F000`, the
pointer `0x20040` lies in no block. -/
theorem C9_release_outside_blocks_witness :
    IsChain demoOneBlock.mem demoOneBlock.g_pMemoryBlocks [0x1F000]
    ∧ 0x20040 / MH_BLOCK_SIZE * MH_BLOCK_SIZE ∉ [0x1F000]
    ∧ ∃ st2, FreeBuffer 2 demoOneBlock 0x20040 = some st2
      ∧ (∀ n, blockList n st2 = blockList n demoOneBlock)
      ∧ ∀ n b, (freeList n st2 b).map List.length
          = (freeList n demoOneBlock b).map List.length :=
  ⟨by decide!, by decide!,
    C9_release_outside_blocks demoOneBlock [0x1F000] 0x20040 2 (by decide!) (by decide!)
      (by decide)⟩

/-- C6: creating a second block does not leave the previous block list
intact.  After 64 allocations at origin `0x20010` the block list is the
single block `0x1F000` with an empty free list.  The 65th allocation, the
operating system refusing `0x1F000` and granting `0x1E000`, maps the block
`0x1E000`; the slot loop writes the link of the slot at
`0x1E000 + MH_BLOCK_SIZE = 0x1F000` over the `pNext` field of the old block,
so the block list becomes 65 entries long (the new block, the old block,
then 63 slots of the new block read as blocks), and the buffer returned is
`0x1F000`, the header of the old block. -/
theorem C6_second_block_corrupts_list :
    (runCalls 100 demoRange exhaustOneBlock).bind (fun r =>
      (runCalls 100 r.1 [Call.allocate (osGrantExcept 0x1F000) 0x20010]).bind (fun r2 =>
        (blockList 100 r.1).bind (fun l1 => (freeList 100 r.1 0x1F000).bind (fun f1 =>
          (blockList 100 r2.1).map (fun l2 =>
            [l1, f1, r2.2, [l2.length], l2.take 4, l2.drop 63])))))
      = some [[0x1F000], [], [0x1F000], [65],
          [0x1E000, 0x1F000, 0x1EFC0, 0x1EF80], [0x1E080, 0x1E040]] := by
  decide!

/-! ## The slots of a fresh block -/

theorem mem_slotsDown (b : Nat) :
    ∀ (j s : Nat), s ∈ slotsDown b j ↔ ∃ k, 1 ≤ k ∧ k ≤ j ∧ s = b + MH_SLOT_SIZE * k := by
  intro j
  induction j with
  | zero =>
    intro s
    simp only [slotsDown, List.not_mem_nil, false_iff]
    rintro ⟨k, h1, h2, _⟩
    omega
  | succ n ih =>
    intro s
    simp only [slotsDown, List.mem_cons, ih]
    constructor
    · rintro (h | ⟨k, h1, h2, h3⟩)
      · exact ⟨n + 1, by omega, le_refl _, h⟩
      · exact ⟨k, h1, by omega, h3⟩
    · rintro ⟨k, h1, h2, h3⟩
      by_cases hk : k = n + 1
      · left; rw [h3, hk]
      · right; exact ⟨k, h1, by omega, h3⟩

theorem slotsDown_nodup (b : Nat) : ∀ j, (slotsDown b j).Nodup := by
  intro j
  induction j with
  | zero => simp [slotsDown]
  | succ n ih =>
    simp only [slotsDown, List.nodup_cons]
    refine ⟨?_, ih⟩
    intro h
    obtain ⟨k, _, h2, h3⟩ := (mem_slotsDown b n _).mp h
    unfold MH_SLOT_SIZE at h3
    omega

/-- A memory that agrees with `m` on the link fields of a chain holds the
same chain. -/
theorem IsChain.frame (m m2 : Mem) :
    ∀ (l : List Nat) (p : Nat), IsChain m p l → (∀ x ∈ l, load64 m2 x = load64 m x) →
      IsChain m2 p l := by
  intro l
  induction l with
  | nil => intro p h _; exact h
  | cons x xs ih =>
    intro p h hd
    obtain ⟨h1, h2, h3⟩ := h
    refine ⟨h1, h2, ?_⟩
    rw [hd x (List.mem_cons_self x xs)]
    exact ih _ h3 (fun y hy => hd y (List.mem_cons_of_mem x hy))

/-- What the slot-building loop leaves in memory when it returns: `pFree`
is the slot at `pBlock + MH_BLOCK_SIZE`, the free list is the 64 slots from
there down to `pBlock + MH_SLOT_SIZE`, and nothing outside
`[pBlock + 8, pBlock + MH_BLOCK_SIZE + 8)` is written. -/
theorem buildSlots_spec (N : Nat) (hN : N + 2 * MH_BLOCK_SIZE ≤ PTR_MOD) :
    ∀ (fuel j : Nat) (m m2 : Mem), j ≤ 63 →
      IsChain m (load64 m (pFreeField N)) (slotsDown N j) →
      buildSlots fuel m N (N + MH_SLOT_SIZE * (j + 1)) = some m2 →
      load64 m2 (pFreeField N) = N + MH_BLOCK_SIZE
      ∧ IsChain m2 (N + MH_BLOCK_SIZE) (slotsDown N 64)
      ∧ ∀ x, (x + 8 ≤ N + 8 ∨ N + MH_BLOCK_SIZE + 8 ≤ x) → load64 m2 x = load64 m x := by
  intro fuel
  induction fuel with
  | zero => intro j m m2 _ _ h; simp [buildSlots] at h
  | succ n ih =>
    intro j m m2 hj hch h
    unfold buildSlots at h
    simp only at h
    have hadd : addPtr (N + MH_SLOT_SIZE * (j + 1)) MH_SLOT_SIZE
        = N + MH_SLOT_SIZE * (j + 1 + 1) := by
      unfold addPtr PTR_MOD MH_SLOT_SIZE MH_BLOCK_SIZE at *
      omega
    have hsub : subPtr (N + MH_SLOT_SIZE * (j + 1 + 1)) N = MH_SLOT_SIZE * (j + 1 + 1) := by
      unfold subPtr PTR_MOD MH_SLOT_SIZE MH_BLOCK_SIZE at *
      omega
    rw [hadd, hsub] at h
    clear hadd hsub
    -- the memory after this iteration
    obtain ⟨M, hM⟩ : ∃ M, M = store64 (store64 m (N + MH_SLOT_SIZE * (j + 1))
        (load64 m (pFreeField N))) (pFreeField N) (N + MH_SLOT_SIZE * (j + 1)) := ⟨_, rfl⟩
    rw [← hM] at h
    have hd1 : Disj8 (pFreeField N) (N + MH_SLOT_SIZE * (j + 1)) := by
      unfold Disj8 pFreeField MH_SLOT_SIZE
      omega
    have hv : N + MH_SLOT_SIZE * (j + 1) < 2 ^ 64 := by
      unfold PTR_MOD MH_SLOT_SIZE MH_BLOCK_SIZE at *
      omega
    have hpf : load64 M (pFreeField N) = N + MH_SLOT_SIZE * (j + 1) := by
      rw [hM]; exact load64_store64_same _ _ _ hv
    have hch2 : IsChain M (N + MH_SLOT_SIZE * (j + 1)) (slotsDown N (j + 1)) := by
      refine ⟨rfl, by unfold MH_SLOT_SIZE; omega, ?_⟩
      rw [hM, load64_store64_disj _ _ _ _ hd1, load64_store64_same _ _ _ (load64_lt _ _)]
      apply IsChain.store
      · apply IsChain.store _ _ _ _ _ hch
        intro s hs
        obtain ⟨k, h1, h2, h3⟩ := (mem_slotsDown N j s).mp hs
        unfold Disj8 MH_SLOT_SIZE at *
        omega
      · intro s hs
        obtain ⟨k, h1, h2, h3⟩ := (mem_slotsDown N j s).mp hs
        unfold Disj8 pFreeField MH_SLOT_SIZE at *
        omega
    have hframe : ∀ x, (x + 8 ≤ N + 8 ∨ N + MH_BLOCK_SIZE + 8 ≤ x) →
        load64 M x = load64 m x := by
      intro x hx
      rw [hM, load64_store64_disj, load64_store64_disj]
      · unfold Disj8 MH_SLOT_SIZE MH_BLOCK_SIZE at *
        omega
      · unfold Disj8 pFreeField MH_SLOT_SIZE MH_BLOCK_SIZE at *
        omega
    clear hM
    by_cases hc : MH_SLOT_SIZE * (j + 1 + 1) ≤ MH_BLOCK_SIZE
    · rw [if_pos hc] at h
      have hj2 : j + 1 ≤ 63 := by
        unfold MH_SLOT_SIZE MH_BLOCK_SIZE at hc
        omega
      have hch3 : IsChain M (load64 M (pFreeField N)) (slotsDown N (j + 1)) := by
        rw [hpf]; exact hch2
      obtain ⟨r1, r2, r3⟩ := ih (j + 1) M m2 hj2 hch3 h
      exact ⟨r1, r2, fun x hx => (r3 x hx).trans (hframe x hx)⟩
    · rw [if_neg hc] at h
      have hm : M = m2 := Option.some.inj h
      have hj2 : j = 63 := by
        unfold MH_SLOT_SIZE MH_BLOCK_SIZE at hc
        omega
      subst hj2
      subst hm
      have h64 : N + MH_SLOT_SIZE * (63 + 1) = N + MH_BLOCK_SIZE := by
        unfold MH_SLOT_SIZE MH_BLOCK_SIZE
        omega
      rw [h64] at hpf hch2
      exact ⟨hpf, hch2, hframe⟩

/-- What `initBlock` leaves when it returns: the new block heads the block
list, its free list is the 64 slots built by the loop, and nothing outside
`[pBlock, pBlock + MH_BLOCK_SIZE + 8)` is written. -/
theorem initBlock_spec (st st1 : State) (N fuel : Nat)
    (hN : N + 2 * MH_BLOCK_SIZE ≤ PTR_MOD) (hg : st.g_pMemoryBlocks < 2 ^ 64)
    (h : initBlock fuel st N = some st1) :
    st1.g_pMemoryBlocks = N ∧ st1.g_MinAddress = st.g_MinAddress
      ∧ st1.g_MaxAddress = st.g_MaxAddress
      ∧ load64 st1.mem N = st.g_pMemoryBlocks
      ∧ load64 st1.mem (pFreeField N) = N + MH_BLOCK_SIZE
      ∧ IsChain st1.mem (N + MH_BLOCK_SIZE) (slotsDown N 64)
      ∧ ∀ x, (x + 8 ≤ N ∨ N + MH_BLOCK_SIZE + 8 ≤ x) → load64 st1.mem x = load64 st.mem x := by
  unfold initBlock at h
  have hadd : addPtr N MH_SLOT_SIZE = N + MH_SLOT_SIZE * (0 + 1) := by
    unfold addPtr PTR_MOD MH_SLOT_SIZE MH_BLOCK_SIZE at *
    omega
  rw [hadd] at h
  cases hb : buildSlots fuel (store64 st.mem (pFreeField N) 0) N
      (N + MH_SLOT_SIZE * (0 + 1)) with
  | none => rw [hb] at h; simp at h
  | some m2 =>
    rw [hb] at h
    have hst : _ = st1 := Option.some.inj h
    have h0 : IsChain (store64 st.mem (pFreeField N) 0)
        (load64 (store64 st.mem (pFreeField N) 0) (pFreeField N)) (slotsDown N 0) := by
      rw [load64_store64_same _ _ _ (by decide)]
      rfl
    obtain ⟨r1, r2, r3⟩ := buildSlots_spec N hN fuel 0 _ m2 (by omega) h0 hb
    rw [← hst]
    refine ⟨rfl, rfl, rfl, ?_, ?_, ?_, ?_⟩
    · exact load64_store64_same _ _ _ hg
    · show load64 (store64 m2 N st.g_pMemoryBlocks) (pFreeField N) = N + MH_BLOCK_SIZE
      rw [load64_store64_disj _ _ _ _ (by unfold Disj8 pFreeField; omega)]
      exact r1
    · apply IsChain.store _ _ _ _ _ r2
      intro s hs
      obtain ⟨k, h1, h2, h3⟩ := (mem_slotsDown N 64 s).mp hs
      unfold Disj8 MH_SLOT_SIZE at *
      omega
    · intro x hx
      show load64 (store64 m2 N st.g_pMemoryBlocks) x = load64 st.mem x
      rw [load64_store64_disj _ _ _ _ (by unfold Disj8 MH_BLOCK_SIZE at *; omega),
        r3 x (by unfold MH_BLOCK_SIZE at *; omega),
        load64_store64_disj _ _ _ _ (by unfold Disj8 pFreeField MH_BLOCK_SIZE at *; omega)]

theorem scanBlocks_mem (m : Mem) (lo hi : Nat) :
    ∀ (l : List Nat) (p fuel b : Nat), IsChain m p l → scanBlocks fuel m lo hi p = some b →
      b ≠ 0 → b ∈ l := by
  intro l
  induction l with
  | nil =>
    intro p fuel b h hs hb
    have hp : p = 0 := h
    cases fuel with
    | zero => simp [scanBlocks] at hs
    | succ n =>
      simp only [scanBlocks, hp, if_true, Option.some.injEq] at hs
      exact absurd hs.symm hb
  | cons x xs ih =>
    intro p fuel b h hs hb
    obtain ⟨h1, h2, h3⟩ := h
    subst h1
    cases fuel with
    | zero => simp [scanBlocks] at hs
    | succ n =>
      unfold scanBlocks at hs
      rw [if_neg h2] at hs
      by_cases hw : p < lo ∨ p ≥ hi
      · rw [if_pos hw] at hs
        exact List.mem_cons_of_mem p (ih _ n b h3 hs hb)
      · rw [if_neg hw] at hs
        by_cases hf : load64 m (pFreeField p) ≠ 0
        · rw [if_pos hf] at hs
          rw [← Option.some.inj hs]
          exact List.mem_cons_self p xs
        · rw [if_neg hf] at hs
          exact List.mem_cons_of_mem p (ih _ n b h3 hs hb)

theorem probeDown_os (os : Nat → Nat) (lo : Nat) :
    ∀ (n a p : Nat) (tr : List Nat), probeDown n os lo a = some (p, tr) → p ≠ 0 →
      ∃ x, os x = p := by
  intro n
  induction n with
  | zero => intro a p tr h; simp [probeDown] at h
  | succ k ih =>
    intro a p tr h hp
    unfold probeDown at h
    simp only [eager_eq] at h
    by_cases hge : a ≥ lo
    · rw [if_pos hge] at h
      by_cases hgrant : os a ≠ 0
      · rw [if_pos hgrant] at h
        simp only [Option.some.injEq, Prod.mk.injEq] at h
        exact ⟨a, h.1⟩
      · rw [if_neg hgrant] at h
        cases hrec : probeDown k os lo (subPtr a MH_BLOCK_SIZE) with
        | none => rw [hrec] at h; simp at h
        | some r =>
          obtain ⟨q, tr2⟩ := r
          rw [hrec] at h
          simp only [Option.some.injEq, Prod.mk.injEq] at h
          rw [← h.1] at hp ⊢
          exact ih _ q tr2 hrec hp
    · rw [if_neg hge] at h
      simp only [Option.some.injEq, Prod.mk.injEq] at h
      exact absurd h.1.symm hp

theorem probeUp_os (os : Nat → Nat) (hi : Nat) :
    ∀ (n a p : Nat) (tr : List Nat), probeUp n os hi a = some (p, tr) → p ≠ 0 →
      ∃ x, os x = p := by
  intro n
  induction n with
  | zero => intro a p tr h; simp [probeUp] at h
  | succ k ih =>
    intro a p tr h hp
    unfold probeUp at h
    simp only [eager_eq] at h
    by_cases hlt : a < hi
    · rw [if_pos hlt] at h
      by_cases hgrant : os a ≠ 0
      · rw [if_pos hgrant] at h
        simp only [Option.some.injEq, Prod.mk.injEq] at h
        exact ⟨a, h.1⟩
      · rw [if_neg hgrant] at h
        cases hrec : probeUp k os hi (addPtr a MH_BLOCK_SIZE) with
        | none => rw [hrec] at h; simp at h
        | some r =>
          obtain ⟨q, tr2⟩ := r
          rw [hrec] at h
          simp only [Option.some.injEq, Prod.mk.injEq] at h
          rw [← h.1] at hp ⊢
          exact ih _ q tr2 hrec hp
    · rw [if_neg hlt] at h
      simp only [Option.some.injEq, Prod.mk.injEq] at h
      exact absurd h.1.symm hp

theorem probeNew_os (os : Nat → Nat) (lo hi pOrigin fuel p : Nat) (tr : List Nat)
    (h : probeNew fuel os lo hi pOrigin = some (p, tr)) (hp : p ≠ 0) : ∃ x, os x = p := by
  unfold probeNew at h
  simp only at h
  cases hd : probeDown fuel os lo (subPtr (pOrigin / MH_BLOCK_SIZE * MH_BLOCK_SIZE)
      MH_BLOCK_SIZE) with
  | none => rw [hd] at h; simp at h
  | some r =>
    obtain ⟨q, tr1⟩ := r
    rw [hd] at h
    simp only at h
    by_cases hq : q = 0
    · rw [if_pos hq] at h
      cases hu : probeUp fuel os hi (addPtr (pOrigin / MH_BLOCK_SIZE * MH_BLOCK_SIZE)
          MH_BLOCK_SIZE) with
      | none => rw [hu] at h; simp at h
      | some r2 =>
        obtain ⟨q2, tr2⟩ := r2
        rw [hu] at h
        simp only [Option.some.injEq, Prod.mk.injEq] at h
        rw [← h.1] at hp ⊢
        exact probeUp_os os hi fuel _ q2 tr2 hu hp
    · rw [if_neg hq] at h
      simp only [Option.some.injEq, Prod.mk.injEq] at h
      rw [← h.1]
      exact probeDown_os os lo fuel _ q tr1 hd hq

/-- The three ways `AllocateBuffer` returns: a block of the list is reused,
a block is newly mapped, or `NULL` is returned with the state unchanged. -/
theorem AllocateBuffer_cases (fuel : Nat) (os : Nat → Nat) (st : State) (pOrigin B : Nat)
    (st2 : State) (tr : List Nat)
    (h : AllocateBuffer fuel os st pOrigin = some (B, st2, tr)) :
    (∃ b, scanBlocks fuel st.mem (windowLo st pOrigin) (windowHi st pOrigin)
          st.g_pMemoryBlocks = some b ∧ b ≠ 0
        ∧ B = load64 st.mem (pFreeField b)
        ∧ st2 = { st with mem := store64 st.mem (pFreeField b) (load64 st.mem B) })
    ∨ (∃ p st1, (∃ x, os x = p) ∧ p ≠ 0 ∧ initBlock fuel st p = some st1
        ∧ B = load64 st1.mem (pFreeField p)
        ∧ st2 = { st1 with mem := store64 st1.mem (pFreeField p) (load64 st1.mem B) })
    ∨ (B = 0 ∧ st2 = st) := by
  unfold AllocateBuffer GetMemoryBlock at h
  cases hs : scanBlocks fuel st.mem (windowLo st pOrigin) (windowHi st pOrigin)
      st.g_pMemoryBlocks with
  | none => rw [hs] at h; simp at h
  | some pFound =>
    rw [hs] at h
    simp only at h
    by_cases hf : pFound ≠ 0
    · rw [if_pos hf] at h
      simp only [if_neg hf, Option.some.injEq, Prod.mk.injEq] at h
      obtain ⟨e1, e2, _⟩ := h
      refine Or.inl ⟨pFound, rfl, hf, e1.symm, ?_⟩
      rw [← e2, ← e1]
    · rw [if_neg hf] at h
      cases hn : probeNew fuel os (windowLo st pOrigin) (windowHi st pOrigin) pOrigin with
      | none => rw [hn] at h; simp at h
      | some r =>
        obtain ⟨q, tr1⟩ := r
        rw [hn] at h
        simp only at h
        by_cases hq : q ≠ 0
        · rw [if_pos hq] at h
          cases hi : initBlock fuel st q with
          | none => rw [hi] at h; simp at h
          | some st1 =>
            rw [hi] at h
            simp only [if_neg hq, Option.some.injEq, Prod.mk.injEq] at h
            obtain ⟨e1, e2, _⟩ := h
            refine Or.inr (Or.inl ⟨q, st1, probeNew_os os _ _ pOrigin fuel q tr1 hn hq, hq, hi,
              e1.symm, ?_⟩)
            rw [← e2, ← e1]
        · rw [if_neg hq] at h
          simp only [if_true, Option.some.injEq, Prod.mk.injEq] at h
          exact Or.inr (Or.inr ⟨h.1.symm, h.2.1.symm⟩)

theorem freeLoop_result (m : Mem) (pTargetBlock pBuffer : Nat) :
    ∀ (l : List Nat) (p fuel : Nat) (m2 : Mem), IsChain m p l →
      freeLoop fuel m p pTargetBlock pBuffer = some m2 →
      (pTargetBlock ∈ l ∧ m2 = store64 (store64 m pBuffer (load64 m (pFreeField pTargetBlock)))
          (pFreeField pTargetBlock) pBuffer)
      ∨ (pTargetBlock ∉ l ∧ m2 = m) := by
  intro l
  induction l with
  | nil =>
    intro p fuel m2 h hf
    have hp : p = 0 := h
    cases fuel with
    | zero => simp [freeLoop] at hf
    | succ n =>
      simp only [freeLoop, hp, if_true, Option.some.injEq] at hf
      exact Or.inr ⟨by simp, hf.symm⟩
  | cons x xs ih =>
    intro p fuel m2 h hf
    obtain ⟨h1, h2, h3⟩ := h
    subst h1
    cases fuel with
    | zero => simp [freeLoop] at hf
    | succ n =>
      unfold freeLoop at hf
      rw [if_neg h2] at hf
      by_cases hpt : p = pTargetBlock
      · rw [if_pos hpt] at hf
        subst hpt
        exact Or.inl ⟨List.mem_cons_self p xs, (Option.some.inj hf).symm⟩
      · rw [if_neg hpt] at hf
        rcases ih _ n m2 h3 hf with ⟨hm, e⟩ | ⟨hm, e⟩
        · exact Or.inl ⟨List.mem_cons_of_mem p hm, e⟩
        · refine Or.inr ⟨?_, e⟩
          intro hmem
          rcases List.mem_cons.mp hmem with e2 | e2
          · exact hpt e2.symm
          · exact hm e2

/-! ## The invariant `Sound` -/

theorem Sound.noOverlap (st : State) (out blocks : List Nat) (fl : Nat → List Nat)
    (hs : Sound st out blocks fl) : NoOverlap out := by
  unfold NoOverlap
  have hform : ∀ B ∈ out, B % MH_SLOT_SIZE = 0 := by
    intro B hB
    obtain ⟨b, hb, k, _, _, e⟩ := hs.out_form B hB
    have := (hs.aligned b hb).1
    unfold MH_SLOT_SIZE MH_BLOCK_SIZE at *
    omega
  have hnd := hs.out_nodup
  clear hs
  induction out with
  | nil => exact List.Pairwise.nil
  | cons x xs ih =>
    rw [List.nodup_cons] at hnd
    refine List.Pairwise.cons ?_ (ih (fun B hB => hform B (List.mem_cons_of_mem x hB)) hnd.2)
    intro y hy
    have hx := hform x (List.mem_cons_self x xs)
    have hy2 := hform y (List.mem_cons_of_mem x hy)
    have hne : x ≠ y := fun e => hnd.1 (e ▸ hy)
    unfold MH_SLOT_SIZE at *
    omega

theorem Sound.pop (st : State) (out blocks : List Nat) (fl : Nat → List Nat) (b : Nat)
    (hs : Sound st out blocks fl) (hb : b ∈ blocks)
    (hfree : load64 st.mem (pFreeField b) ≠ 0) :
    Sound { st with mem := (store64 st.mem (pFreeField b)
        (load64 st.mem (load64 st.mem (pFreeField b)))) }
      (load64 st.mem (pFreeField b) :: out) blocks (popFree fl b) := by
  have hfc := hs.wf.free_chain b hb
  have hne : fl b ≠ [] := fun e => hfree ((IsChain.nil_iff _ _ _ hfc).mp e)
  obtain ⟨B, t, hBt⟩ := List.exists_cons_of_ne_nil hne
  rw [hBt] at hfc
  obtain ⟨h1, h2, h3⟩ := hfc
  rw [h1]
  have hpop : popFree fl b b = t := by simp [popFree, hBt]
  have hother : ∀ x, x ≠ b → popFree fl b x = fl x := by
    intro x hx
    simp [popFree, hx]
  have hnd := hs.free_nodup b hb
  rw [hBt, List.nodup_cons] at hnd
  have hBmem : B ∈ fl b := by rw [hBt]; exact List.mem_cons_self B t
  have htsub : ∀ s ∈ t, s ∈ fl b := fun s hs2 => by rw [hBt]; exact List.mem_cons_of_mem B hs2
  have hsub : ∀ x ∈ blocks, ∀ s ∈ popFree fl b x, s ∈ fl x := by
    intro x _ s hs2
    by_cases hxb : x = b
    · subst hxb
      rw [hpop] at hs2
      exact htsub s hs2
    · rw [hother x hxb] at hs2
      exact hs2
  refine
    { wf := ?_, aligned := hs.aligned, apart := hs.apart, free_nodup := ?_, free_form := ?_,
      out_nodup := ?_, out_form := ?_, out_free := ?_ }
  · apply WellFormed.set_pFree st blocks fl (popFree fl b) b (load64 st.mem B) hs.wf hb hother
    · intro c hc s hs2
      rw [hpop] at hs2
      exact hs.wf.pFree_slot c hc b hb s (htsub s hs2)
    · rw [hpop]
      exact IsChain.store st.mem _ _ t _ h3
        (fun s hs2 => hs.wf.pFree_slot b hb b hb s (htsub s hs2))
    · exact load64_lt _ _
  · intro x hx
    by_cases hxb : x = b
    · subst hxb
      rw [hpop]
      exact hnd.2
    · rw [hother x hxb]
      exact hs.free_nodup x hx
  · intro x hx s hs2
    exact hs.free_form x hx s (hsub x hx s hs2)
  · rw [List.nodup_cons]
    exact ⟨hs.out_free b hb B hBmem, hs.out_nodup⟩
  · intro y hy
    rcases List.mem_cons.mp hy with e | e
    · obtain ⟨k, k1, k2, k3⟩ := hs.free_form b hb B hBmem
      exact ⟨b, hb, k, k1, by omega, e ▸ k3⟩
    · exact hs.out_form y e
  · intro x hx s hs2 hmem
    rcases List.mem_cons.mp hmem with e | e
    · by_cases hxb : x = b
      · subst hxb
        rw [hpop] at hs2
        exact hnd.1 (e ▸ hs2)
      · rw [hother x hxb] at hs2
        obtain ⟨k, k1, k2, k3⟩ := hs.free_form x hx s hs2
        obtain ⟨j, j1, j2, j3⟩ := hs.free_form b hb B hBmem
        have a1 := (hs.aligned x hx).1
        have a2 := (hs.aligned b hb).1
        unfold MH_SLOT_SIZE MH_BLOCK_SIZE at *
        omega
    · exact hs.out_free x hx s (hsub x hx s hs2) e

theorem Sound.erase (st : State) (out blocks : List Nat) (fl : Nat → List Nat) (B : Nat)
    (hs : Sound st out blocks fl) : Sound st (out.erase B) blocks fl :=
  { wf := hs.wf, aligned := hs.aligned, apart := hs.apart, free_nodup := hs.free_nodup,
    free_form := hs.free_form, out_nodup := hs.out_nodup.erase B,
    out_form := fun y hy => hs.out_form y (List.mem_of_mem_erase hy),
    out_free := fun x hx s hs2 hmem => hs.out_free x hx s hs2 (List.mem_of_mem_erase hmem) }

theorem Sound.release (st st2 : State) (out blocks : List Nat) (fl : Nat → List Nat)
    (B fuel : Nat) (hs : Sound st out blocks fl) (hB : B ∈ out)
    (h : FreeBuffer fuel st B = some st2) :
    ∃ fl2, Sound st2 (out.erase B) blocks fl2 := by
  unfold FreeBuffer at h
  cases hl : freeLoop fuel st.mem st.g_pMemoryBlocks (B / MH_BLOCK_SIZE * MH_BLOCK_SIZE) B with
  | none => rw [hl] at h; simp at h
  | some m2 =>
    rw [hl] at h
    have hst : _ = st2 := Option.some.inj h
    rcases freeLoop_result st.mem _ B blocks _ fuel m2 hs.wf.blocks_chain hl with
      ⟨hmem, hm⟩ | ⟨_, hm⟩
    · -- the page of `B` is a block: `B` is pushed on its free list
      obtain ⟨b, hb, k, k1, k2, k3⟩ := hs.out_form B hB
      have ab := hs.aligned b hb
      have hk : k ≤ 63 := by
        by_contra hk
        have hk64 : k = 64 := by omega
        have : B / MH_BLOCK_SIZE * MH_BLOCK_SIZE = b + MH_BLOCK_SIZE := by
          unfold MH_SLOT_SIZE MH_BLOCK_SIZE at *
          omega
        rw [this] at hmem
        exact hs.apart b hb hmem
      have hpage : B / MH_BLOCK_SIZE * MH_BLOCK_SIZE = b := by
        unfold MH_SLOT_SIZE MH_BLOCK_SIZE at *
        omega
      rw [hpage] at hm
      refine ⟨pushFree fl b B, ?_⟩
      rw [← hst, hm]
      have hB0 : B ≠ 0 := by
        unfold MH_SLOT_SIZE at k3
        omega
      have hBlt : B < 2 ^ 64 := by
        unfold MH_SLOT_SIZE MH_BLOCK_SIZE PTR_MOD at *
        omega
      have hBfree : ∀ c ∈ blocks, B ∉ fl c := fun c hc hmem2 => hs.out_free c hc B hmem2 hB
      have hpush : pushFree fl b B b = B :: fl b := by simp [pushFree]
      have hother : ∀ x, x ≠ b → pushFree fl b B x = fl x := by
        intro x hx
        simp [pushFree, hx]
      refine
        { wf := ?_, aligned := hs.aligned, apart := hs.apart, free_nodup := ?_,
          free_form := ?_, out_nodup := hs.out_nodup.erase B,
          out_form := fun y hy => hs.out_form y (List.mem_of_mem_erase hy), out_free := ?_ }
      · apply WellFormed.push st blocks fl B b hs.wf hb hB0 hBlt
        · intro c hc
          have ac := (hs.aligned c hc).1
          unfold Disj8 pFreeField MH_SLOT_SIZE MH_BLOCK_SIZE at *
          omega
        · intro c hc s hs2
          obtain ⟨j, j1, j2, j3⟩ := hs.free_form c hc s hs2
          have ac := (hs.aligned c hc).1
          have hne : B ≠ s := fun e => hBfree c hc (e ▸ hs2)
          unfold Disj8 MH_SLOT_SIZE MH_BLOCK_SIZE at *
          omega
      · intro x hx
        by_cases hxb : x = b
        · subst hxb
          rw [hpush, List.nodup_cons]
          exact ⟨hBfree x hx, hs.free_nodup x hx⟩
        · rw [hother x hxb]
          exact hs.free_nodup x hx
      · intro x hx s hs2
        by_cases hxb : x = b
        · subst hxb
          rw [hpush] at hs2
          rcases List.mem_cons.mp hs2 with e | e
          · exact ⟨k, k1, hk, e ▸ k3⟩
          · exact hs.free_form x hx s e
        · rw [hother x hxb] at hs2
          exact hs.free_form x hx s hs2
      · intro x hx s hs2 hmem2
        by_cases hxb : x = b
        · subst hxb
          rw [hpush] at hs2
          rcases List.mem_cons.mp hs2 with e | e
          · rw [e] at hmem2
            exact (List.Nodup.not_mem_erase hs.out_nodup) hmem2
          · exact hs.out_free x hx s e (List.mem_of_mem_erase hmem2)
        · rw [hother x hxb] at hs2
          exact hs.out_free x hx s hs2 (List.mem_of_mem_erase hmem2)
    · -- the page of `B` is no block: nothing is written
      refine ⟨fl, ?_⟩
      rw [← hst, hm]
      exact Sound.erase st out blocks fl B hs

theorem Sound.head_lt (st : State) (out blocks : List Nat) (fl : Nat → List Nat)
    (hs : Sound st out blocks fl) : st.g_pMemoryBlocks < 2 ^ 64 := by
  have hc := hs.wf.blocks_chain
  cases blocks with
  | nil =>
    have : st.g_pMemoryBlocks = 0 := hc
    omega
  | cons x xs =>
    have h1 : st.g_pMemoryBlocks = x := hc.1
    have := (hs.aligned x (List.mem_cons_self x xs)).2
    unfold MH_BLOCK_SIZE PTR_MOD at this
    omega

/-- The invariant after a block has been newly mapped at `N` and its first
buffer handed out. -/
theorem Sound.fresh (st st1 : State) (out blocks : List Nat) (fl : Nat → List Nat)
    (N fuel : Nat) (hs : Sound st out blocks fl)
    (hN0 : N ≠ 0) (hal : N % MH_BLOCK_SIZE = 0) (hlt : N + 2 * MH_BLOCK_SIZE ≤ PTR_MOD)
    (hnew : N ∉ blocks) (hup : N + MH_BLOCK_SIZE ∉ blocks)
    (hdn : ∀ c ∈ blocks, c + MH_BLOCK_SIZE ≠ N)
    (h : initBlock fuel st N = some st1) :
    Sound { st1 with mem := (store64 st1.mem (pFreeField N)
        (load64 st1.mem (load64 st1.mem (pFreeField N)))) }
      (load64 st1.mem (pFreeField N) :: out) (N :: blocks)
      (fun x => if x = N then slotsDown N 63 else fl x) := by
  obtain ⟨e1, _, _, e4, e5, e6, e7⟩ :=
    initBlock_spec st st1 N fuel hlt (Sound.head_lt st out blocks fl hs) h
  rw [e5]
  -- old blocks lie at least two pages away from the new one
  have hfar : ∀ c ∈ blocks, c + 2 * MH_BLOCK_SIZE ≤ N ∨ N + 2 * MH_BLOCK_SIZE ≤ c := by
    intro c hc
    have ac := (hs.aligned c hc).1
    have n1 : c ≠ N := fun e => hnew (e ▸ hc)
    have n2 : c ≠ N + MH_BLOCK_SIZE := fun e => hup (e ▸ hc)
    have n3 := hdn c hc
    unfold MH_BLOCK_SIZE at *
    omega
  have hkeep_hdr : ∀ c ∈ blocks, load64 st1.mem c = load64 st.mem c
      ∧ load64 st1.mem (pFreeField c) = load64 st.mem (pFreeField c) := by
    intro c hc
    have := hfar c hc
    constructor
    · apply e7; unfold MH_BLOCK_SIZE at *; omega
    · apply e7; unfold pFreeField MH_BLOCK_SIZE at *; omega
  have hkeep_slot : ∀ c ∈ blocks, ∀ s ∈ fl c, load64 st1.mem s = load64 st.mem s := by
    intro c hc s hs2
    obtain ⟨k, k1, k2, k3⟩ := hs.free_form c hc s hs2
    have := hfar c hc
    apply e7
    unfold MH_SLOT_SIZE MH_BLOCK_SIZE at *
    omega
  have hal2 : ∀ c ∈ N :: blocks, c % MH_BLOCK_SIZE = 0 := by
    intro c hc
    rcases List.mem_cons.mp hc with e | e
    · rw [e]; exact hal
    · exact (hs.aligned c e).1
  have hform1 : ∀ c ∈ N :: blocks,
      ∀ s ∈ (fun x => if x = N then slotsDown N 64 else fl x) c,
      ∃ k, 1 ≤ k ∧ k ≤ 64 ∧ s = c + MH_SLOT_SIZE * k := by
    intro c hc s hs2
    by_cases hcN : c = N
    · subst hcN
      simp only [if_true] at hs2
      exact (mem_slotsDown c 64 s).mp hs2
    · simp only [if_neg hcN] at hs2
      rcases List.mem_cons.mp hc with e | e
      · exact absurd e hcN
      · obtain ⟨k, k1, k2, k3⟩ := hs.free_form c e s hs2
        exact ⟨k, k1, by omega, k3⟩
  have hwf1 : WellFormed st1 (N :: blocks) (fun x => if x = N then slotsDown N 64 else fl x) :=
    { blocks_chain := by
        rw [e1]
        refine ⟨rfl, hN0, ?_⟩
        rw [e4]
        exact IsChain.frame st.mem st1.mem blocks _ hs.wf.blocks_chain
          (fun c hc => (hkeep_hdr c hc).1)
      free_chain := by
        intro c hc
        by_cases hcN : c = N
        · subst hcN
          simp only [if_true]
          rw [e5]
          exact e6
        · simp only [if_neg hcN]
          rcases List.mem_cons.mp hc with e | e
          · exact absurd e hcN
          · rw [(hkeep_hdr c e).2]
            exact IsChain.frame st.mem st1.mem _ _ (hs.wf.free_chain c e) (hkeep_slot c e)
      pFree_pNext := by
        intro b hb c hc
        have a1 := hal2 b hb
        have a2 := hal2 c hc
        unfold Disj8 pFreeField MH_BLOCK_SIZE at *
        omega
      pFree_pFree := by
        intro b hb c hc hne
        have a1 := hal2 b hb
        have a2 := hal2 c hc
        unfold Disj8 pFreeField MH_BLOCK_SIZE at *
        omega
      pFree_slot := by
        intro b hb c hc s hs2
        obtain ⟨k, k1, k2, k3⟩ := hform1 c hc s hs2
        have a1 := hal2 b hb
        have a2 := hal2 c hc
        unfold Disj8 pFreeField MH_SLOT_SIZE MH_BLOCK_SIZE at *
        omega }
  have hNmem : N ∈ N :: blocks := List.mem_cons_self N blocks
  have h64 : slotsDown N 64 = (N + MH_BLOCK_SIZE) :: slotsDown N 63 := by
    show (N + MH_SLOT_SIZE * (63 + 1)) :: slotsDown N 63 = _
    unfold MH_SLOT_SIZE MH_BLOCK_SIZE
    rfl
  have htail : IsChain st1.mem (load64 st1.mem (N + MH_BLOCK_SIZE)) (slotsDown N 63) := by
    rw [h64] at e6
    exact e6.2.2
  have hout_new : ∀ y ∈ out, ∀ k, 1 ≤ k → k ≤ 64 → y ≠ N + MH_SLOT_SIZE * k := by
    intro y hy k k1 k2 e
    obtain ⟨c, hc, j, j1, j2, j3⟩ := hs.out_form y hy
    have ac := (hs.aligned c hc).1
    have := hfar c hc
    unfold MH_SLOT_SIZE MH_BLOCK_SIZE at *
    omega
  refine
    { wf := ?_, aligned := ?_, apart := ?_, free_nodup := ?_, free_form := ?_,
      out_nodup := ?_, out_form := ?_, out_free := ?_ }
  · apply WellFormed.set_pFree st1 (N :: blocks) _
      (fun x => if x = N then slotsDown N 63 else fl x) N _ hwf1 hNmem
    · intro x hx
      simp only [if_neg hx]
    · intro c hc s hs2
      simp only [if_true] at hs2
      obtain ⟨k, k1, k2, k3⟩ := (mem_slotsDown N 63 s).mp hs2
      have a1 := hal2 c hc
      unfold Disj8 pFreeField MH_SLOT_SIZE MH_BLOCK_SIZE at *
      omega
    · simp only [if_true]
      apply IsChain.store _ _ _ _ _ htail
      intro s hs2
      obtain ⟨k, k1, k2, k3⟩ := (mem_slotsDown N 63 s).mp hs2
      unfold Disj8 pFreeField MH_SLOT_SIZE MH_BLOCK_SIZE at *
      omega
    · exact load64_lt _ _
  · intro c hc
    rcases List.mem_cons.mp hc with e | e
    · rw [e]; exact ⟨hal, hlt⟩
    · exact hs.aligned c e
  · intro c hc hmem
    rcases List.mem_cons.mp hc with e | e
    · subst e
      rcases List.mem_cons.mp hmem with e2 | e2
      · unfold MH_BLOCK_SIZE at e2; omega
      · exact hup e2
    · rcases List.mem_cons.mp hmem with e2 | e2
      · exact hdn c e e2
      · exact hs.apart c e e2
  · intro c hc
    by_cases hcN : c = N
    · subst hcN
      simp only [if_true]
      exact slotsDown_nodup c 63
    · simp only [if_neg hcN]
      rcases List.mem_cons.mp hc with e | e
      · exact absurd e hcN
      · exact hs.free_nodup c e
  · intro c hc s hs2
    by_cases hcN : c = N
    · subst hcN
      simp only [if_true] at hs2
      exact (mem_slotsDown c 63 s).mp hs2
    · simp only [if_neg hcN] at hs2
      rcases List.mem_cons.mp hc with e | e
      · exact absurd e hcN
      · exact hs.free_form c e s hs2
  · rw [List.nodup_cons]
    refine ⟨?_, hs.out_nodup⟩
    intro hmem
    refine hout_new _ hmem 64 (by omega) (by omega) ?_
    unfold MH_SLOT_SIZE MH_BLOCK_SIZE
    omega
  · intro y hy
    rcases List.mem_cons.mp hy with e | e
    · refine ⟨N, hNmem, 64, by omega, by omega, ?_⟩
      rw [e]
      unfold MH_SLOT_SIZE MH_BLOCK_SIZE
      omega
    · obtain ⟨c, hc, k, k1, k2, k3⟩ := hs.out_form y e
      exact ⟨c, List.mem_cons_of_mem N hc, k, k1, k2, k3⟩
  · intro c hc s hs2 hmem
    by_cases hcN : c = N
    · subst hcN
      simp only [if_true] at hs2
      obtain ⟨k, k1, k2, k3⟩ := (mem_slotsDown c 63 s).mp hs2
      rcases List.mem_cons.mp hmem with e | e
      · unfold MH_SLOT_SIZE MH_BLOCK_SIZE at *
        omega
      · exact hout_new s e k k1 (by omega) k3
    · simp only [if_neg hcN] at hs2
      rcases List.mem_cons.mp hc with e | e
      · exact absurd e hcN
      · rcases List.mem_cons.mp hmem with e2 | e2
        · obtain ⟨k, k1, k2, k3⟩ := hs.free_form c e s hs2
          have ac := (hs.aligned c e).1
          unfold MH_SLOT_SIZE MH_BLOCK_SIZE at *
          omega
        · exact hs.out_free c e s hs2 e2

/-- Every state reachable under `OsGrantsApart` satisfies the invariant. -/
theorem Reach.sound (st : State) (out : List Nat) (h : Reach OsGrantsApart st out) :
    ∃ blocks fl, Sound st out blocks fl := by
  induction h with
  | init minAddress maxAddress m =>
    refine ⟨[], fun _ => [], ?_⟩
    exact
      { wf :=
          { blocks_chain := rfl
            free_chain := fun b hb => absurd hb (List.not_mem_nil b)
            pFree_pNext := fun b hb => absurd hb (List.not_mem_nil b)
            pFree_pFree := fun b hb => absurd hb (List.not_mem_nil b)
            pFree_slot := fun b hb => absurd hb (List.not_mem_nil b) }
        aligned := fun b hb => absurd hb (List.not_mem_nil b)
        apart := fun b hb => absurd hb (List.not_mem_nil b)
        free_nodup := fun b hb => absurd hb (List.not_mem_nil b)
        free_form := fun b hb => absurd hb (List.not_mem_nil b)
        out_nodup := List.nodup_nil
        out_form := fun B hB => absurd hB (List.not_mem_nil B)
        out_free := fun b hb => absurd hb (List.not_mem_nil b) }
  | allocate st out os pOrigin fuel B st2 tr _ hok hcall hB ih =>
    obtain ⟨blocks, fl, hs⟩ := ih
    rcases AllocateBuffer_cases fuel os st pOrigin B st2 tr hcall with
      ⟨b, hscan, hb0, hBe, hst⟩ | ⟨p, st1, ⟨x, hx⟩, hp0, hinit, hBe, hst⟩ | ⟨hB0, _⟩
    · have hb := scanBlocks_mem st.mem _ _ blocks _ fuel b hs.wf.blocks_chain hscan hb0
      have hfree : load64 st.mem (pFreeField b) ≠ 0 := hBe ▸ hB
      have := Sound.pop st out blocks fl b hs hb hfree
      rw [← hBe, ← hst] at this
      exact ⟨blocks, popFree fl b, this⟩
    · rcases hok x with h0 | ⟨hxx, hal, hlt, hlist⟩
      · exact absurd (hx ▸ h0) hp0
      · have hpx : p = x := by rw [← hx, hxx]
        subst hpx
        obtain ⟨n1, n2, n3⟩ := hlist (blocks.length + 1) blocks
          (chain_of_isChain st.mem blocks _ _ hs.wf.blocks_chain (Nat.lt_succ_self _))
        have := Sound.fresh st st1 out blocks fl p fuel hs hp0 hal hlt n1 n2 n3 hinit
        rw [← hBe, ← hst] at this
        exact ⟨p :: blocks, _, this⟩
    · exact absurd hB0 hB
  | allocateFailed st out os pOrigin fuel st2 tr _ hok hcall ih =>
    obtain ⟨blocks, fl, hs⟩ := ih
    rcases AllocateBuffer_cases fuel os st pOrigin 0 st2 tr hcall with
      ⟨b, hscan, hb0, hBe, _⟩ | ⟨p, st1, ⟨x, hx⟩, hp0, hinit, hBe, _⟩ | ⟨_, hst⟩
    · exact absurd hBe.symm (scanBlocks_found st.mem _ _ fuel _ b hscan hb0).2.2
    · rcases hok x with h0 | ⟨hxx, _, hlt, _⟩
      · exact absurd (hx ▸ h0) hp0
      · have hpx : p = x := by rw [← hx, hxx]
        subst hpx
        obtain ⟨_, _, _, _, e5, _, _⟩ :=
          initBlock_spec st st1 p fuel hlt (Sound.head_lt st out blocks fl hs) hinit
        rw [e5] at hBe
        unfold MH_BLOCK_SIZE at hBe
        omega
    · rw [hst]
      exact ⟨blocks, fl, hs⟩
  | release st out B fuel st2 _ hB hcall ih =>
    obtain ⟨blocks, fl, hs⟩ := ih
    obtain ⟨fl2, hs2⟩ := Sound.release st st2 out blocks fl B fuel hs hB hcall
    exact ⟨blocks, fl2, hs2⟩

/-- C3 (amended): in every state reachable from an empty block list by
`AllocateBuffer` and `FreeBuffer` calls, `FreeBuffer` being applied to
outstanding buffers only, with an operating system that returns `NULL` or
the page-aligned address asked and never grants a block base or an address
directly next to one, any two distinct outstanding buffers have disjoint
ranges. -/
theorem C3_outstanding_buffers_disjoint (st : State) (out : List Nat)
    (h : Reach OsGrantsApart st out) : NoOverlap out := by
  obtain ⟨blocks, fl, hs⟩ := Reach.sound st out h
  exact Sound.noOverlap st out blocks fl hs

/-! ## Scripts run under the assumption of the claim -/

theorem chain_isChain (m : Mem) :
    ∀ (n p : Nat) (l : List Nat), chain n m p = some l → IsChain m p l := by
  intro n
  induction n with
  | zero => intro p l h; simp [chain] at h
  | succ k ih =>
    intro p l h
    unfold chain at h
    by_cases hp : p = 0
    · rw [if_pos hp] at h
      rw [← Option.some.inj h]
      exact hp
    · rw [if_neg hp] at h
      cases hrec : chain k m (load64 m p) with
      | none => rw [hrec] at h; simp at h
      | some l2 =>
        rw [hrec] at h
        rw [← Option.some.inj h]
        exact ⟨rfl, hp, ih _ l2 hrec⟩

theorem IsChain.unique (m : Mem) :
    ∀ (l l2 : List Nat) (p : Nat), IsChain m p l → IsChain m p l2 → l = l2 := by
  intro l
  induction l with
  | nil =>
    intro l2 p h h2
    have hp : p = 0 := h
    exact ((IsChain.nil_iff m p l2 h2).mpr hp).symm
  | cons x xs ih =>
    intro l2 p h h2
    obtain ⟨h1, hx, h3⟩ := h
    cases l2 with
    | nil =>
      have hp : p = 0 := h2
      exact absurd (h1 ▸ hp) hx
    | cons y ys =>
      obtain ⟨g1, _, g3⟩ := h2
      have hxy : x = y := h1.symm.trans g1
      subst hxy
      rw [ih ys _ h3 g3]

theorem OsAvoidsBlocks.of_range (st : State) (os : Nat → Nat) (fuel grant : Nat)
    (l : List Nat) (hl : blockList fuel st = some l) (hg : grant ∉ l)
    (hos : ∀ a, os a = 0 ∨ os a = grant) : OsAvoidsBlocks os st := by
  intro n l2 hl2 a hmem
  have c1 := chain_isChain st.mem fuel _ l hl
  have c2 := chain_isChain st.mem n _ l2 hl2
  have e := IsChain.unique st.mem l l2 _ c1 c2
  subst e
  rcases hos a with h0 | h0
  · rw [h0] at hmem
    exact IsChain.zero_not_mem st.mem l _ c1 hmem
  · rw [h0] at hmem
    exact hg hmem

theorem OsAvoidsBlocks.grantOnly (st : State) (fuel grant : Nat) (l : List Nat)
    (hl : blockList fuel st = some l) (hg : grant ∉ l) :
    OsAvoidsBlocks (osGrantOnly grant) st := by
  apply OsAvoidsBlocks.of_range st _ fuel grant l hl hg
  intro a
  unfold osGrantOnly
  by_cases ha : a = grant
  · right; rw [if_pos ha, ha]
  · left; rw [if_neg ha]

/-- A script that runs to its end is a sequence of calls allowed by the
claim: the state it ends in is reachable under `OsAvoidsBlocks`. -/
theorem runScript_reach (fuel : Nat) :
    ∀ (cs : List Script) (st : State) (out : List Nat) (st2 : State) (out2 : List Nat),
      Reach OsAvoidsBlocks st out → runScript fuel st out cs = some (st2, out2) →
      Reach OsAvoidsBlocks st2 out2 := by
  intro cs
  induction cs with
  | nil =>
    intro st out st2 out2 hr h
    simp only [runScript, Option.some.injEq, Prod.mk.injEq] at h
    rw [← h.1, ← h.2]
    exact hr
  | cons c cs ih =>
    intro st out st2 out2 hr h
    cases c with
    | allocate grant pOrigin =>
      unfold runScript at h
      cases hl : blockList fuel st with
      | none => rw [hl] at h; simp at h
      | some l =>
        rw [hl] at h
        simp only at h
        by_cases hg : grant ∈ l
        · rw [if_pos hg] at h; simp at h
        · rw [if_neg hg] at h
          have hok := OsAvoidsBlocks.grantOnly st fuel grant l hl hg
          cases ha : AllocateBuffer fuel (osGrantOnly grant) st pOrigin with
          | none => rw [ha] at h; simp at h
          | some r =>
            obtain ⟨B, st1, tr⟩ := r
            rw [ha] at h
            simp only at h
            by_cases hB : B = 0
            · rw [if_pos hB] at h
              subst hB
              exact ih st1 out st2 out2
                (Reach.allocateFailed st out _ pOrigin fuel st1 tr hr hok ha) h
            · rw [if_neg hB] at h
              exact ih st1 (B :: out) st2 out2
                (Reach.allocate st out _ pOrigin fuel B st1 tr hr hok ha hB) h
    | release pBuffer =>
      unfold runScript at h
      by_cases hm : pBuffer ∈ out
      · rw [if_pos hm] at h
        cases hf : FreeBuffer fuel st pBuffer with
        | none => rw [hf] at h; simp at h
        | some st1 =>
          rw [hf] at h
          exact ih st1 (out.erase pBuffer) st2 out2
            (Reach.release st out pBuffer fuel st1 hr hm hf) h
      · rw [if_neg hm] at h; simp at h

/-- C3 (counterexample): states reachable under the assumption of the
claim in which outstanding buffers overlap.

(1) A block is mapped at `0x5000000` and its buffer `0x5001000` handed out;
a block is mapped at `0x2000000`.  For the origin `0x1000000`, whose window
ends at `0x2000000`, a block is then mapped at `0x1FFF000`, and the slot
loop stores the link of its slot at `0x2000000` over the `pNext` field of
the block `0x2000000`, which cuts the block `0x5000000` off the block list.
The operating system, asked for `0x5000000`, which is no longer an entry of
the block list, grants it, the block is initialised again and `0x5001000`
is handed out a second time.

(2) A block is mapped at `0x1F000` and its buffer `0x20000` handed out.  For
the origin `0x5001010` the operating system returns `0x1F020`, which is not
a block base; the block built there hands out `0x20020`, inside the range
of the first buffer. -/
theorem C3_counterexample :
    (∃ st out, Reach OsAvoidsBlocks st out ∧ ¬ NoOverlap out
      ∧ out = [0x5001000, 0x2000000, 0x2001000, 0x5001000])
    ∧ (∃ st out, Reach OsAvoidsBlocks st out ∧ ¬ NoOverlap out
      ∧ out = [0x20020, 0x20000]) := by
  constructor
  · have hv : (runScript 10000 demoRange [] lostBlockScript).map (fun r => r.2)
        = some [0x5001000, 0x2000000, 0x2001000, 0x5001000] := by decide!
    cases h : runScript 10000 demoRange [] lostBlockScript with
    | none => rw [h] at hv; simp at hv
    | some r =>
      obtain ⟨st, out⟩ := r
      rw [h] at hv
      simp only [Option.map_some', Option.some.injEq] at hv
      refine ⟨st, out, runScript_reach 10000 lostBlockScript demoRange [] st out
        (Reach.init 0x10000 0x7FFFFFFEFFFF (fun _ => 0)) h, ?_, hv⟩
      rw [hv]
      decide
  · have hv : (AllocateBuffer 100 (osGrantOnly 0x1F000) demoRange 0x20010).bind (fun r1 =>
        (AllocateBuffer 100 (fun _ => 0x1F020) r1.2.1 0x5001010).map (fun r2 =>
          (blockList 100 demoRange, blockList 100 r1.2.1, r1.1, r2.1)))
        = some (some [], some [0x1F000], 0x20000, 0x20020) := by decide!
    cases h1 : AllocateBuffer 100 (osGrantOnly 0x1F000) demoRange 0x20010 with
    | none => simp [h1] at hv
    | some r1 =>
      obtain ⟨B1, st1, tr1⟩ := r1
      cases h2 : AllocateBuffer 100 (fun _ => 0x1F020) st1 0x5001010 with
      | none => simp [h1, h2] at hv
      | some r2 =>
        obtain ⟨B2, st2, tr2⟩ := r2
        simp only [h1, h2, Option.some_bind, Option.map_some', Option.some.injEq,
          Prod.mk.injEq] at hv
        obtain ⟨l0, l1, e1, e2⟩ := hv
        have r0 : Reach OsAvoidsBlocks demoRange [] :=
          Reach.init 0x10000 0x7FFFFFFEFFFF (fun _ => 0)
        have hr1 : Reach OsAvoidsBlocks st1 [B1] :=
          Reach.allocate demoRange [] _ 0x20010 100 B1 st1 tr1 r0
            (OsAvoidsBlocks.grantOnly demoRange 100 0x1F000 [] l0 (by simp)) h1 (by omega)
        have hr2 : Reach OsAvoidsBlocks st2 [B2, B1] :=
          Reach.allocate st1 [B1] _ 0x5001010 100 B2 st2 tr2 hr1
            (OsAvoidsBlocks.of_range st1 _ 100 0x1F020 [0x1F000] l1 (by simp)
              (fun _ => Or.inr rfl)) h2 (by omega)
        refine ⟨st2, [B2, B1], hr2, ?_, by rw [e1, e2]⟩
        rw [e1, e2]
        decide

theorem demoRange_grantOnly : OsGrantsApart (osGrantOnly 0x1F000) demoRange := by
  intro a
  by_cases ha : a = 0x1F000
  · right
    subst ha
    refine ⟨rfl, by decide, by decide, ?_⟩
    intro n l hl
    cases n with
    | zero => simp [blockList, chain] at hl
    | succ k =>
      simp only [blockList, chain, demoRange, emptyState, if_true, Option.some.injEq] at hl
      subst hl
      simp
  · left
    simp [osGrantOnly, ha]

/-- Witness for C3: two allocations at origin `0x20010` from the empty
list, the operating system granting `0x1F000`; the buffers `0x20000` and
`0x1FFC0` are outstanding. -/
theorem C3_outstanding_buffers_disjoint_witness :
    ∃ st out, Reach OsGrantsApart st out ∧ out = [0x1FFC0, 0x20000] ∧ NoOverlap out := by
  have hv : (runCalls 100 demoRange [Call.allocate (osGrantOnly 0x1F000) 0x20010,
      Call.allocate osRefuseAll 0x20010]).map (fun r => r.2) = some [0x20000, 0x1FFC0] := by
    decide!
  cases h1 : AllocateBuffer 100 (osGrantOnly 0x1F000) demoRange 0x20010 with
  | none => simp [runCalls, h1] at hv
  | some r1 =>
    obtain ⟨B1, st1, tr1⟩ := r1
    cases h2 : AllocateBuffer 100 osRefuseAll st1 0x20010 with
    | none => simp [runCalls, h1, h2] at hv
    | some r2 =>
      obtain ⟨B2, st2, tr2⟩ := r2
      simp only [runCalls, h1, h2, Option.map_some', Option.some.injEq, List.cons.injEq,
        and_true] at hv
      obtain ⟨e1, e2⟩ := hv
      have r0 : Reach OsGrantsApart demoRange [] := Reach.init 0x10000 0x7FFFFFFEFFFF (fun _ => 0)
      have hr1 : Reach OsGrantsApart st1 [B1] :=
        Reach.allocate demoRange [] _ 0x20010 100 B1 st1 tr1 r0 demoRange_grantOnly h1
          (by omega)
      have hr2 : Reach OsGrantsApart st2 [B2, B1] :=
        Reach.allocate st1 [B1] osRefuseAll 0x20010 100 B2 st2 tr2 hr1 (fun _ => Or.inl rfl) h2
          (by omega)
      exact ⟨st2, [B2, B1], hr2, by rw [e1, e2],
        C3_outstanding_buffers_disjoint st2 [B2, B1] hr2⟩

/-! ## `UninitializeBuffer` and `IsExecutableAddress` -/

theorem lor_eq_zero (a b : Nat) : a ||| b = 0 ↔ a = 0 ∧ b = 0 := by
  constructor
  · intro h
    have hb : ∀ i, (a.testBit i || b.testBit i) = false := fun i => by
      rw [← Nat.testBit_or, h, Nat.zero_testBit]
    constructor
    · apply Nat.eq_of_testBit_eq
      intro i
      have := hb i
      rw [Nat.zero_testBit]
      cases h1 : a.testBit i
      · rfl
      · rw [h1] at this; simp at this
    · apply Nat.eq_of_testBit_eq
      intro i
      have := hb i
      rw [Nat.zero_testBit]
      cases h1 : b.testBit i
      · rfl
      · rw [h1] at this; simp at this
  · rintro ⟨rfl, rfl⟩
    rfl

/-- The test `mi.Protect & PageExecuteMask` is non-zero exactly when `Protect`
shares a bit with one of the four constants. -/
theorem land_mask_ne_zero (k : PageConstants) (p : Nat) :
    (p &&& PageExecuteMask k) ≠ 0 ↔
      (p &&& k.PAGE_EXECUTE ≠ 0 ∨ p &&& k.PAGE_EXECUTE_READ ≠ 0
        ∨ p &&& k.PAGE_EXECUTE_READWRITE ≠ 0 ∨ p &&& k.PAGE_EXECUTE_WRITECOPY ≠ 0) := by
  unfold PageExecuteMask
  rw [Nat.and_or_distrib_left, Nat.and_or_distrib_left, Nat.and_or_distrib_left, Ne,
    lor_eq_zero, lor_eq_zero, lor_eq_zero]
  tauto

/-! ## The order of the probes -/

theorem probeDown_cover (os : Nat → Nat) (lo : Nat) :
    ∀ (n a : Nat) (tr : List Nat), a % MH_BLOCK_SIZE = 0 → a < PTR_MOD →
      probeDown n os lo a = some (0, tr) →
      ∀ x, x % MH_BLOCK_SIZE = 0 → lo ≤ x → x ≤ a → os x = 0 := by
  intro n
  induction n with
  | zero => intro a tr _ _ h; simp [probeDown] at h
  | succ k ih =>
    intro a tr ha hlt h x hx hlox hxa
    unfold probeDown at h
    simp only [eager_eq] at h
    have hge : a ≥ lo := le_trans hlox hxa
    rw [if_pos hge] at h
    by_cases hos : os a ≠ 0
    · rw [if_pos hos] at h
      simp only [Option.some.injEq, Prod.mk.injEq] at h
      exact absurd h.1 hos
    · rw [if_neg hos] at h
      have hos0 : os a = 0 := not_not.mp hos
      cases hrec : probeDown k os lo (subPtr a MH_BLOCK_SIZE) with
      | none => rw [hrec] at h; simp at h
      | some r =>
        obtain ⟨p, tr2⟩ := r
        rw [hrec] at h
        simp only [Option.some.injEq, Prod.mk.injEq] at h
        obtain ⟨hp, _⟩ := h
        subst hp
        by_cases hxa2 : x = a
        · rw [hxa2]; exact hos0
        · have hP : MH_BLOCK_SIZE ≤ a := by
            unfold MH_BLOCK_SIZE at *
            omega
          rw [subPtr_block a hP hlt] at hrec
          exact ih (a - MH_BLOCK_SIZE) tr2
            (by unfold MH_BLOCK_SIZE at *; omega) (by omega) hrec x hx hlox
            (by unfold MH_BLOCK_SIZE at *; omega)

theorem probeDown_first (os : Nat → Nat) (lo : Nat) (hlo : 0 < lo) :
    ∀ (n a p : Nat) (tr : List Nat), a % MH_BLOCK_SIZE = 0 → a < PTR_MOD →
      probeDown n os lo a = some (p, tr) →
      (∀ x ∈ tr, x % MH_BLOCK_SIZE = 0 ∧ lo ≤ x ∧ x ≤ a)
      ∧ (p ≠ 0 → ∃ x, os x = p ∧ x % MH_BLOCK_SIZE = 0 ∧ lo ≤ x ∧ x ≤ a
            ∧ ∀ y, y % MH_BLOCK_SIZE = 0 → x < y → y ≤ a → os y = 0) := by
  intro n
  induction n with
  | zero => intro a p tr _ _ h; simp [probeDown] at h
  | succ k ih =>
    intro a p tr ha hlt h
    unfold probeDown at h
    simp only [eager_eq] at h
    by_cases hge : a ≥ lo
    · rw [if_pos hge] at h
      by_cases hos : os a ≠ 0
      · rw [if_pos hos] at h
        simp only [Option.some.injEq, Prod.mk.injEq] at h
        obtain ⟨hp, htr⟩ := h
        subst hp htr
        refine ⟨?_, fun _ => ⟨a, rfl, ha, hge, le_refl a, ?_⟩⟩
        · intro x hx
          rw [List.mem_singleton] at hx
          subst hx
          exact ⟨ha, hge, le_refl _⟩
        · intro y _ h1 h2
          omega
      · rw [if_neg hos] at h
        have hos0 : os a = 0 := not_not.mp hos
        have hP : MH_BLOCK_SIZE ≤ a := by
          unfold MH_BLOCK_SIZE at *
          omega
        rw [subPtr_block a hP hlt] at h
        cases hrec : probeDown k os lo (a - MH_BLOCK_SIZE) with
        | none => rw [hrec] at h; simp at h
        | some r =>
          obtain ⟨p2, tr2⟩ := r
          rw [hrec] at h
          simp only [Option.some.injEq, Prod.mk.injEq] at h
          obtain ⟨hp, htr⟩ := h
          subst hp htr
          obtain ⟨i1, i2⟩ := ih (a - MH_BLOCK_SIZE) p2 tr2
            (by unfold MH_BLOCK_SIZE at *; omega) (by omega) hrec
          refine ⟨?_, ?_⟩
          · intro x hx
            rcases List.mem_cons.mp hx with e | e
            · subst e
              exact ⟨ha, hge, le_refl _⟩
            · obtain ⟨j1, j2, j3⟩ := i1 x e
              exact ⟨j1, j2, by omega⟩
          · intro hp0
            obtain ⟨x, x1, x2, x3, x4, x5⟩ := i2 hp0
            refine ⟨x, x1, x2, x3, by omega, ?_⟩
            intro y hy h1 h2
            by_cases hya : y = a
            · rw [hya]; exact hos0
            · exact x5 y hy h1 (by unfold MH_BLOCK_SIZE at *; omega)
    · rw [if_neg hge] at h
      simp only [Option.some.injEq, Prod.mk.injEq] at h
      obtain ⟨hp, htr⟩ := h
      subst hp htr
      exact ⟨fun x hx => absurd hx (List.not_mem_nil x), fun h0 => absurd rfl h0⟩

theorem probeUp_cover (os : Nat → Nat) (hi : Nat) (hhi : hi ≤ PTR_MOD) :
    ∀ (n a : Nat) (tr : List Nat), a % MH_BLOCK_SIZE = 0 → a < PTR_MOD →
      probeUp n os hi a = some (0, tr) →
      ∀ x, x % MH_BLOCK_SIZE = 0 → a ≤ x → x < hi → os x = 0 := by
  intro n
  induction n with
  | zero => intro a tr _ _ h; simp [probeUp] at h
  | succ k ih =>
    intro a tr ha hlt h x hx hax hxhi
    unfold probeUp at h
    simp only [eager_eq] at h
    have hge : a < hi := lt_of_le_of_lt hax hxhi
    rw [if_pos hge] at h
    by_cases hos : os a ≠ 0
    · rw [if_pos hos] at h
      simp only [Option.some.injEq, Prod.mk.injEq] at h
      exact absurd h.1 hos
    · rw [if_neg hos] at h
      have hos0 : os a = 0 := not_not.mp hos
      cases hrec : probeUp k os hi (addPtr a MH_BLOCK_SIZE) with
      | none => rw [hrec] at h; simp at h
      | some r =>
        obtain ⟨p, tr2⟩ := r
        rw [hrec] at h
        simp only [Option.some.injEq, Prod.mk.injEq] at h
        obtain ⟨hp, _⟩ := h
        subst hp
        by_cases hxa2 : x = a
        · rw [hxa2]; exact hos0
        · have hadd : addPtr a MH_BLOCK_SIZE = a + MH_BLOCK_SIZE := by
            unfold addPtr PTR_MOD MH_BLOCK_SIZE at *
            omega
          rw [hadd] at hrec
          exact ih (a + MH_BLOCK_SIZE) tr2
            (by unfold MH_BLOCK_SIZE at *; omega)
            (by unfold PTR_MOD MH_BLOCK_SIZE at *; omega) hrec x hx
            (by unfold MH_BLOCK_SIZE at *; omega) hxhi

theorem probeUp_first (os : Nat → Nat) (hi : Nat) (hhi : hi ≤ PTR_MOD - MH_BLOCK_SIZE) :
    ∀ (n a p : Nat) (tr : List Nat), a % MH_BLOCK_SIZE = 0 →
      probeUp n os hi a = some (p, tr) →
      (∀ x ∈ tr, x % MH_BLOCK_SIZE = 0 ∧ a ≤ x ∧ x < hi)
      ∧ (p ≠ 0 → ∃ x, os x = p ∧ x % MH_BLOCK_SIZE = 0 ∧ a ≤ x ∧ x < hi
            ∧ ∀ y, y % MH_BLOCK_SIZE = 0 → a ≤ y → y < x → os y = 0) := by
  intro n
  induction n with
  | zero => intro a p tr _ h; simp [probeUp] at h
  | succ k ih =>
    intro a p tr ha h
    unfold probeUp at h
    simp only [eager_eq] at h
    by_cases hge : a < hi
    · rw [if_pos hge] at h
      by_cases hos : os a ≠ 0
      · rw [if_pos hos] at h
        simp only [Option.some.injEq, Prod.mk.injEq] at h
        obtain ⟨hp, htr⟩ := h
        subst hp htr
        refine ⟨?_, fun _ => ⟨a, rfl, ha, le_refl a, hge, ?_⟩⟩
        · intro x hx
          rw [List.mem_singleton] at hx
          subst hx
          exact ⟨ha, le_refl _, hge⟩
        · intro y _ h1 h2
          omega
      · rw [if_neg hos] at h
        have hos0 : os a = 0 := not_not.mp hos
        have hadd : addPtr a MH_BLOCK_SIZE = a + MH_BLOCK_SIZE := by
          unfold addPtr PTR_MOD MH_BLOCK_SIZE at *
          omega
        rw [hadd] at h
        cases hrec : probeUp k os hi (a + MH_BLOCK_SIZE) with
        | none => rw [hrec] at h; simp at h
        | some r =>
          obtain ⟨p2, tr2⟩ := r
          rw [hrec] at h
          simp only [Option.some.injEq, Prod.mk.injEq] at h
          obtain ⟨hp, htr⟩ := h
          subst hp htr
          obtain ⟨i1, i2⟩ := ih (a + MH_BLOCK_SIZE) p2 tr2
            (by unfold MH_BLOCK_SIZE at *; omega) hrec
          refine ⟨?_, ?_⟩
          · intro x hx
            rcases List.mem_cons.mp hx with e | e
            · subst e
              exact ⟨ha, le_refl _, hge⟩
            · obtain ⟨j1, j2, j3⟩ := i1 x e
              exact ⟨j1, by omega, j3⟩
          · intro hp0
            obtain ⟨x, x1, x2, x3, x4, x5⟩ := i2 hp0
            refine ⟨x, x1, x2, by omega, x4, ?_⟩
            intro y hy h1 h2
            by_cases hya : y = a
            · rw [hya]; exact hos0
            · exact x5 y hy (by unfold MH_BLOCK_SIZE at *; omega) h2
    · rw [if_neg hge] at h
      simp only [Option.some.injEq, Prod.mk.injEq] at h
      obtain ⟨hp, htr⟩ := h
      subst hp htr
      exact ⟨fun x hx => absurd hx (List.not_mem_nil x), fun h0 => absurd rfl h0⟩


theorem probeNew_first (os : Nat → Nat) (lo hi pOrigin fuel p : Nat) (tr : List Nat)
    (hlo : 0 < lo) (hhi : hi ≤ PTR_MOD - MH_BLOCK_SIZE)
    (ho1 : MH_BLOCK_SIZE ≤ pOrigin / MH_BLOCK_SIZE * MH_BLOCK_SIZE)
    (ho2 : pOrigin / MH_BLOCK_SIZE * MH_BLOCK_SIZE + MH_BLOCK_SIZE < PTR_MOD)
    (h : probeNew fuel os lo hi pOrigin = some (p, tr)) :
    (∀ x ∈ tr, x % MH_BLOCK_SIZE = 0
        ∧ ((lo ≤ x ∧ x < pOrigin / MH_BLOCK_SIZE * MH_BLOCK_SIZE)
          ∨ (pOrigin / MH_BLOCK_SIZE * MH_BLOCK_SIZE < x ∧ x < hi)))
    ∧ (p ≠ 0 → ∃ a, os a = p ∧ a % MH_BLOCK_SIZE = 0
        ∧ ((lo ≤ a ∧ a < pOrigin / MH_BLOCK_SIZE * MH_BLOCK_SIZE
            ∧ ∀ y, y % MH_BLOCK_SIZE = 0 → a < y →
                y < pOrigin / MH_BLOCK_SIZE * MH_BLOCK_SIZE → os y = 0)
          ∨ (pOrigin / MH_BLOCK_SIZE * MH_BLOCK_SIZE < a ∧ a < hi
            ∧ (∀ y, y % MH_BLOCK_SIZE = 0 → lo ≤ y →
                y < pOrigin / MH_BLOCK_SIZE * MH_BLOCK_SIZE → os y = 0)
            ∧ ∀ y, y % MH_BLOCK_SIZE = 0 → pOrigin / MH_BLOCK_SIZE * MH_BLOCK_SIZE < y →
                y < a → os y = 0))) := by
  unfold probeNew at h
  simp only at h
  obtain ⟨S, hS⟩ : ∃ S, S = pOrigin / MH_BLOCK_SIZE * MH_BLOCK_SIZE := ⟨_, rfl⟩
  rw [← hS] at h ho1 ho2 ⊢
  have hal : S % MH_BLOCK_SIZE = 0 := by
    rw [hS]
    exact Nat.mul_mod_left _ _
  clear hS
  have hsub : subPtr S MH_BLOCK_SIZE = S - MH_BLOCK_SIZE :=
    subPtr_block S ho1 (by omega)
  have hadd : addPtr S MH_BLOCK_SIZE = S + MH_BLOCK_SIZE := by
    unfold addPtr PTR_MOD MH_BLOCK_SIZE at *
    omega
  rw [hsub, hadd] at h
  cases hd : probeDown fuel os lo (S - MH_BLOCK_SIZE) with
  | none => rw [hd] at h; simp at h
  | some r =>
    obtain ⟨pb, tr1⟩ := r
    rw [hd] at h
    simp only at h
    obtain ⟨d1, d2⟩ := probeDown_first os lo hlo fuel (S - MH_BLOCK_SIZE) pb tr1
      (by unfold MH_BLOCK_SIZE at *; omega) (by omega) hd
    have hd1 : ∀ x ∈ tr1, x % MH_BLOCK_SIZE = 0 ∧ ((lo ≤ x ∧ x < S) ∨ (S < x ∧ x < hi)) := by
      intro x hx
      obtain ⟨j1, j2, j3⟩ := d1 x hx
      exact ⟨j1, Or.inl ⟨j2, by unfold MH_BLOCK_SIZE at *; omega⟩⟩
    by_cases hpb : pb = 0
    · rw [if_pos hpb] at h
      subst hpb
      clear d2
      cases hu : probeUp fuel os hi (S + MH_BLOCK_SIZE) with
      | none => rw [hu] at h; simp at h
      | some r2 =>
        obtain ⟨p2, tr2⟩ := r2
        rw [hu] at h
        simp only [Option.some.injEq, Prod.mk.injEq] at h
        obtain ⟨hp, htr⟩ := h
        subst hp htr
        obtain ⟨u1, u2⟩ := probeUp_first os hi hhi fuel (S + MH_BLOCK_SIZE) p2 tr2
          (by unfold MH_BLOCK_SIZE at *; omega) hu
        have hcov := probeDown_cover os lo fuel (S - MH_BLOCK_SIZE) tr1
          (by unfold MH_BLOCK_SIZE at *; omega) (by omega) hd
        refine ⟨?_, ?_⟩
        · intro x hx
          rcases List.mem_append.mp hx with e | e
          · exact hd1 x e
          · obtain ⟨j1, j2, j3⟩ := u1 x e
            exact ⟨j1, Or.inr ⟨by unfold MH_BLOCK_SIZE at *; omega, j3⟩⟩
        · intro hp0
          obtain ⟨x, x1, x2, x3, x4, x5⟩ := u2 hp0
          refine ⟨x, x1, x2, Or.inr ⟨by unfold MH_BLOCK_SIZE at *; omega, x4, ?_, ?_⟩⟩
          · intro y hy h1 h2
            exact hcov y hy h1 (by unfold MH_BLOCK_SIZE at *; omega)
          · intro y hy h1 h2
            exact x5 y hy (by unfold MH_BLOCK_SIZE at *; omega) h2
    · rw [if_neg hpb] at h
      simp only [Option.some.injEq, Prod.mk.injEq] at h
      obtain ⟨hp, htr⟩ := h
      subst hp htr
      refine ⟨hd1, ?_⟩
      intro hp0
      obtain ⟨x, x1, x2, x3, x4, x5⟩ := d2 hp0
      refine ⟨x, x1, x2, Or.inl ⟨x3, by unfold MH_BLOCK_SIZE at *; omega, ?_⟩⟩
      intro y hy h1 h2
      exact x5 y hy h1 (by unfold MH_BLOCK_SIZE at *; omega)

theorem GetMemoryBlock_cases (fuel : Nat) (os : Nat → Nat) (st : State) (pOrigin pBlock : Nat)
    (st1 : State) (tr : List Nat)
    (h : GetMemoryBlock fuel os st pOrigin = some (pBlock, st1, tr)) :
    (scanBlocks fuel st.mem (windowLo st pOrigin) (windowHi st pOrigin)
        st.g_pMemoryBlocks = some pBlock ∧ pBlock ≠ 0 ∧ st1 = st ∧ tr = [])
    ∨ (scanBlocks fuel st.mem (windowLo st pOrigin) (windowHi st pOrigin)
        st.g_pMemoryBlocks = some 0
      ∧ probeNew fuel os (windowLo st pOrigin) (windowHi st pOrigin) pOrigin = some (pBlock, tr)
      ∧ (pBlock ≠ 0 → initBlock fuel st pBlock = some st1)
      ∧ (pBlock = 0 → st1 = st)) := by
  unfold GetMemoryBlock at h
  cases hs : scanBlocks fuel st.mem (windowLo st pOrigin) (windowHi st pOrigin)
      st.g_pMemoryBlocks with
  | none => rw [hs] at h; simp at h
  | some pFound =>
    rw [hs] at h
    simp only at h
    by_cases hf : pFound ≠ 0
    · rw [if_pos hf] at h
      simp only [Option.some.injEq, Prod.mk.injEq] at h
      obtain ⟨e1, e2, e3⟩ := h
      subst e1
      exact Or.inl ⟨rfl, hf, e2.symm, e3.symm⟩
    · rw [if_neg hf] at h
      have hf0 : pFound = 0 := not_not.mp hf
      subst hf0
      cases hp : probeNew fuel os (windowLo st pOrigin) (windowHi st pOrigin) pOrigin with
      | none => rw [hp] at h; simp at h
      | some r =>
        obtain ⟨q, tr2⟩ := r
        rw [hp] at h
        simp only at h
        by_cases hq : q ≠ 0
        · rw [if_pos hq] at h
          cases hi : initBlock fuel st q with
          | none => rw [hi] at h; simp at h
          | some st3 =>
            rw [hi] at h
            simp only [Option.some.injEq, Prod.mk.injEq] at h
            obtain ⟨e1, e2, e3⟩ := h
            subst e1 e2 e3
            exact Or.inr ⟨rfl, rfl, fun _ => hi, fun h0 => absurd h0 hq⟩
        · rw [if_neg hq] at h
          have hq0 : q = 0 := not_not.mp hq
          subst hq0
          simp only [Option.some.injEq, Prod.mk.injEq] at h
          obtain ⟨e1, e2, e3⟩ := h
          subst e1 e2 e3
          exact Or.inr ⟨rfl, rfl, fun h0 => absurd rfl h0, fun _ => rfl⟩

theorem probeNew_trace_ne_nil (os : Nat → Nat) (lo hi pOrigin fuel p : Nat) (tr : List Nat)
    (h : probeNew fuel os lo hi pOrigin = some (p, tr)) (hp : p ≠ 0) : tr ≠ [] := by
  unfold probeNew at h
  simp only at h
  have hD : ∀ n a q t, probeDown n os lo a = some (q, t) → q ≠ 0 → t ≠ [] := by
    intro n a q t hd hq
    cases n with
    | zero => simp [probeDown] at hd
    | succ k =>
      unfold probeDown at hd
      simp only [eager_eq] at hd
      split at hd
      · split at hd
        · simp only [Option.some.injEq, Prod.mk.injEq] at hd
          rw [← hd.2]
          exact List.cons_ne_nil _ _
        · cases hrec : probeDown k os lo (subPtr a MH_BLOCK_SIZE) with
          | none => rw [hrec] at hd; simp at hd
          | some r =>
            rw [hrec] at hd
            simp only [Option.some.injEq, Prod.mk.injEq] at hd
            rw [← hd.2]
            exact List.cons_ne_nil _ _
      · simp only [Option.some.injEq, Prod.mk.injEq] at hd
        exact absurd hd.1.symm hq
  have hU : ∀ n a q t, probeUp n os hi a = some (q, t) → q ≠ 0 → t ≠ [] := by
    intro n a q t hd hq
    cases n with
    | zero => simp [probeUp] at hd
    | succ k =>
      unfold probeUp at hd
      simp only [eager_eq] at hd
      split at hd
      · split at hd
        · simp only [Option.some.injEq, Prod.mk.injEq] at hd
          rw [← hd.2]
          exact List.cons_ne_nil _ _
        · cases hrec : probeUp k os hi (addPtr a MH_BLOCK_SIZE) with
          | none => rw [hrec] at hd; simp at hd
          | some r =>
            rw [hrec] at hd
            simp only [Option.some.injEq, Prod.mk.injEq] at hd
            rw [← hd.2]
            exact List.cons_ne_nil _ _
      · simp only [Option.some.injEq, Prod.mk.injEq] at hd
        exact absurd hd.1.symm hq
  cases hd : probeDown fuel os lo (subPtr (pOrigin / MH_BLOCK_SIZE * MH_BLOCK_SIZE) MH_BLOCK_SIZE) with
  | none => rw [hd] at h; simp at h
  | some r =>
    obtain ⟨pb, tr1⟩ := r
    rw [hd] at h
    simp only at h
    by_cases hpb : pb = 0
    · rw [if_pos hpb] at h
      cases hu : probeUp fuel os hi (addPtr (pOrigin / MH_BLOCK_SIZE * MH_BLOCK_SIZE) MH_BLOCK_SIZE) with
      | none => rw [hu] at h; simp at h
      | some r2 =>
        obtain ⟨p2, tr2⟩ := r2
        rw [hu] at h
        simp only [Option.some.injEq, Prod.mk.injEq] at h
        obtain ⟨e1, e2⟩ := h
        subst e1 e2
        have := hU _ _ _ _ hu hp
        intro hnil
        exact this (List.append_eq_nil.mp hnil).2
    · rw [if_neg hpb] at h
      simp only [Option.some.injEq, Prod.mk.injEq] at h
      obtain ⟨e1, e2⟩ := h
      subst e1 e2
      exact hD _ _ _ _ hd hp

/-- C18 (amended): assume no unsigned wrap-around, that is `lo > 0`,
`start ≥ MH_BLOCK_SIZE`, `hi ≤ 2 ^ 64 - MH_BLOCK_SIZE` and also
`start + MH_BLOCK_SIZE < 2 ^ 64`.  When `GetMemoryBlock` creates a new block,
the block is the answer of the operating system to the request at `a`, where
`a` is the highest `MH_BLOCK_SIZE`-aligned address with `lo ≤ a < start` that
the operating system accepts, if there is one, and otherwise the lowest
aligned address with `start < a < hi` that it accepts; `a` is the base of the
block when the operating system returns the address asked.  Every request is
for an aligned address in `[lo, start)` or in `(start, hi)`; `start` is never
probed. -/
theorem C18_probe_order (st : State) (os : Nat → Nat) (pOrigin fuel pBlock : Nat)
    (st1 : State) (tr : List Nat)
    (hlo : 0 < windowLo st pOrigin)
    (hstart : MH_BLOCK_SIZE ≤ pOrigin / MH_BLOCK_SIZE * MH_BLOCK_SIZE)
    (hhi : windowHi st pOrigin ≤ PTR_MOD - MH_BLOCK_SIZE)
    (hup : pOrigin / MH_BLOCK_SIZE * MH_BLOCK_SIZE + MH_BLOCK_SIZE < PTR_MOD)
    (h : GetMemoryBlock fuel os st pOrigin = some (pBlock, st1, tr))
    (hp : pBlock ≠ 0) (hnew : tr ≠ []) :
    pOrigin / MH_BLOCK_SIZE * MH_BLOCK_SIZE ∉ tr
    ∧ (∀ x ∈ tr, x % MH_BLOCK_SIZE = 0
        ∧ ((windowLo st pOrigin ≤ x ∧ x < pOrigin / MH_BLOCK_SIZE * MH_BLOCK_SIZE)
          ∨ (pOrigin / MH_BLOCK_SIZE * MH_BLOCK_SIZE < x ∧ x < windowHi st pOrigin)))
    ∧ ∃ a, os a = pBlock ∧ a % MH_BLOCK_SIZE = 0
        ∧ ((∀ x, os x = 0 ∨ os x = x) → pBlock = a)
        ∧ ((windowLo st pOrigin ≤ a ∧ a < pOrigin / MH_BLOCK_SIZE * MH_BLOCK_SIZE
            ∧ ∀ y, y % MH_BLOCK_SIZE = 0 → a < y →
                y < pOrigin / MH_BLOCK_SIZE * MH_BLOCK_SIZE → os y = 0)
          ∨ (pOrigin / MH_BLOCK_SIZE * MH_BLOCK_SIZE < a ∧ a < windowHi st pOrigin
            ∧ (∀ y, y % MH_BLOCK_SIZE = 0 → windowLo st pOrigin ≤ y →
                y < pOrigin / MH_BLOCK_SIZE * MH_BLOCK_SIZE → os y = 0)
            ∧ ∀ y, y % MH_BLOCK_SIZE = 0 → pOrigin / MH_BLOCK_SIZE * MH_BLOCK_SIZE < y →
                y < a → os y = 0)) := by
  rcases GetMemoryBlock_cases fuel os st pOrigin pBlock st1 tr h with
    ⟨_, _, _, htr⟩ | ⟨_, hprobe, _, _⟩
  · exact absurd htr hnew
  · obtain ⟨t1, t2⟩ := probeNew_first os _ _ pOrigin fuel pBlock tr hlo hhi hstart hup hprobe
    refine ⟨?_, t1, ?_⟩
    · intro hmem
      rcases (t1 _ hmem).2 with ⟨_, c⟩ | ⟨c, _⟩
      · exact absurd c (lt_irrefl _)
      · exact absurd c (lt_irrefl _)
    · obtain ⟨a, a1, a2, a3⟩ := t2 hp
      refine ⟨a, a1, a2, ?_, a3⟩
      intro hos
      rcases hos a with h0 | h1
      · exact absurd (a1 ▸ h0) hp
      · rw [← a1, h1]

/-- Witness for C18: the first allocation at `0x20010` on the empty list, the
operating system accepting `0x1E000` only. -/
theorem C18_probe_order_witness :
    ∃ st1, GetMemoryBlock 100 (osGrantOnly 0x1E000) demoRange 0x20010
        = some (0x1E000, st1, [0x1F000, 0x1E000])
      ∧ (0x20010 / MH_BLOCK_SIZE * MH_BLOCK_SIZE ∉ [0x1F000, 0x1E000]
        ∧ (∀ x ∈ [0x1F000, 0x1E000], x % MH_BLOCK_SIZE = 0
            ∧ ((windowLo demoRange 0x20010 ≤ x ∧ x < 0x20010 / MH_BLOCK_SIZE * MH_BLOCK_SIZE)
              ∨ (0x20010 / MH_BLOCK_SIZE * MH_BLOCK_SIZE < x ∧ x < windowHi demoRange 0x20010)))
        ∧ ∃ a, osGrantOnly 0x1E000 a = 0x1E000 ∧ a % MH_BLOCK_SIZE = 0
            ∧ ((∀ x, osGrantOnly 0x1E000 x = 0 ∨ osGrantOnly 0x1E000 x = x) → 0x1E000 = a)
            ∧ ((windowLo demoRange 0x20010 ≤ a ∧ a < 0x20010 / MH_BLOCK_SIZE * MH_BLOCK_SIZE
                ∧ ∀ y, y % MH_BLOCK_SIZE = 0 → a < y →
                    y < 0x20010 / MH_BLOCK_SIZE * MH_BLOCK_SIZE → osGrantOnly 0x1E000 y = 0)
              ∨ (0x20010 / MH_BLOCK_SIZE * MH_BLOCK_SIZE < a ∧ a < windowHi demoRange 0x20010
                ∧ (∀ y, y % MH_BLOCK_SIZE = 0 → windowLo demoRange 0x20010 ≤ y →
                    y < 0x20010 / MH_BLOCK_SIZE * MH_BLOCK_SIZE → osGrantOnly 0x1E000 y = 0)
                ∧ ∀ y, y % MH_BLOCK_SIZE = 0 → 0x20010 / MH_BLOCK_SIZE * MH_BLOCK_SIZE < y →
                    y < a → osGrantOnly 0x1E000 y = 0))) := by
  have hv : (GetMemoryBlock 100 (osGrantOnly 0x1E000) demoRange 0x20010).map
      (fun r => (r.1, r.2.2)) = some (0x1E000, [0x1F000, 0x1E000]) := by decide!
  cases h : GetMemoryBlock 100 (osGrantOnly 0x1E000) demoRange 0x20010 with
  | none => rw [h] at hv; simp at hv
  | some r =>
    obtain ⟨p, st1, tr⟩ := r
    rw [h] at hv
    simp only [Option.map_some', Option.some.injEq, Prod.mk.injEq] at hv
    obtain ⟨e1, e2⟩ := hv
    subst e1 e2
    exact ⟨st1, rfl,
      C18_probe_order demoRange (osGrantOnly 0x1E000) 0x20010 100 0x1E000 st1 [0x1F000, 0x1E000]
        (by decide) (by decide) (by decide) (by decide) h (by decide) (by decide)⟩

/-- C18 (counterexample): (1) for the origin `2 ^ 64 - 1` the three
assumptions of the claim hold (`lo = 2 ^ 64 - 1 - MH_MAX_RANGE`,
`start = 2 ^ 64 - MH_BLOCK_SIZE`, `hi = MH_MAX_RANGE - 1`), yet
`start + MH_BLOCK_SIZE` wraps around to `0`: the upward loop probes from
address `0` and the block is created at `0x20000`, far below `start`.
(2) The block is placed where the operating system says: an operating system
that rounds the address asked down to a multiple of `0x10000`, as
`VirtualAlloc` does when it reserves memory, answers `0x10000` to the request
at `0x1F000`, and the block is created at `0x10000`. -/
theorem C18_counterexample :
    ((GetMemoryBlock 5000 (osGrantOnly 0x20000) demoRange (2 ^ 64 - 1)).map (fun r => r.1)
        = some 0x20000
      ∧ (windowLo demoRange (2 ^ 64 - 1), (2 ^ 64 - 1) / MH_BLOCK_SIZE * MH_BLOCK_SIZE,
          windowHi demoRange (2 ^ 64 - 1))
        = (2 ^ 64 - 1 - MH_MAX_RANGE, 2 ^ 64 - MH_BLOCK_SIZE, MH_MAX_RANGE - 1))
    ∧ (GetMemoryBlock 100 (fun a => a / 0x10000 * 0x10000) demoRange 0x20010).map
        (fun r => (r.1, r.2.2)) = some (0x10000, [0x1F000]) := by decide!

/-- For an origin inside the address range, with `origin + MH_MAX_RANGE`
below `2 ^ 64`, the window is the one of plain arithmetic and it contains the
origin. -/
theorem window_of_origin (st : State) (pOrigin : Nat)
    (ho2 : st.g_MinAddress ≤ pOrigin) (ho3 : pOrigin ≤ st.g_MaxAddress)
    (ho4 : pOrigin + MH_MAX_RANGE < PTR_MOD) :
    windowLo st pOrigin
        = (if pOrigin > MH_MAX_RANGE then max st.g_MinAddress (pOrigin - MH_MAX_RANGE)
            else st.g_MinAddress)
      ∧ windowHi st pOrigin = min st.g_MaxAddress (pOrigin + MH_MAX_RANGE)
      ∧ windowLo st pOrigin ≤ pOrigin ∧ pOrigin ≤ windowHi st pOrigin := by
  have hs : pOrigin > MH_MAX_RANGE → subPtr pOrigin MH_MAX_RANGE = pOrigin - MH_MAX_RANGE := by
    intro h
    unfold subPtr PTR_MOD MH_MAX_RANGE at *
    omega
  have ha : addPtr pOrigin MH_MAX_RANGE = pOrigin + MH_MAX_RANGE := by
    unfold addPtr PTR_MOD MH_MAX_RANGE at *
    omega
  unfold windowLo windowHi
  rw [ha]
  refine ⟨?_, rfl, ?_, ?_⟩
  · by_cases h : pOrigin > MH_MAX_RANGE
    · rw [if_pos h, if_pos h, hs h]
    · rw [if_neg h, if_neg h]
  · by_cases h : pOrigin > MH_MAX_RANGE
    · rw [if_pos h, hs h]
      exact max_le ho2 (Nat.sub_le _ _)
    · rw [if_neg h]
      exact ho2
  · exact le_min ho3 (Nat.le_add_right _ _)

/-- C19 (amended): with `0 < minAddress`, `maxAddress ≤ 2 ^ 64 - MH_BLOCK_SIZE`
and an origin with `MH_BLOCK_SIZE ≤ origin`, `minAddress ≤ origin ≤ maxAddress`
and `origin + MH_MAX_RANGE < 2 ^ 64`, every address `GetMemoryBlock` passes to
the operating system lies in `[lo, hi)`, and the block it returns, reused or
mapped by an operating system that returns `NULL` or the address asked, has
its base in `[lo, hi)`; here `lo = max(minAddress, origin - MH_MAX_RANGE)` when
`origin > MH_MAX_RANGE` and `minAddress` otherwise, and
`hi = min(maxAddress, origin + MH_MAX_RANGE)`. -/
theorem C19_block_inside_window (st : State) (os : Nat → Nat) (pOrigin fuel pBlock : Nat)
    (st1 : State) (tr : List Nat)
    (hmin : 0 < st.g_MinAddress) (hmax : st.g_MaxAddress ≤ PTR_MOD - MH_BLOCK_SIZE)
    (ho1 : MH_BLOCK_SIZE ≤ pOrigin)
    (ho2 : st.g_MinAddress ≤ pOrigin) (ho3 : pOrigin ≤ st.g_MaxAddress)
    (ho4 : pOrigin + MH_MAX_RANGE < PTR_MOD)
    (h : GetMemoryBlock fuel os st pOrigin = some (pBlock, st1, tr)) :
    windowLo st pOrigin
        = (if pOrigin > MH_MAX_RANGE then max st.g_MinAddress (pOrigin - MH_MAX_RANGE)
            else st.g_MinAddress)
      ∧ windowHi st pOrigin = min st.g_MaxAddress (pOrigin + MH_MAX_RANGE)
      ∧ (∀ a ∈ tr, windowLo st pOrigin ≤ a ∧ a < windowHi st pOrigin)
      ∧ (pBlock ≠ 0 → (∀ x, os x = 0 ∨ os x = x) →
          windowLo st pOrigin ≤ pBlock ∧ pBlock < windowHi st pOrigin) := by
  obtain ⟨w1, w2, w3, w4⟩ := window_of_origin st pOrigin ho2 ho3 ho4
  refine ⟨w1, w2, ?_⟩
  have hS1 : MH_BLOCK_SIZE ≤ pOrigin / MH_BLOCK_SIZE * MH_BLOCK_SIZE := by
    unfold MH_BLOCK_SIZE at *
    omega
  have hS2 : pOrigin / MH_BLOCK_SIZE * MH_BLOCK_SIZE + MH_BLOCK_SIZE < PTR_MOD := by
    unfold MH_BLOCK_SIZE MH_MAX_RANGE PTR_MOD at *
    omega
  have hS3 : pOrigin / MH_BLOCK_SIZE * MH_BLOCK_SIZE ≤ pOrigin := Nat.div_mul_le_self _ _
  have hS4 : pOrigin < pOrigin / MH_BLOCK_SIZE * MH_BLOCK_SIZE + MH_BLOCK_SIZE := by
    unfold MH_BLOCK_SIZE
    omega
  have hin : ∀ x, x % MH_BLOCK_SIZE = 0 →
      ((windowLo st pOrigin ≤ x ∧ x < pOrigin / MH_BLOCK_SIZE * MH_BLOCK_SIZE)
        ∨ (pOrigin / MH_BLOCK_SIZE * MH_BLOCK_SIZE < x ∧ x < windowHi st pOrigin)) →
      windowLo st pOrigin ≤ x ∧ x < windowHi st pOrigin := by
    intro x hx hc
    rcases hc with ⟨c1, c2⟩ | ⟨c1, c2⟩
    · exact ⟨c1, by omega⟩
    · refine ⟨?_, c2⟩
      have : pOrigin / MH_BLOCK_SIZE * MH_BLOCK_SIZE + MH_BLOCK_SIZE ≤ x := by
        have ha : (pOrigin / MH_BLOCK_SIZE * MH_BLOCK_SIZE) % MH_BLOCK_SIZE = 0 :=
          Nat.mul_mod_left _ _
        clear w1 w2 w3 w4 hS1 hS2 hS3 hS4 h hmin hmax ho1 ho2 ho3 ho4 c2
        unfold MH_BLOCK_SIZE at *
        omega
      omega
  rcases GetMemoryBlock_cases fuel os st pOrigin pBlock st1 tr h with
    ⟨hscan, hp, _, htr⟩ | ⟨_, hprobe, _, _⟩
  · refine ⟨?_, fun _ _ => ?_⟩
    · rw [htr]
      intro a ha
      exact absurd ha (List.not_mem_nil a)
    · obtain ⟨s1, s2, _⟩ := scanBlocks_found st.mem _ _ fuel _ pBlock hscan hp
      exact ⟨s1, s2⟩
  · obtain ⟨t1, t2⟩ := probeNew_first os _ _ pOrigin fuel pBlock tr
      (windowLo_pos st pOrigin hmin) (le_trans (windowHi_le st pOrigin) hmax) hS1 hS2 hprobe
    refine ⟨fun a ha => hin a (t1 a ha).1 (t1 a ha).2, ?_⟩
    intro hp hos
    obtain ⟨a, a1, a2, a3⟩ := t2 hp
    have hpa : pBlock = a := by
      rcases hos a with h0 | h1
      · exact absurd (a1 ▸ h0) hp
      · rw [← a1, h1]
    rw [hpa]
    apply hin a a2
    rcases a3 with ⟨c1, c2, _⟩ | ⟨c1, c2, _⟩
    · exact Or.inl ⟨c1, c2⟩
    · exact Or.inr ⟨c1, c2⟩

/-- Witness for C19: the first allocation at `0x20010` on the empty list. -/
theorem C19_block_inside_window_witness :
    ∃ pBlock st1 tr, GetMemoryBlock 100 osGrantAll demoRange 0x20010 = some (pBlock, st1, tr)
      ∧ (windowLo demoRange 0x20010
          = (if 0x20010 > MH_MAX_RANGE then max demoRange.g_MinAddress (0x20010 - MH_MAX_RANGE)
              else demoRange.g_MinAddress)
        ∧ windowHi demoRange 0x20010 = min demoRange.g_MaxAddress (0x20010 + MH_MAX_RANGE)
        ∧ (∀ a ∈ tr, windowLo demoRange 0x20010 ≤ a ∧ a < windowHi demoRange 0x20010)
        ∧ (pBlock ≠ 0 → (∀ x, osGrantAll x = 0 ∨ osGrantAll x = x) →
            windowLo demoRange 0x20010 ≤ pBlock ∧ pBlock < windowHi demoRange 0x20010)) := by
  have hv : (GetMemoryBlock 100 osGrantAll demoRange 0x20010).isSome = true := by decide!
  cases h : GetMemoryBlock 100 osGrantAll demoRange 0x20010 with
  | none => rw [h] at hv; simp at hv
  | some r =>
    obtain ⟨p, st1, tr⟩ := r
    exact ⟨p, st1, tr, rfl,
      C19_block_inside_window demoRange osGrantAll 0x20010 100 p st1 tr
        (by decide) (by decide) (by decide) (by decide) (by decide) (by decide) h⟩

/-- C19 (counterexample): requests and blocks outside `[lo, hi)`.
(1) For the origin `0x10`, below the first page boundary,
`pStart - MH_BLOCK_SIZE` wraps around: the requests go to `2 ^ 64 - 0x1000`
and `2 ^ 64 - 0x2000`, far above `hi = 0x1000010`.  (2) The downward loop
never tests `maxAddr`: with `maxAddress = 0x1F000` and the origin `0x20010`
the block is mapped at `0x1F000 = hi`.  (3) The upward loop never tests
`minAddr`: for the origin `0x5010` below `minAddress = 0x10000` the block is
mapped at `0x6000 < lo`.  (4) The block is placed where the operating system
says: one that answers `0x7FF000000000` to the request at `0x1F000` yields a
block far above `hi = 0x1020010`. -/
theorem C19_counterexample :
    ((GetMemoryBlock 100 (osGrantOnly (2 ^ 64 - 0x2000)) demoRange 0x10).map
        (fun r => (r.1, r.2.2))
        = some (2 ^ 64 - 0x2000, [2 ^ 64 - 0x1000, 2 ^ 64 - 0x2000])
      ∧ (windowLo demoRange 0x10, windowHi demoRange 0x10) = (0x10000, 0x1000010))
    ∧ ((GetMemoryBlock 100 osGrantAll (emptyState 0x10000 0x1F000) 0x20010).map
        (fun r => (r.1, r.2.2)) = some (0x1F000, [0x1F000])
      ∧ (windowLo (emptyState 0x10000 0x1F000) 0x20010,
          windowHi (emptyState 0x10000 0x1F000) 0x20010) = (0x10000, 0x1F000))
    ∧ ((GetMemoryBlock 100 osGrantAll demoRange 0x5010).map (fun r => (r.1, r.2.2))
        = some (0x6000, [0x6000])
      ∧ (windowLo demoRange 0x5010, windowHi demoRange 0x5010) = (0x10000, 0x1005010))
    ∧ ((GetMemoryBlock 100 (fun _ => 0x7FF000000000) demoRange 0x20010).map
        (fun r => (r.1, r.2.2)) = some (0x7FF000000000, [0x1F000])
      ∧ (windowLo demoRange 0x20010, windowHi demoRange 0x20010) = (0x10000, 0x1020010)) := by
  decide!

/-! ## Termination of the probe loops and of the slot loop -/

theorem probeDown_total (os : Nat → Nat) (lo : Nat) (hlo : 0 < lo) :
    ∀ (n a : Nat), a % MH_BLOCK_SIZE = 0 → a < PTR_MOD → a / MH_BLOCK_SIZE < n →
      ∃ r, probeDown n os lo a = some r := by
  intro n
  induction n with
  | zero => intro a _ _ h; simp at h
  | succ k ih =>
    intro a ha hlt hn
    unfold probeDown
    simp only [eager_eq]
    by_cases hge : a ≥ lo
    · rw [if_pos hge]
      by_cases hos : os a ≠ 0
      · rw [if_pos hos]
        exact ⟨_, rfl⟩
      · rw [if_neg hos]
        have hP : MH_BLOCK_SIZE ≤ a := by
          unfold MH_BLOCK_SIZE at *
          omega
        rw [subPtr_block a hP hlt]
        obtain ⟨r, hr⟩ := ih (a - MH_BLOCK_SIZE)
          (by unfold MH_BLOCK_SIZE at *; omega) (by omega)
          (by unfold MH_BLOCK_SIZE at *; omega)
        rw [hr]
        exact ⟨_, rfl⟩
    · rw [if_neg hge]
      exact ⟨_, rfl⟩

/-- The downward loop reaches an accepted address `x` below its start. -/
theorem probeDown_reach (os : Nat → Nat) (lo x : Nat) (hx0 : os x ≠ 0)
    (hx : x % MH_BLOCK_SIZE = 0) (hlox : lo ≤ x) :
    ∀ (n a : Nat), a % MH_BLOCK_SIZE = 0 → a < PTR_MOD → x ≤ a →
      (a - x) / MH_BLOCK_SIZE < n →
      ∃ p tr, probeDown n os lo a = some (p, tr) ∧ p ≠ 0 := by
  intro n
  induction n with
  | zero => intro a _ _ _ h; simp at h
  | succ k ih =>
    intro a ha hlt hxa hn
    unfold probeDown
    simp only [eager_eq]
    rw [if_pos (le_trans hlox hxa)]
    by_cases hos : os a ≠ 0
    · rw [if_pos hos]
      exact ⟨_, _, rfl, hos⟩
    · rw [if_neg hos]
      have hne : x ≠ a := fun e => hos (e ▸ hx0)
      have hP : MH_BLOCK_SIZE ≤ a := by
        unfold MH_BLOCK_SIZE at *
        omega
      rw [subPtr_block a hP hlt]
      obtain ⟨p, tr, hr, hp⟩ := ih (a - MH_BLOCK_SIZE)
        (by unfold MH_BLOCK_SIZE at *; omega) (by omega)
        (by unfold MH_BLOCK_SIZE at *; omega)
        (by unfold MH_BLOCK_SIZE at *; omega)
      rw [hr]
      exact ⟨p, _, rfl, hp⟩

/-- With a lower bound of zero the downward loop passes address `0`, wraps
around and comes down from the top of the address space until it meets an
accepted address. -/
theorem probeDown_reach_wrap (os : Nat → Nat) (x : Nat) (hx0 : os x ≠ 0)
    (hx : x % MH_BLOCK_SIZE = 0) (hxlt : x < PTR_MOD) :
    ∀ (n a : Nat), a % MH_BLOCK_SIZE = 0 → a < PTR_MOD →
      ((a + PTR_MOD - x) % PTR_MOD) / MH_BLOCK_SIZE < n →
      ∃ p tr, probeDown n os 0 a = some (p, tr) ∧ p ≠ 0 := by
  intro n
  induction n with
  | zero => intro a _ _ h; simp at h
  | succ k ih =>
    intro a ha hlt hn
    unfold probeDown
    simp only [eager_eq]
    rw [if_pos (Nat.zero_le a)]
    by_cases hos : os a ≠ 0
    · rw [if_pos hos]
      exact ⟨_, _, rfl, hos⟩
    · rw [if_neg hos]
      have hne : x ≠ a := fun e => hos (e ▸ hx0)
      obtain ⟨p, tr, hr, hp⟩ := ih (subPtr a MH_BLOCK_SIZE)
        (by unfold subPtr PTR_MOD MH_BLOCK_SIZE at *; omega) (subPtr_lt _ _)
        (by unfold subPtr PTR_MOD MH_BLOCK_SIZE at *; omega)
      rw [hr]
      exact ⟨p, _, rfl, hp⟩

theorem probeUp_total (os : Nat → Nat) (hi : Nat) (hhi : hi ≤ PTR_MOD - MH_BLOCK_SIZE) :
    ∀ (n a : Nat), (hi - a + 4095) / MH_BLOCK_SIZE < n →
      ∃ r, probeUp n os hi a = some r := by
  intro n
  induction n with
  | zero => intro a h; simp at h
  | succ k ih =>
    intro a hn
    unfold probeUp
    simp only [eager_eq]
    by_cases hge : a < hi
    · rw [if_pos hge]
      by_cases hos : os a ≠ 0
      · rw [if_pos hos]
        exact ⟨_, rfl⟩
      · rw [if_neg hos]
        have hadd : addPtr a MH_BLOCK_SIZE = a + MH_BLOCK_SIZE := by
          unfold addPtr PTR_MOD MH_BLOCK_SIZE at *
          omega
        rw [hadd]
        obtain ⟨r, hr⟩ := ih (a + MH_BLOCK_SIZE) (by unfold MH_BLOCK_SIZE at *; omega)
        rw [hr]
        exact ⟨_, rfl⟩
    · rw [if_neg hge]
      exact ⟨_, rfl⟩

/-- The upward loop reaches an accepted address `x` above its start. -/
theorem probeUp_reach (os : Nat → Nat) (hi x : Nat) (hx0 : os x ≠ 0)
    (hx : x % MH_BLOCK_SIZE = 0) (hxhi : x < hi) (hxlt : x < PTR_MOD) :
    ∀ (n a : Nat), a % MH_BLOCK_SIZE = 0 → a ≤ x → (x - a) / MH_BLOCK_SIZE < n →
      ∃ p tr, probeUp n os hi a = some (p, tr) ∧ p ≠ 0 := by
  intro n
  induction n with
  | zero => intro a _ _ h; simp at h
  | succ k ih =>
    intro a ha hax hn
    unfold probeUp
    simp only [eager_eq]
    rw [if_pos (lt_of_le_of_lt hax hxhi)]
    by_cases hos : os a ≠ 0
    · rw [if_pos hos]
      exact ⟨_, _, rfl, hos⟩
    · rw [if_neg hos]
      have hne : x ≠ a := fun e => hos (e ▸ hx0)
      have hadd : addPtr a MH_BLOCK_SIZE = a + MH_BLOCK_SIZE := by
        unfold addPtr PTR_MOD MH_BLOCK_SIZE at *
        omega
      rw [hadd]
      obtain ⟨p, tr, hr, hp⟩ := ih (a + MH_BLOCK_SIZE)
        (by unfold MH_BLOCK_SIZE at *; omega)
        (by unfold MH_BLOCK_SIZE at *; omega)
        (by unfold MH_BLOCK_SIZE at *; omega)
      rw [hr]
      exact ⟨p, _, rfl, hp⟩

theorem buildSlots_total (N : Nat) (hN : N + 2 * MH_BLOCK_SIZE ≤ PTR_MOD) :
    ∀ (fuel j : Nat) (m : Mem), j ≤ 63 → 64 ≤ fuel + j →
      ∃ m2, buildSlots fuel m N (N + MH_SLOT_SIZE * (j + 1)) = some m2 := by
  intro fuel
  induction fuel with
  | zero => intro j m h1 h2; omega
  | succ n ih =>
    intro j m hj hf
    unfold buildSlots
    simp only
    have hadd : addPtr (N + MH_SLOT_SIZE * (j + 1)) MH_SLOT_SIZE
        = N + MH_SLOT_SIZE * (j + 1 + 1) := by
      unfold addPtr PTR_MOD MH_SLOT_SIZE MH_BLOCK_SIZE at *
      omega
    rw [hadd]
    have hsub : subPtr (N + MH_SLOT_SIZE * (j + 1 + 1)) N = MH_SLOT_SIZE * (j + 1 + 1) := by
      unfold subPtr PTR_MOD MH_SLOT_SIZE MH_BLOCK_SIZE at *
      omega
    rw [hsub]
    by_cases hc : MH_SLOT_SIZE * (j + 1 + 1) ≤ MH_BLOCK_SIZE
    · rw [if_pos hc]
      exact ih (j + 1) _ (by unfold MH_SLOT_SIZE MH_BLOCK_SIZE at *; omega) (by omega)
    · rw [if_neg hc]
      exact ⟨_, rfl⟩

/-! ## Failure and creation of a block -/

theorem initBlock_total (st : State) (N fuel : Nat) (hN : N + 2 * MH_BLOCK_SIZE ≤ PTR_MOD)
    (hfuel : 64 ≤ fuel) : ∃ st1, initBlock fuel st N = some st1 := by
  unfold initBlock
  have hadd : addPtr N MH_SLOT_SIZE = N + MH_SLOT_SIZE * (0 + 1) := by
    unfold addPtr PTR_MOD MH_SLOT_SIZE MH_BLOCK_SIZE at *
    omega
  rw [hadd]
  obtain ⟨m2, hm⟩ := buildSlots_total N hN fuel 0 (store64 st.mem (pFreeField N) 0)
    (by omega) (by omega)
  rw [hm]
  exact ⟨_, rfl⟩

/-- The free list of a block just initialised, whatever the rest of the
state: all the slots built by the loop, the one at `N + MH_BLOCK_SIZE`
first. -/
theorem initBlock_free (st st1 : State) (N fuel : Nat)
    (hN : N + 2 * MH_BLOCK_SIZE ≤ PTR_MOD) (h : initBlock fuel st N = some st1) :
    st1.g_pMemoryBlocks = N
      ∧ load64 st1.mem (pFreeField N) = N + MH_BLOCK_SIZE
      ∧ IsChain st1.mem (N + MH_BLOCK_SIZE) (slotsDown N 64)
      ∧ (st.g_pMemoryBlocks < 2 ^ 64 → load64 st1.mem N = st.g_pMemoryBlocks) := by
  unfold initBlock at h
  have hadd : addPtr N MH_SLOT_SIZE = N + MH_SLOT_SIZE * (0 + 1) := by
    unfold addPtr PTR_MOD MH_SLOT_SIZE MH_BLOCK_SIZE at *
    omega
  rw [hadd] at h
  cases hb : buildSlots fuel (store64 st.mem (pFreeField N) 0) N
      (N + MH_SLOT_SIZE * (0 + 1)) with
  | none => rw [hb] at h; simp at h
  | some m2 =>
    rw [hb] at h
    have hst : _ = st1 := Option.some.inj h
    have h0 : IsChain (store64 st.mem (pFreeField N) 0)
        (load64 (store64 st.mem (pFreeField N) 0) (pFreeField N)) (slotsDown N 0) := by
      rw [load64_store64_same _ _ _ (by decide)]
      rfl
    obtain ⟨r1, r2, _⟩ := buildSlots_spec N hN fuel 0 _ m2 (by omega) h0 hb
    rw [← hst]
    refine ⟨rfl, ?_, ?_, ?_⟩
    · show load64 (store64 m2 N st.g_pMemoryBlocks) (pFreeField N) = N + MH_BLOCK_SIZE
      rw [load64_store64_disj _ _ _ _ (by unfold Disj8 pFreeField; omega)]
      exact r1
    · apply IsChain.store _ _ _ _ _ r2
      intro s hs
      obtain ⟨k, h1, h2, h3⟩ := (mem_slotsDown N 64 s).mp hs
      unfold Disj8 MH_SLOT_SIZE at *
      omega
    · intro hg
      exact load64_store64_same _ _ _ hg

/-- What `AllocateBuffer` does once the scan of the list has ended with `NULL`
and the probe loops have obtained the block `b`. -/
theorem AllocateBuffer_fresh (st : State) (os : Nat → Nat) (pOrigin fuel b : Nat)
    (tr : List Nat)
    (hscan : scanBlocks fuel st.mem (windowLo st pOrigin) (windowHi st pOrigin)
      st.g_pMemoryBlocks = some 0)
    (hprobe : probeNew fuel os (windowLo st pOrigin) (windowHi st pOrigin) pOrigin
      = some (b, tr))
    (hb : b ≠ 0) (hlt : b + 2 * MH_BLOCK_SIZE ≤ PTR_MOD) (hfuel : 64 ≤ fuel) :
    ∃ st1 st2, GetMemoryBlock fuel os st pOrigin = some (b, st1, tr)
      ∧ IsChain st1.mem (load64 st1.mem (pFreeField b)) (slotsDown b 64)
      ∧ AllocateBuffer fuel os st pOrigin = some (b + MH_SLOT_SIZE * 64, st2, tr)
      ∧ st2.g_pMemoryBlocks = b
      ∧ IsChain st2.mem (load64 st2.mem (pFreeField b)) (slotsDown b 63)
      ∧ (st.g_pMemoryBlocks < 2 ^ 64 → load64 st2.mem b = st.g_pMemoryBlocks) := by
  obtain ⟨st1, hi⟩ := initBlock_total st b fuel hlt hfuel
  obtain ⟨e1, e2, e3, e4⟩ := initBlock_free st st1 b fuel hlt hi
  have hg : GetMemoryBlock fuel os st pOrigin = some (b, st1, tr) := by
    unfold GetMemoryBlock
    simp [hscan, hprobe, hb, hi]
  have hB : b + MH_BLOCK_SIZE = b + MH_SLOT_SIZE * 64 := by
    unfold MH_BLOCK_SIZE MH_SLOT_SIZE
    omega
  have e3c := e3
  obtain ⟨_, c2, c3⟩ : b + MH_BLOCK_SIZE = b + MH_SLOT_SIZE * (63 + 1)
      ∧ b + MH_SLOT_SIZE * (63 + 1) ≠ 0
      ∧ IsChain st1.mem (load64 st1.mem (b + MH_SLOT_SIZE * (63 + 1))) (slotsDown b 63) := e3
  have hsep : ∀ s ∈ slotsDown b 63, Disj8 (pFreeField b) s := by
    intro s hs
    obtain ⟨k, h1, h2, h3⟩ := (mem_slotsDown b 63 s).mp hs
    unfold Disj8 pFreeField MH_SLOT_SIZE at *
    omega
  refine ⟨st1, { st1 with mem := (store64 st1.mem (pFreeField b)
      (load64 st1.mem (b + MH_SLOT_SIZE * 64))) }, hg, ?_, ?_, e1, ?_, ?_⟩
  · rw [e2]
    exact e3c
  · unfold AllocateBuffer
    rw [hg]
    simp only [if_neg hb, e2, hB]
  · show IsChain (store64 st1.mem (pFreeField b) (load64 st1.mem (b + MH_SLOT_SIZE * 64)))
      (load64 (store64 st1.mem (pFreeField b) (load64 st1.mem (b + MH_SLOT_SIZE * 64)))
        (pFreeField b)) (slotsDown b 63)
    rw [load64_store64_same _ _ _ (load64_lt _ _)]
    exact IsChain.store _ _ _ _ _ c3 hsep
  · intro hlt2
    show load64 (store64 st1.mem (pFreeField b) (load64 st1.mem (b + MH_SLOT_SIZE * 64))) b = _
    rw [load64_store64_disj _ _ _ _ (by unfold Disj8 pFreeField; omega)]
    exact e4 hlt2

theorem slotsDown_getElem (b : Nat) :
    ∀ (j i : Nat), i < j → (slotsDown b j)[i]? = some (b + MH_SLOT_SIZE * (j - i)) := by
  intro j
  induction j with
  | zero => intro i h; omega
  | succ n ih =>
    intro i hi
    cases i with
    | zero => simp [slotsDown]
    | succ k =>
      have hk := ih k (by omega)
      have e : n + 1 - (k + 1) = n - k := by omega
      rw [e]
      simpa [slotsDown] using hk

theorem slotsDown_descending (b : Nat) :
    ∀ j, (slotsDown b j).Pairwise (fun x y => y < x) := by
  intro j
  induction j with
  | zero => exact List.Pairwise.nil
  | succ n ih =>
    refine List.Pairwise.cons ?_ ih
    intro y hy
    obtain ⟨k, _, h2, h3⟩ := (mem_slotsDown b n y).mp hy
    unfold MH_SLOT_SIZE at *
    omega

theorem slotsDown_length (b : Nat) : ∀ j, (slotsDown b j).length = j := by
  intro j
  induction j with
  | zero => rfl
  | succ n ih => simp [slotsDown, ih]

/-- When both probe loops end with `NULL`, the operating system has refused
every aligned address of `[lo, hi)` except `pStart`. -/
theorem probeNew_cover (os : Nat → Nat) (lo hi pOrigin fuel : Nat) (tr : List Nat)
    (ho : pOrigin < PTR_MOD) (hhi : hi ≤ PTR_MOD)
    (h : probeNew fuel os lo hi pOrigin = some (0, tr)) :
    ∀ x, x % MH_BLOCK_SIZE = 0 → lo ≤ x → x < hi →
      x ≠ pOrigin / MH_BLOCK_SIZE * MH_BLOCK_SIZE → os x = 0 := by
  unfold probeNew at h
  simp only at h
  obtain ⟨S, hS⟩ : ∃ S, S = pOrigin / MH_BLOCK_SIZE * MH_BLOCK_SIZE := ⟨_, rfl⟩
  rw [← hS] at h ⊢
  have hal : S % MH_BLOCK_SIZE = 0 := by
    rw [hS]
    exact Nat.mul_mod_left _ _
  have hSlt : S < PTR_MOD := by
    rw [hS]
    exact lt_of_le_of_lt (Nat.div_mul_le_self _ _) ho
  clear hS
  have ha0 : subPtr S MH_BLOCK_SIZE % MH_BLOCK_SIZE = 0 := by
    unfold subPtr PTR_MOD MH_BLOCK_SIZE at *
    omega
  have hb0 : addPtr S MH_BLOCK_SIZE % MH_BLOCK_SIZE = 0 := by
    unfold addPtr PTR_MOD MH_BLOCK_SIZE at *
    omega
  cases hd : probeDown fuel os lo (subPtr S MH_BLOCK_SIZE) with
  | none => rw [hd] at h; simp at h
  | some r =>
    obtain ⟨pb, tr1⟩ := r
    rw [hd] at h
    simp only at h
    by_cases hpb : pb = 0
    · rw [if_pos hpb] at h
      subst hpb
      cases hu : probeUp fuel os hi (addPtr S MH_BLOCK_SIZE) with
      | none => rw [hu] at h; simp at h
      | some r2 =>
        obtain ⟨p2, tr2⟩ := r2
        rw [hu] at h
        simp only [Option.some.injEq, Prod.mk.injEq] at h
        obtain ⟨hp, _⟩ := h
        subst hp
        have c1 := probeDown_cover os lo fuel _ tr1 ha0 (subPtr_lt _ _) hd
        have c2 := probeUp_cover os hi hhi fuel _ tr2 hb0 (addPtr_lt _ _) hu
        intro x hx h1 h2 h3
        by_cases hlt : x < S
        · apply c1 x hx h1
          have hP : MH_BLOCK_SIZE ≤ S := by
            unfold MH_BLOCK_SIZE at *
            omega
          rw [subPtr_block S hP hSlt]
          unfold MH_BLOCK_SIZE at *
          omega
        · apply c2 x hx _ h2
          have hadd : addPtr S MH_BLOCK_SIZE = S + MH_BLOCK_SIZE := by
            unfold addPtr PTR_MOD MH_BLOCK_SIZE at *
            omega
          rw [hadd]
          unfold MH_BLOCK_SIZE at *
          omega
    · rw [if_neg hpb] at h
      simp only [Option.some.injEq, Prod.mk.injEq] at h
      exact absurd h.1 hpb

/-- When the operating system accepts an aligned address of `[lo, hi)` other
than `pStart`, the probe loops end with a block, given fuel for `2 ^ 52`
rounds. -/
theorem probeNew_reach (os : Nat → Nat) (lo hi pOrigin fuel x : Nat)
    (ho : pOrigin < PTR_MOD) (hhi : hi ≤ PTR_MOD)
    (hx : x % MH_BLOCK_SIZE = 0) (h1 : lo ≤ x) (h2 : x < hi)
    (h3 : x ≠ pOrigin / MH_BLOCK_SIZE * MH_BLOCK_SIZE) (hx0 : os x ≠ 0)
    (hfuel : PTR_MOD / MH_BLOCK_SIZE < fuel) :
    ∃ p tr, probeNew fuel os lo hi pOrigin = some (p, tr) ∧ p ≠ 0 := by
  unfold probeNew
  simp only
  obtain ⟨S, hS⟩ : ∃ S, S = pOrigin / MH_BLOCK_SIZE * MH_BLOCK_SIZE := ⟨_, rfl⟩
  rw [← hS] at h3 ⊢
  have hal : S % MH_BLOCK_SIZE = 0 := by
    rw [hS]
    exact Nat.mul_mod_left _ _
  have hSlt : S < PTR_MOD := by
    rw [hS]
    exact lt_of_le_of_lt (Nat.div_mul_le_self _ _) ho
  clear hS
  have ha0 : subPtr S MH_BLOCK_SIZE % MH_BLOCK_SIZE = 0 := by
    unfold subPtr PTR_MOD MH_BLOCK_SIZE at *
    omega
  have hfuel2 : 2 ^ 52 < fuel := by
    unfold PTR_MOD MH_BLOCK_SIZE at hfuel
    omega
  have hdown : (∃ p tr, probeDown fuel os lo (subPtr S MH_BLOCK_SIZE) = some (p, tr) ∧ p ≠ 0)
      ∨ (S < x ∧ ∃ tr, probeDown fuel os lo (subPtr S MH_BLOCK_SIZE) = some (0, tr)) := by
    by_cases hlt : x < S
    · left
      have hP : MH_BLOCK_SIZE ≤ S := by
        unfold MH_BLOCK_SIZE at *
        omega
      rw [subPtr_block S hP hSlt]
      exact probeDown_reach os lo x hx0 hx h1 fuel (S - MH_BLOCK_SIZE)
        (by unfold MH_BLOCK_SIZE at *; omega) (by omega)
        (by unfold MH_BLOCK_SIZE at *; omega)
        (by unfold PTR_MOD MH_BLOCK_SIZE at *; omega)
    · have hSx : S < x := by omega
      by_cases hlo : lo = 0
      · left
        subst hlo
        exact probeDown_reach_wrap os x hx0 hx (by omega) fuel _ ha0 (subPtr_lt _ _)
          (by unfold PTR_MOD MH_BLOCK_SIZE at *; omega)
      · obtain ⟨r, hr⟩ := probeDown_total os lo (by omega) fuel _ ha0 (subPtr_lt _ _)
          (by
            have := subPtr_lt S MH_BLOCK_SIZE
            unfold MH_BLOCK_SIZE at *
            omega)
        obtain ⟨p, tr⟩ := r
        by_cases hp : p = 0
        · right
          subst hp
          exact ⟨hSx, tr, hr⟩
        · left
          exact ⟨p, tr, hr, hp⟩
  rcases hdown with ⟨p, tr, hr, hp⟩ | ⟨hSx, tr, hr⟩
  · rw [hr]
    simp only [if_neg hp]
    exact ⟨p, tr, rfl, hp⟩
  · rw [hr]
    simp only [if_true]
    have hadd : addPtr S MH_BLOCK_SIZE = S + MH_BLOCK_SIZE := by
      unfold addPtr PTR_MOD MH_BLOCK_SIZE at *
      omega
    rw [hadd]
    obtain ⟨p, tr2, hr2, hp⟩ := probeUp_reach os hi x hx0 hx h2 (by omega) fuel
      (S + MH_BLOCK_SIZE) (by unfold MH_BLOCK_SIZE at *; omega)
      (by unfold MH_BLOCK_SIZE at *; omega)
      (by unfold PTR_MOD MH_BLOCK_SIZE at *; omega)
    rw [hr2]
    exact ⟨p, _, rfl, hp⟩

/-- `AllocateBuffer` returns `NULL` only by way of `GetMemoryBlock` finding no
block, when the operating system hands out no page at the very top of the
address space. -/
theorem AllocateBuffer_null (st : State) (os : Nat → Nat) (pOrigin fuel : Nat)
    (st2 : State) (tr : List Nat)
    (hos : ∀ a, os a + 2 * MH_BLOCK_SIZE ≤ PTR_MOD)
    (h : AllocateBuffer fuel os st pOrigin = some (0, st2, tr)) :
    scanBlocks fuel st.mem (windowLo st pOrigin) (windowHi st pOrigin)
        st.g_pMemoryBlocks = some 0
      ∧ probeNew fuel os (windowLo st pOrigin) (windowHi st pOrigin) pOrigin = some (0, tr)
      ∧ st2 = st := by
  unfold AllocateBuffer at h
  cases hg : GetMemoryBlock fuel os st pOrigin with
  | none => rw [hg] at h; simp at h
  | some r =>
    obtain ⟨pBlock, st1, tr1⟩ := r
    rw [hg] at h
    simp only at h
    have hc := GetMemoryBlock_cases fuel os st pOrigin pBlock st1 tr1 hg
    by_cases hp : pBlock = 0
    · rw [if_pos hp] at h
      simp only [Option.some.injEq, Prod.mk.injEq, true_and] at h
      obtain ⟨e1, e2⟩ := h
      subst hp e1 e2
      rcases hc with ⟨_, c, _, _⟩ | ⟨c1, c2, _, c4⟩
      · exact absurd rfl c
      · exact ⟨c1, c2, c4 rfl⟩
    · rw [if_neg hp] at h
      simp only [Option.some.injEq, Prod.mk.injEq] at h
      obtain ⟨e1, _, _⟩ := h
      rcases hc with ⟨c1, c2, c3, _⟩ | ⟨_, c2, c3, _⟩
      · rw [c3] at e1
        exact absurd e1 (scanBlocks_found st.mem _ _ fuel _ pBlock c1 c2).2.2
      · obtain ⟨x, hx⟩ := probeNew_os os _ _ pOrigin fuel pBlock tr1 c2 hp
        have hv := hos x
        rw [hx] at hv
        obtain ⟨_, f2, _, _⟩ := initBlock_free st st1 pBlock fuel hv (c3 hp)
        rw [f2] at e1
        unfold MH_BLOCK_SIZE at e1
        omega

theorem UninitializeBuffer_empty (st st2 : State) (fuel : Nat) (tr : List Nat)
    (h : UninitializeBuffer fuel st = some (st2, tr)) :
    st2 = { st with g_pMemoryBlocks := 0 } := by
  unfold UninitializeBuffer at h
  cases hl : releaseLoop fuel st.mem st.g_pMemoryBlocks with
  | none => rw [hl] at h; simp at h
  | some l =>
    rw [hl] at h
    simp only [Option.some.injEq, Prod.mk.injEq] at h
    exact h.1.symm

/-- A scan that runs off the end of the list has walked a `NULL`-terminated
list in which no block inside the window has a free slot. -/
theorem scanBlocks_zero_chain (m : Mem) (lo hi : Nat) :
    ∀ (fuel p : Nat), scanBlocks fuel m lo hi p = some 0 →
      ∃ l, IsChain m p l ∧ ∀ b ∈ l, lo ≤ b → b < hi → load64 m (pFreeField b) = 0 := by
  intro fuel
  induction fuel with
  | zero => intro p h; simp [scanBlocks] at h
  | succ n ih =>
    intro p h
    unfold scanBlocks at h
    by_cases hp : p = 0
    · exact ⟨[], hp, fun b hb => absurd hb (List.not_mem_nil b)⟩
    · rw [if_neg hp] at h
      have hrec : scanBlocks n m lo hi (load64 m p) = some 0
          ∧ (lo ≤ p → p < hi → load64 m (pFreeField p) = 0) := by
        by_cases hw : p < lo ∨ p ≥ hi
        · rw [if_pos hw] at h
          exact ⟨h, fun h1 h2 => by omega⟩
        · rw [if_neg hw] at h
          by_cases hf : load64 m (pFreeField p) ≠ 0
          · rw [if_pos hf] at h
            exact absurd (Option.some.inj h) hp
          · rw [if_neg hf] at h
            exact ⟨h, fun _ _ => not_not.mp hf⟩
      obtain ⟨l, hl, hfree⟩ := ih _ hrec.1
      refine ⟨p :: l, ⟨rfl, hp, hl⟩, ?_⟩
      intro b hb h1 h2
      rcases List.mem_cons.mp hb with e | e
      · rw [e]
        exact hrec.2 (e ▸ h1) (e ▸ h2)
      · exact hfree b e h1 h2

/-- C14 (amended): with `0 < minAddress` and `maxAddress ≤ 2 ^ 64 - MH_BLOCK_SIZE`,
`AllocateBuffer(origin)` called after `UninitializeBuffer` returns `NULL`, and
leaves the state unchanged, when the operating system refuses every mapping
request; and it returns `NULL` only when the operating system refuses every
`MH_BLOCK_SIZE`-aligned address of `[lo, hi)` other than `start` (for a 64-bit
origin and an operating system whose pointers lie at least two pages below
`2 ^ 64`). -/
theorem C14_allocation_after_teardown (st st2 : State) (trf : List Nat) (os : Nat → Nat)
    (pOrigin fuel0 fuel : Nat)
    (hun : UninitializeBuffer fuel0 st = some (st2, trf))
    (hmin : 0 < st.g_MinAddress) (hmax : st.g_MaxAddress ≤ PTR_MOD - MH_BLOCK_SIZE)
    (hfuel : PTR_MOD / MH_BLOCK_SIZE < fuel) :
    ((∀ a, os a = 0) → ∃ tr, AllocateBuffer fuel os st2 pOrigin = some (0, st2, tr))
    ∧ (pOrigin < PTR_MOD → (∀ a, os a + 2 * MH_BLOCK_SIZE ≤ PTR_MOD) →
        ∀ st3 tr, AllocateBuffer fuel os st2 pOrigin = some (0, st3, tr) →
          ∀ a, a % MH_BLOCK_SIZE = 0 → windowLo st2 pOrigin ≤ a → a < windowHi st2 pOrigin →
            a ≠ pOrigin / MH_BLOCK_SIZE * MH_BLOCK_SIZE → os a = 0) := by
  refine ⟨fun hos => ?_, fun ho hv st3 tr h => ?_⟩
  swap
  · obtain ⟨_, n2, _⟩ := AllocateBuffer_null st2 os pOrigin fuel st3 tr hv h
    refine probeNew_cover os _ _ pOrigin fuel tr ho ?_ n2
    unfold windowHi
    exact le_trans (min_le_right _ _) (le_of_lt (addPtr_lt _ _))
  have he := UninitializeBuffer_empty st st2 fuel0 trf hun
  have hg : st2.g_pMemoryBlocks = 0 := by rw [he]
  have hmin2 : 0 < st2.g_MinAddress := by rw [he]; exact hmin
  have hmax2 : st2.g_MaxAddress ≤ PTR_MOD - MH_BLOCK_SIZE := by rw [he]; exact hmax
  have hscan : scanBlocks fuel st2.mem (windowLo st2 pOrigin) (windowHi st2 pOrigin)
      st2.g_pMemoryBlocks = some 0 := by
    cases fuel with
    | zero => simp at hfuel
    | succ n => simp [scanBlocks, hg]
  obtain ⟨tr, hp, _⟩ := probeNew_refused os hos (windowLo st2 pOrigin) (windowHi st2 pOrigin)
    pOrigin fuel (windowLo_pos st2 pOrigin hmin2)
    (le_trans (windowHi_le st2 pOrigin) hmax2) hfuel
  refine ⟨tr, ?_⟩
  unfold AllocateBuffer GetMemoryBlock
  simp [hscan, hp]

/-- Witness for C14: teardown of the state with the one block `0x1F000`. -/
theorem C14_allocation_after_teardown_witness :
    ∃ st2 trf, UninitializeBuffer 100 demoOneBlock = some (st2, trf)
      ∧ ((∀ a, osRefuseAll a = 0) →
          ∃ tr, AllocateBuffer (2 ^ 52 + 1) osRefuseAll st2 0x20010 = some (0, st2, tr))
      ∧ (0x20010 < PTR_MOD → (∀ a, osRefuseAll a + 2 * MH_BLOCK_SIZE ≤ PTR_MOD) →
          ∀ st3 tr, AllocateBuffer (2 ^ 52 + 1) osRefuseAll st2 0x20010 = some (0, st3, tr) →
            ∀ a, a % MH_BLOCK_SIZE = 0 → windowLo st2 0x20010 ≤ a → a < windowHi st2 0x20010 →
              a ≠ 0x20010 / MH_BLOCK_SIZE * MH_BLOCK_SIZE → osRefuseAll a = 0) := by
  have hv : (UninitializeBuffer 100 demoOneBlock).map (fun r => r.2) = some [0x1F000] := by
    decide!
  cases h : UninitializeBuffer 100 demoOneBlock with
  | none => rw [h] at hv; simp at hv
  | some r =>
    obtain ⟨st2, trf⟩ := r
    have hm : demoOneBlock.g_MinAddress = 0x10000 ∧ demoOneBlock.g_MaxAddress = 0x7FFFFFFEFFFF := by
      decide!
    exact ⟨st2, trf, rfl,
      C14_allocation_after_teardown demoOneBlock st2 trf osRefuseAll 0x20010 100 (2 ^ 52 + 1) h
        (by rw [hm.1]; decide) (by rw [hm.2]; decide) (by decide)⟩

/-- C14 (counterexample): after `UninitializeBuffer` has released the block
`0x1F000`, `AllocateBuffer(0x20010)` maps a block at `0x1F000` again and
returns the buffer `0x20000`; the block list is then `[0x1F000]`. -/
theorem C14_counterexample :
    (UninitializeBuffer 100 demoOneBlock).bind (fun r =>
      (AllocateBuffer 100 osGrantAll r.1 0x20010).bind (fun a =>
        (blockList 100 a.2.1).map (fun l => (r.2, a.1, a.2.2, l))))
      = some ([0x1F000], 0x20000, [0x1F000], [0x1F000]) := by decide!

/-! ## Teardown, classification, double release -/

/-- C15: `IsExecutableAddress` returns `TRUE` if and only if the `State`
reported for the address equals `MEM_COMMIT` and the `Protect` reported shares
a bit with `PAGE_EXECUTE`, `PAGE_EXECUTE_READ`, `PAGE_EXECUTE_READWRITE` or
`PAGE_EXECUTE_WRITECOPY`; two queries that report the same `State` and
`Protect` get the same answer.  The function has neither the address range
nor the block list among its inputs or outputs. -/
theorem C15_executable_classification (k : PageConstants)
    (VirtualQuery : Nat → MEMORY_BASIC_INFORMATION) (pAddress : Nat) :
    (IsExecutableAddress k VirtualQuery pAddress = true ↔
      (VirtualQuery pAddress).State = k.MEM_COMMIT
        ∧ ((VirtualQuery pAddress).Protect &&& k.PAGE_EXECUTE ≠ 0
          ∨ (VirtualQuery pAddress).Protect &&& k.PAGE_EXECUTE_READ ≠ 0
          ∨ (VirtualQuery pAddress).Protect &&& k.PAGE_EXECUTE_READWRITE ≠ 0
          ∨ (VirtualQuery pAddress).Protect &&& k.PAGE_EXECUTE_WRITECOPY ≠ 0))
    ∧ ∀ (VirtualQuery2 : Nat → MEMORY_BASIC_INFORMATION) (pAddress2 : Nat),
        (VirtualQuery2 pAddress2).State = (VirtualQuery pAddress).State →
        (VirtualQuery2 pAddress2).Protect = (VirtualQuery pAddress).Protect →
        IsExecutableAddress k VirtualQuery2 pAddress2
          = IsExecutableAddress k VirtualQuery pAddress := by
  constructor
  · unfold IsExecutableAddress
    simp only
    rw [← land_mask_ne_zero]
    split <;> simp_all
  · intro q2 p2 h1 h2
    unfold IsExecutableAddress
    simp only [h1, h2]

/-- C16: from the empty list, two `AllocateBuffer(0x20010)` calls create the
block `0x1F000` and return `0x20000` and `B = 0x1FFC0`, whose page base
`0x1F000` is that block.  `FreeBuffer(B)` twice completes, and the next two
`AllocateBuffer(0x20010)` calls both return `B`: the buffer is outstanding
twice, so the outstanding buffers overlap. -/
theorem C16_double_release_duplicates :
    (runCalls 100 demoRange [Call.allocate (osGrantOnly 0x1F000) 0x20010,
        Call.allocate osRefuseAll 0x20010]).bind
        (fun r => (blockList 100 r.1).map (fun l => (r.2, l)))
      = some ([0x20000, 0x1FFC0], [0x1F000])
    ∧ 0x1FFC0 / MH_BLOCK_SIZE * MH_BLOCK_SIZE = 0x1F000
    ∧ (runCalls 100 demoRange [Call.allocate (osGrantOnly 0x1F000) 0x20010,
        Call.allocate osRefuseAll 0x20010, Call.release 0x1FFC0, Call.release 0x1FFC0,
        Call.allocate osRefuseAll 0x20010, Call.allocate osRefuseAll 0x20010]).map
        (fun r => r.2)
      = some [0x20000, 0x1FFC0, 0x1FFC0, 0x1FFC0]
    ∧ ¬ NoOverlap [0x1FFC0, 0x1FFC0] := by decide!

/-! ## Reachable states with teardown -/

/-- Every state reachable under `OsGrantsApart`, teardown included, satisfies
the invariant. -/
theorem ReachAll.invariant (st : State) (out : List Nat) (h : ReachAll OsGrantsApart st out) :
    ∃ blocks fl, Sound st out blocks fl := by
  have hempty : ∀ s : State, s.g_pMemoryBlocks = 0 → Sound s [] [] (fun _ => []) := by
    intro s hs
    exact
      { wf :=
          { blocks_chain := hs
            free_chain := fun b hb => absurd hb (List.not_mem_nil b)
            pFree_pNext := fun b hb => absurd hb (List.not_mem_nil b)
            pFree_pFree := fun b hb => absurd hb (List.not_mem_nil b)
            pFree_slot := fun b hb => absurd hb (List.not_mem_nil b) }
        aligned := fun b hb => absurd hb (List.not_mem_nil b)
        apart := fun b hb => absurd hb (List.not_mem_nil b)
        free_nodup := fun b hb => absurd hb (List.not_mem_nil b)
        free_form := fun b hb => absurd hb (List.not_mem_nil b)
        out_nodup := List.nodup_nil
        out_form := fun B hB => absurd hB (List.not_mem_nil B)
        out_free := fun b hb => absurd hb (List.not_mem_nil b) }
  induction h with
  | init minAddress maxAddress m => exact ⟨[], fun _ => [], hempty _ rfl⟩
  | allocate st out os pOrigin fuel B st2 tr _ hok hcall hB ih =>
    obtain ⟨blocks, fl, hs⟩ := ih
    rcases AllocateBuffer_cases fuel os st pOrigin B st2 tr hcall with
      ⟨b, hscan, hb0, hBe, hst⟩ | ⟨p, st1, ⟨x, hx⟩, hp0, hinit, hBe, hst⟩ | ⟨hB0, _⟩
    · have hb := scanBlocks_mem st.mem _ _ blocks _ fuel b hs.wf.blocks_chain hscan hb0
      have hfree : load64 st.mem (pFreeField b) ≠ 0 := hBe ▸ hB
      have := Sound.pop st out blocks fl b hs hb hfree
      rw [← hBe, ← hst] at this
      exact ⟨blocks, popFree fl b, this⟩
    · rcases hok x with h0 | ⟨hxx, hal, hlt, hlist⟩
      · exact absurd (hx ▸ h0) hp0
      · have hpx : p = x := by rw [← hx, hxx]
        subst hpx
        obtain ⟨n1, n2, n3⟩ := hlist (blocks.length + 1) blocks
          (chain_of_isChain st.mem blocks _ _ hs.wf.blocks_chain (Nat.lt_succ_self _))
        have := Sound.fresh st st1 out blocks fl p fuel hs hp0 hal hlt n1 n2 n3 hinit
        rw [← hBe, ← hst] at this
        exact ⟨p :: blocks, _, this⟩
    · exact absurd hB0 hB
  | allocateFailed st out os pOrigin fuel st2 tr _ hok hcall ih =>
    obtain ⟨blocks, fl, hs⟩ := ih
    rcases AllocateBuffer_cases fuel os st pOrigin 0 st2 tr hcall with
      ⟨b, hscan, hb0, hBe, _⟩ | ⟨p, st1, ⟨x, hx⟩, hp0, hinit, hBe, _⟩ | ⟨_, hst⟩
    · exact absurd hBe.symm (scanBlocks_found st.mem _ _ fuel _ b hscan hb0).2.2
    · rcases hok x with h0 | ⟨hxx, _, hlt, _⟩
      · exact absurd (hx ▸ h0) hp0
      · have hpx : p = x := by rw [← hx, hxx]
        subst hpx
        obtain ⟨_, e5, _, _⟩ := initBlock_free st st1 p fuel hlt hinit
        rw [e5] at hBe
        unfold MH_BLOCK_SIZE at hBe
        omega
    · rw [hst]
      exact ⟨blocks, fl, hs⟩
  | release st out B fuel st2 _ hB hcall ih =>
    obtain ⟨blocks, fl, hs⟩ := ih
    obtain ⟨fl2, hs2⟩ := Sound.release st st2 out blocks fl B fuel hs hB hcall
    exact ⟨blocks, fl2, hs2⟩
  | teardown st out fuel st2 tr _ hcall _ =>
    refine ⟨[], fun _ => [], hempty st2 ?_⟩
    rw [UninitializeBuffer_empty st st2 fuel tr hcall]

/-- C12 (counterexample): block lists with entries that are no multiple of
`MH_BLOCK_SIZE`; in both runs the operating system returns `NULL` or the
address asked.  (1) After the block `0x1F000` has been created,
`FreeBuffer(0x1F000)` stores the head of the free list over `pNext` of the
header: the second entry of the block list is the slot `0x1FFC0`.  (2) With
a release of an outstanding buffer: the first allocation creates the block `0x1F000`
and returns `0x20000`, the slot one past the block; the second, for an origin
whose window starts at `0x20000`, maps a block at `0x20000`; releasing the
first buffer then pushes the header of that block on its own free list, and
the second entry of the block list is the slot `0x20FC0`. -/
theorem C12_counterexample :
    (runCalls 100 demoRange [Call.allocate (osGrantOnly 0x1F000) 0x20010,
        Call.release 0x1F000]).map
        (fun r => (r.2, r.1.g_pMemoryBlocks, load64 r.1.mem r.1.g_pMemoryBlocks,
          load64 r.1.mem r.1.g_pMemoryBlocks % MH_BLOCK_SIZE))
      = some ([0x20000], 0x1F000, 0x1FFC0, 0xFC0)
    ∧ (runCalls 5000 demoRange [Call.allocate (osGrantOnly 0x1F000) 0x20010,
        Call.allocate (osGrantOnly 0x20000) 0x1020000, Call.release 0x20000]).map
        (fun r => (r.2, r.1.g_pMemoryBlocks, load64 r.1.mem r.1.g_pMemoryBlocks,
          load64 r.1.mem r.1.g_pMemoryBlocks % MH_BLOCK_SIZE))
      = some ([0x20000, 0x21000], 0x20000, 0x20FC0, 0xFC0) := by decide!

/-- An `AllocateBuffer` call that returns a buffer without asking the
operating system has taken the buffer from a block found by the scan. -/
theorem AllocateBuffer_reused (st : State) (os : Nat → Nat) (pOrigin fuel B : Nat)
    (st2 : State) (h : AllocateBuffer fuel os st pOrigin = some (B, st2, [])) (hB : B ≠ 0) :
    ∃ b, scanBlocks fuel st.mem (windowLo st pOrigin) (windowHi st pOrigin)
          st.g_pMemoryBlocks = some b ∧ b ≠ 0
      ∧ B = load64 st.mem (pFreeField b)
      ∧ st2 = { st with mem := store64 st.mem (pFreeField b) (load64 st.mem B) } := by
  unfold AllocateBuffer at h
  cases hg : GetMemoryBlock fuel os st pOrigin with
  | none => rw [hg] at h; simp at h
  | some r =>
    obtain ⟨pBlock, st1, tr1⟩ := r
    rw [hg] at h
    simp only at h
    by_cases hp : pBlock = 0
    · rw [if_pos hp] at h
      simp only [Option.some.injEq, Prod.mk.injEq] at h
      exact absurd h.1.symm hB
    · rw [if_neg hp] at h
      simp only [Option.some.injEq, Prod.mk.injEq] at h
      obtain ⟨e1, e2, e3⟩ := h
      subst e3
      rcases GetMemoryBlock_cases fuel os st pOrigin pBlock st1 [] hg with
        ⟨c1, c2, c3, _⟩ | ⟨_, c2, _, _⟩
      · subst c3
        exact ⟨pBlock, c1, c2, e1.symm, by rw [← e2, ← e1]⟩
      · exact absurd rfl (probeNew_trace_ne_nil os _ _ pOrigin fuel pBlock [] c2 hp)

/-- In a state that satisfies the invariant, releasing the buffer that a
reusing `AllocateBuffer` has just returned puts the block list and the free
lists back as they were. -/
theorem Sound.round_trip (st : State) (out blocks : List Nat) (fl : Nat → List Nat)
    (os : Nat → Nat) (pOrigin fuel B : Nat) (st2 : State)
    (hs : Sound st out blocks fl)
    (hcall : AllocateBuffer fuel os st pOrigin = some (B, st2, [])) (hB : B ≠ 0)
    (fuel2 : Nat) (hfuel : blocks.length < fuel2) :
    ∃ st3, FreeBuffer fuel2 st2 B = some st3
      ∧ (st3.g_pMemoryBlocks, st3.g_MinAddress, st3.g_MaxAddress)
          = (st.g_pMemoryBlocks, st.g_MinAddress, st.g_MaxAddress)
      ∧ WellFormed st3 blocks fl := by
  obtain ⟨b, hscan, hb0, hBe, hst⟩ := AllocateBuffer_reused st os pOrigin fuel B st2 hcall hB
  have hb := scanBlocks_mem st.mem _ _ blocks _ fuel b hs.wf.blocks_chain hscan hb0
  have hfree : load64 st.mem (pFreeField b) ≠ 0 := hBe ▸ hB
  have hs2 := Sound.pop st out blocks fl b hs hb hfree
  rw [← hBe, ← hst] at hs2
  -- `B` is the head of the free list of `b`
  have hhead : fl b = B :: (fl b).tail := by
    have hc := hs.wf.free_chain b hb
    rw [← hBe] at hc
    cases hfl : fl b with
    | nil =>
      rw [hfl] at hc
      exact absurd hc hB
    | cons y t =>
      rw [hfl] at hc
      rw [hc.1]
      rfl
  have hBmem : B ∈ fl b := by
    rw [hhead]
    exact List.mem_cons_self _ _
  obtain ⟨k, k1, k2, k3⟩ := hs.free_form b hb B hBmem
  have ab := hs.aligned b hb
  have hpage : B / MH_BLOCK_SIZE * MH_BLOCK_SIZE = b := by
    unfold MH_SLOT_SIZE MH_BLOCK_SIZE at *
    omega
  have hBlt : B < 2 ^ 64 := by
    unfold MH_SLOT_SIZE MH_BLOCK_SIZE PTR_MOD at *
    omega
  have hloop := freeLoop_found st2.mem b B blocks st2.g_pMemoryBlocks fuel2
    hs2.wf.blocks_chain hb hfuel
  have hpush := WellFormed.push st2 blocks (popFree fl b) B b hs2.wf hb hB hBlt
    (by
      intro c hc
      have ac := (hs.aligned c hc).1
      unfold Disj8 pFreeField MH_SLOT_SIZE MH_BLOCK_SIZE at *
      omega)
    (by
      intro c hc s hsc
      have hne : s ≠ B := fun e =>
        hs2.out_free c hc s hsc (e ▸ List.mem_cons_self _ _)
      obtain ⟨j, j1, j2, j3⟩ := hs2.free_form c hc s hsc
      have ac := (hs.aligned c hc).1
      unfold Disj8 MH_SLOT_SIZE MH_BLOCK_SIZE at *
      omega)
  have hfl : pushFree (popFree fl b) b B = fl := by
    funext x
    by_cases hx : x = b
    · subst hx
      simp only [pushFree, popFree, if_true]
      exact hhead.symm
    · simp only [pushFree, popFree, if_neg hx]
  rw [hfl] at hpush
  refine ⟨_, ?_, ?_, hpush⟩
  · unfold FreeBuffer
    rw [hpage, hloop]
  · rw [hst]

/-- C17 (amended): in every state reachable from the empty block list by
`AllocateBuffer`, `FreeBuffer` and `UninitializeBuffer` calls, `FreeBuffer`
being applied only to buffers returned since the last `UninitializeBuffer` and
not released since, with an operating system that returns `NULL` or the
page-aligned address asked and never grants a block base or an address
directly next to one: if `AllocateBuffer(origin)` returns `B` without asking
the operating system for memory, then `FreeBuffer(B)` right afterwards
returns for every fuel above the length of the block list and leaves the
globals, the block list `blocks` and the free list `fl b` of every block as
they were before the allocation. -/
theorem C17_allocate_release_round_trip (st : State) (out : List Nat) (os : Nat → Nat)
    (pOrigin fuel B : Nat) (st2 : State)
    (hr : ReachAll OsGrantsApart st out)
    (hcall : AllocateBuffer fuel os st pOrigin = some (B, st2, [])) (hB : B ≠ 0) :
    ∃ blocks fl, WellFormed st blocks fl
      ∧ ∀ fuel2, blocks.length < fuel2 →
        ∃ st3, FreeBuffer fuel2 st2 B = some st3
          ∧ (st3.g_pMemoryBlocks, st3.g_MinAddress, st3.g_MaxAddress)
              = (st.g_pMemoryBlocks, st.g_MinAddress, st.g_MaxAddress)
          ∧ WellFormed st3 blocks fl := by
  obtain ⟨blocks, fl, hs⟩ := ReachAll.invariant st out hr
  exact ⟨blocks, fl, hs.wf, fun fuel2 hfuel =>
    Sound.round_trip st out blocks fl os pOrigin fuel B st2 hs hcall hB fuel2 hfuel⟩

/-- Witness for C17: after a first allocation has created the block `0x1F000`,
a second `AllocateBuffer(0x20010)` takes `0x1FFC0` from it. -/
theorem C17_allocate_release_round_trip_witness :
    ∃ st st2, ReachAll OsGrantsApart st [0x20000]
      ∧ AllocateBuffer 100 osRefuseAll st 0x20010 = some (0x1FFC0, st2, [])
      ∧ ∃ blocks fl, WellFormed st blocks fl
        ∧ ∀ fuel2, blocks.length < fuel2 →
          ∃ st3, FreeBuffer fuel2 st2 0x1FFC0 = some st3
            ∧ (st3.g_pMemoryBlocks, st3.g_MinAddress, st3.g_MaxAddress)
                = (st.g_pMemoryBlocks, st.g_MinAddress, st.g_MaxAddress)
            ∧ WellFormed st3 blocks fl := by
  have hv : (AllocateBuffer 100 (osGrantOnly 0x1F000) demoRange 0x20010).bind (fun r =>
      (AllocateBuffer 100 osRefuseAll r.2.1 0x20010).map (fun a => (r.1, a.1, a.2.2)))
      = some (0x20000, 0x1FFC0, []) := by decide!
  cases h1 : AllocateBuffer 100 (osGrantOnly 0x1F000) demoRange 0x20010 with
  | none => rw [h1] at hv; simp at hv
  | some r1 =>
    obtain ⟨B1, st1, tr1⟩ := r1
    rw [h1] at hv
    simp only [Option.some_bind] at hv
    cases h2 : AllocateBuffer 100 osRefuseAll st1 0x20010 with
    | none => rw [h2] at hv; simp at hv
    | some r2 =>
      obtain ⟨B2, st2, tr2⟩ := r2
      rw [h2] at hv
      simp only [Option.map_some', Option.some.injEq, Prod.mk.injEq] at hv
      obtain ⟨e1, e2, e3⟩ := hv
      subst e1 e2 e3
      have r0 : ReachAll OsGrantsApart demoRange [] :=
        ReachAll.init 0x10000 0x7FFFFFFEFFFF (fun _ => 0)
      have hr1 : ReachAll OsGrantsApart st1 [0x20000] :=
        ReachAll.allocate demoRange [] _ 0x20010 100 0x20000 st1 tr1 r0 demoRange_grantOnly h1
          (by decide)
      exact ⟨st1, st2, hr1, h2,
        C17_allocate_release_round_trip st1 [0x20000] osRefuseAll 0x20010 100 0x1FFC0 st2 hr1 h2
          (by decide)⟩

/-- C17 (counterexample): the operating system grants `0x1F000` once, on the
empty list.  (1) `AllocateBuffer(0x20010)`, `FreeBuffer(0x1F000)`,
`FreeBuffer(0x1FFC8)`: the block list now starts `0x1F000, 0x1FFC0`, and the
word at `0x1FFC8`, which `GetMemoryBlock` reads as the `pFree` field of the
entry `0x1FFC0`, holds `0x1F000`.  `AllocateBuffer(0x101F040)`, whose window
starts at `0x1F040`, is served from the entry `0x1FFC0` without a request to
the operating system and returns `0x1F000`; `FreeBuffer(0x1F000)` then leaves
a block list that starts `0x1F000, 0x1FFC8`.  (2) An operating system that
answers `0x1F020` to the request at `0x1F000`: the second
`AllocateBuffer(0x20010)` takes `0x1FFE0` from the block `0x1F020`;
`FreeBuffer(0x1FFE0)` looks for a block at `0x1F000`, finds none and does
nothing, so the head of the free list stays `0x1FFA0` instead of `0x1FFE0`. -/
theorem C17_counterexample :
    (runCalls 100 demoRange [Call.allocate (osGrantOnly 0x1F000) 0x20010,
        Call.release 0x1F000, Call.release 0x1FFC8]).bind (fun r =>
      (AllocateBuffer 100 osRefuseAll r.1 0x101F040).bind (fun a =>
        (FreeBuffer 100 a.2.1 a.1).map (fun s3 =>
          (a.1, a.2.2, r.1.g_pMemoryBlocks, load64 r.1.mem r.1.g_pMemoryBlocks,
            s3.g_pMemoryBlocks, load64 s3.mem s3.g_pMemoryBlocks))))
      = some (0x1F000, [], 0x1F000, 0x1FFC0, 0x1F000, 0x1FFC8)
    ∧ (runCalls 100 demoRange
        [Call.allocate (fun a => if a = 0x1F000 then 0x1F020 else 0) 0x20010]).bind (fun r =>
      (AllocateBuffer 100 osRefuseAll r.1 0x20010).bind (fun a =>
        (FreeBuffer 100 a.2.1 a.1).map (fun s3 =>
          (a.1, a.2.2, r.1.g_pMemoryBlocks, load64 r.1.mem (pFreeField 0x1F020),
            s3.g_pMemoryBlocks, load64 s3.mem (pFreeField 0x1F020)))))
      = some (0x1FFE0, [], 0x1F020, 0x1FFE0, 0x1F020, 0x1FFA0) :=
  ⟨by decide!, by decide!⟩

/-! ## Runs with checked accesses -/

theorem mapBlock_in (mapped : Nat → Bool) (p a : Nat) (h1 : p ≤ a)
    (h2 : a < p + MH_BLOCK_SIZE) : mapBlock mapped p a = true := by
  unfold mapBlock
  simp only [Bool.or_eq_true, Bool.and_eq_true, Nat.ble_eq, Nat.blt_eq]
  exact Or.inr ⟨h1, h2⟩

theorem mapBlock_out (mapped : Nat → Bool) (p a : Nat)
    (h : a < p ∨ p + MH_BLOCK_SIZE ≤ a) : mapBlock mapped p a = mapped a := by
  unfold mapBlock
  have hf : (Nat.ble p a && Nat.blt a (p + MH_BLOCK_SIZE)) = false := by
    cases hb : (Nat.ble p a && Nat.blt a (p + MH_BLOCK_SIZE)) with
    | false => rfl
    | true =>
      simp only [Bool.and_eq_true, Nat.ble_eq, Nat.blt_eq] at hb
      omega
  rw [hf, Bool.or_false]

theorem mapped8_mapBlock_in (mapped : Nat → Bool) (p a : Nat) (h1 : p ≤ a)
    (h2 : a + 8 ≤ p + MH_BLOCK_SIZE) : mapped8 (mapBlock mapped p) a = true := by
  unfold mapped8
  rw [mapBlock_in mapped p a h1 (by omega), mapBlock_in mapped p (a + 1) (by omega) (by omega),
    mapBlock_in mapped p (a + 2) (by omega) (by omega),
    mapBlock_in mapped p (a + 3) (by omega) (by omega),
    mapBlock_in mapped p (a + 4) (by omega) (by omega),
    mapBlock_in mapped p (a + 5) (by omega) (by omega),
    mapBlock_in mapped p (a + 6) (by omega) (by omega),
    mapBlock_in mapped p (a + 7) (by omega) (by omega)]
  rfl

theorem mapped8_mapBlock_out (mapped : Nat → Bool) (p a : Nat)
    (h : a + 8 ≤ p ∨ p + MH_BLOCK_SIZE ≤ a) :
    mapped8 (mapBlock mapped p) a = mapped8 mapped a := by
  unfold mapped8
  rw [mapBlock_out mapped p a (by omega), mapBlock_out mapped p (a + 1) (by omega),
    mapBlock_out mapped p (a + 2) (by omega), mapBlock_out mapped p (a + 3) (by omega),
    mapBlock_out mapped p (a + 4) (by omega), mapBlock_out mapped p (a + 5) (by omega),
    mapBlock_out mapped p (a + 6) (by omega), mapBlock_out mapped p (a + 7) (by omega)]

/-- A checked scan that returns has the result of the unchecked scan. -/
theorem scanBlocksChecked_ok (mapped : Nat → Bool) (m : Mem) (lo hi : Nat) :
    ∀ (fuel p b : Nat), scanBlocksChecked mapped fuel m lo hi p = Run.ok b →
      scanBlocks fuel m lo hi p = some b := by
  intro fuel
  induction fuel with
  | zero => intro p b h; simp [scanBlocksChecked] at h
  | succ n ih =>
    intro p b h
    unfold scanBlocksChecked at h
    unfold scanBlocks
    by_cases hp : p = 0
    · rw [if_pos hp] at h
      rw [if_pos hp]
      exact congrArg some (Run.ok.inj h)
    · rw [if_neg hp] at h
      rw [if_neg hp]
      by_cases hw : p < lo ∨ p ≥ hi
      · rw [if_pos hw] at h
        rw [if_pos hw]
        by_cases hm : mapped8 mapped p = true
        · rw [if_pos hm] at h
          exact ih _ b h
        · rw [if_neg hm] at h
          exact Run.noConfusion h
      · rw [if_neg hw] at h
        rw [if_neg hw]
        by_cases hm : mapped8 mapped (pFreeField p) = true
        · rw [if_pos hm] at h
          by_cases hf : load64 m (pFreeField p) ≠ 0
          · rw [if_pos hf] at h
            rw [if_pos hf]
            exact congrArg some (Run.ok.inj h)
          · rw [if_neg hf] at h
            rw [if_neg hf]
            by_cases hm2 : mapped8 mapped p = true
            · rw [if_pos hm2] at h
              exact ih _ b h
            · rw [if_neg hm2] at h
              exact Run.noConfusion h
        · rw [if_neg hm] at h
          exact Run.noConfusion h

/-- A checked slot loop that returns has the result of the unchecked loop. -/
theorem buildSlotsChecked_ok (mapped : Nat → Bool) (pBlock : Nat) :
    ∀ (fuel : Nat) (m : Mem) (pSlot : Nat) (m2 : Mem),
      buildSlotsChecked mapped fuel m pBlock pSlot = Run.ok m2 →
      buildSlots fuel m pBlock pSlot = some m2 := by
  intro fuel
  induction fuel with
  | zero => intro m pSlot m2 h; simp [buildSlotsChecked] at h
  | succ n ih =>
    intro m pSlot m2 h
    unfold buildSlotsChecked at h
    unfold buildSlots
    simp only at h ⊢
    by_cases hm : mapped8 mapped (pFreeField pBlock) = true
    · rw [if_pos hm] at h
      by_cases hm2 : mapped8 mapped pSlot = true
      · rw [if_pos hm2] at h
        by_cases hc : subPtr (addPtr pSlot MH_SLOT_SIZE) pBlock ≤ MH_BLOCK_SIZE
        · rw [if_pos hc] at h
          rw [if_pos hc]
          exact ih _ _ m2 h
        · rw [if_neg hc] at h
          rw [if_neg hc]
          exact congrArg some (Run.ok.inj h)
      · rw [if_neg hm2] at h
        exact Run.noConfusion h
    · rw [if_neg hm] at h
      exact Run.noConfusion h

theorem initBlockChecked_ok (mapped : Nat → Bool) (fuel : Nat) (st : State) (pBlock : Nat)
    (st1 : State) (h : initBlockChecked mapped fuel st pBlock = Run.ok st1) :
    initBlock fuel st pBlock = some st1 := by
  unfold initBlockChecked at h
  unfold initBlock
  by_cases hm : mapped8 mapped (pFreeField pBlock) = true
  · rw [if_pos hm] at h
    cases hb : buildSlotsChecked mapped fuel (store64 st.mem (pFreeField pBlock) 0) pBlock
        (addPtr pBlock MH_SLOT_SIZE) with
    | noFuel => rw [hb] at h; exact Run.noConfusion h
    | fault a => rw [hb] at h; exact Run.noConfusion h
    | ok m =>
      rw [hb] at h
      simp only at h
      rw [buildSlotsChecked_ok mapped pBlock fuel _ _ m hb]
      by_cases hm2 : mapped8 mapped pBlock = true
      · rw [if_pos hm2] at h
        exact congrArg some (Run.ok.inj h)
      · rw [if_neg hm2] at h
        exact Run.noConfusion h
  · rw [if_neg hm] at h
    exact Run.noConfusion h

theorem GetMemoryBlockChecked_ok (mapped : Nat → Bool) (fuel : Nat) (os : Nat → Nat)
    (st : State) (pOrigin pBlock : Nat) (st1 : State) (tr : List Nat) (mapped1 : Nat → Bool)
    (h : GetMemoryBlockChecked mapped fuel os st pOrigin = Run.ok (pBlock, st1, tr, mapped1)) :
    GetMemoryBlock fuel os st pOrigin = some (pBlock, st1, tr) := by
  unfold GetMemoryBlockChecked at h
  unfold GetMemoryBlock
  cases hs : scanBlocksChecked mapped fuel st.mem (windowLo st pOrigin) (windowHi st pOrigin)
      st.g_pMemoryBlocks with
  | noFuel => rw [hs] at h; exact Run.noConfusion h
  | fault a => rw [hs] at h; exact Run.noConfusion h
  | ok pFound =>
    rw [hs] at h
    simp only at h
    rw [scanBlocksChecked_ok mapped st.mem _ _ fuel _ pFound hs]
    simp only
    by_cases hf : pFound ≠ 0
    · rw [if_pos hf] at h
      rw [if_pos hf]
      have := Run.ok.inj h
      simp only [Prod.mk.injEq] at this
      obtain ⟨e1, e2, e3, _⟩ := this
      rw [e1, e2, e3]
    · rw [if_neg hf] at h
      rw [if_neg hf]
      cases hp : probeNew fuel os (windowLo st pOrigin) (windowHi st pOrigin) pOrigin with
      | none => rw [hp] at h; exact Run.noConfusion h
      | some r =>
        obtain ⟨q, tr2⟩ := r
        rw [hp] at h
        simp only at h ⊢
        by_cases hq : q ≠ 0
        · rw [if_pos hq] at h
          rw [if_pos hq]
          cases hi : initBlockChecked (mapBlock mapped q) fuel st q with
          | noFuel => rw [hi] at h; exact Run.noConfusion h
          | fault a => rw [hi] at h; exact Run.noConfusion h
          | ok st3 =>
            rw [hi] at h
            simp only at h
            rw [initBlockChecked_ok _ fuel st q st3 hi]
            have := Run.ok.inj h
            simp only [Prod.mk.injEq] at this
            obtain ⟨e1, e2, e3, _⟩ := this
            rw [e1, e2, e3]
        · rw [if_neg hq] at h
          rw [if_neg hq]
          have := Run.ok.inj h
          simp only [Prod.mk.injEq] at this
          obtain ⟨e1, e2, e3, _⟩ := this
          rw [e1, e2, e3]

/-- A checked `AllocateBuffer` that returns has the result of the unchecked
one: every statement about the results of `AllocateBuffer` holds of the runs
that end without an access violation. -/
theorem AllocateBufferChecked_ok (mapped : Nat → Bool) (fuel : Nat) (os : Nat → Nat)
    (st : State) (pOrigin : Nat) (r : Nat × State × List Nat)
    (h : AllocateBufferChecked mapped fuel os st pOrigin = Run.ok r) :
    AllocateBuffer fuel os st pOrigin = some r := by
  unfold AllocateBufferChecked at h
  unfold AllocateBuffer
  cases hg : GetMemoryBlockChecked mapped fuel os st pOrigin with
  | noFuel => rw [hg] at h; exact Run.noConfusion h
  | fault a => rw [hg] at h; exact Run.noConfusion h
  | ok g =>
    obtain ⟨pBlock, st1, tr, mapped1⟩ := g
    rw [hg] at h
    simp only at h
    rw [GetMemoryBlockChecked_ok mapped fuel os st pOrigin pBlock st1 tr mapped1 hg]
    simp only
    by_cases hp : pBlock = 0
    · rw [if_pos hp] at h
      rw [if_pos hp]
      exact congrArg some (Run.ok.inj h)
    · rw [if_neg hp] at h
      rw [if_neg hp]
      by_cases hm : mapped8 mapped1 (pFreeField pBlock) = true
      · rw [if_pos hm] at h
        by_cases hm2 : mapped8 mapped1 (load64 st1.mem (pFreeField pBlock)) = true
        · rw [if_pos hm2] at h
          exact congrArg some (Run.ok.inj h)
        · rw [if_neg hm2] at h
          exact Run.noConfusion h
      · rw [if_neg hm] at h
        exact Run.noConfusion h

/-- On a fresh block at `N` the checked slot loop stops with an access
violation at `N + MH_BLOCK_SIZE` when the pointer field there is not mapped:
the fields of the slots inside the block are mapped with the block, the one
of the last slot built is not part of the block. -/
theorem buildSlotsChecked_fresh_fault (mapped : Nat → Bool) (N : Nat)
    (hN : N + 2 * MH_BLOCK_SIZE ≤ PTR_MOD)
    (hun : mapped8 mapped (N + MH_BLOCK_SIZE) = false) :
    ∀ (fuel j : Nat) (m : Mem), j ≤ 63 → 64 ≤ fuel + j →
      buildSlotsChecked (mapBlock mapped N) fuel m N (N + MH_SLOT_SIZE * (j + 1))
        = Run.fault (N + MH_BLOCK_SIZE) := by
  intro fuel
  induction fuel with
  | zero => intro j m h1 h2; omega
  | succ n ih =>
    intro j m hj hf
    unfold buildSlotsChecked
    simp only
    rw [if_pos (mapped8_mapBlock_in mapped N (pFreeField N) (by unfold pFreeField; omega)
      (by unfold pFreeField MH_BLOCK_SIZE; omega))]
    by_cases hlast : j = 63
    · subst hlast
      have e : N + MH_SLOT_SIZE * (63 + 1) = N + MH_BLOCK_SIZE := by
        unfold MH_SLOT_SIZE MH_BLOCK_SIZE
        omega
      rw [e, mapped8_mapBlock_out mapped N (N + MH_BLOCK_SIZE) (Or.inr (le_refl _)), hun]
      simp
    · rw [if_pos (mapped8_mapBlock_in mapped N _ (by omega)
        (by unfold MH_SLOT_SIZE MH_BLOCK_SIZE; omega))]
      have hadd : addPtr (N + MH_SLOT_SIZE * (j + 1)) MH_SLOT_SIZE
          = N + MH_SLOT_SIZE * (j + 1 + 1) := by
        unfold addPtr PTR_MOD MH_SLOT_SIZE MH_BLOCK_SIZE at *
        omega
      rw [hadd]
      have hsub : subPtr (N + MH_SLOT_SIZE * (j + 1 + 1)) N = MH_SLOT_SIZE * (j + 1 + 1) := by
        unfold subPtr PTR_MOD MH_SLOT_SIZE MH_BLOCK_SIZE at *
        omega
      rw [hsub, if_pos (by unfold MH_SLOT_SIZE MH_BLOCK_SIZE; omega)]
      exact ih (j + 1) _ (by omega) (by omega)

/-- On a fresh block at `N` the checked slot loop returns what the unchecked
loop returns when the pointer field at `N + MH_BLOCK_SIZE` is mapped. -/
theorem buildSlotsChecked_fresh_ok (mapped : Nat → Bool) (N : Nat)
    (hN : N + 2 * MH_BLOCK_SIZE ≤ PTR_MOD)
    (hmp : mapped8 mapped (N + MH_BLOCK_SIZE) = true) :
    ∀ (fuel j : Nat) (m m2 : Mem), j ≤ 63 →
      buildSlots fuel m N (N + MH_SLOT_SIZE * (j + 1)) = some m2 →
      buildSlotsChecked (mapBlock mapped N) fuel m N (N + MH_SLOT_SIZE * (j + 1))
        = Run.ok m2 := by
  intro fuel
  induction fuel with
  | zero => intro j m m2 _ h; simp [buildSlots] at h
  | succ n ih =>
    intro j m m2 hj h
    unfold buildSlots at h
    unfold buildSlotsChecked
    simp only at h ⊢
    rw [if_pos (mapped8_mapBlock_in mapped N (pFreeField N) (by unfold pFreeField; omega)
      (by unfold pFreeField MH_BLOCK_SIZE; omega))]
    have hslot : mapped8 (mapBlock mapped N) (N + MH_SLOT_SIZE * (j + 1)) = true := by
      by_cases hlast : j = 63
      · subst hlast
        have e : N + MH_SLOT_SIZE * (63 + 1) = N + MH_BLOCK_SIZE := by
          unfold MH_SLOT_SIZE MH_BLOCK_SIZE
          omega
        rw [e, mapped8_mapBlock_out mapped N (N + MH_BLOCK_SIZE) (Or.inr (le_refl _)), hmp]
      · exact mapped8_mapBlock_in mapped N _ (by omega)
          (by unfold MH_SLOT_SIZE MH_BLOCK_SIZE; omega)
    rw [if_pos hslot]
    have hadd : addPtr (N + MH_SLOT_SIZE * (j + 1)) MH_SLOT_SIZE
        = N + MH_SLOT_SIZE * (j + 1 + 1) := by
      unfold addPtr PTR_MOD MH_SLOT_SIZE MH_BLOCK_SIZE at *
      omega
    rw [hadd] at h ⊢
    have hsub : subPtr (N + MH_SLOT_SIZE * (j + 1 + 1)) N = MH_SLOT_SIZE * (j + 1 + 1) := by
      unfold subPtr PTR_MOD MH_SLOT_SIZE MH_BLOCK_SIZE at *
      omega
    rw [hsub] at h ⊢
    by_cases hc : MH_SLOT_SIZE * (j + 1 + 1) ≤ MH_BLOCK_SIZE
    · rw [if_pos hc] at h ⊢
      exact ih (j + 1) _ m2 (by unfold MH_SLOT_SIZE MH_BLOCK_SIZE at *; omega) h
    · rw [if_neg hc] at h ⊢
      exact congrArg Run.ok (Option.some.inj h)

/-- What the checked `AllocateBuffer` does once the scan of the list has
ended with `NULL` and the probe loops have obtained the block `b`: it returns
`b + MH_BLOCK_SIZE`, as the unchecked run does, when the pointer field at
`b + MH_BLOCK_SIZE`, the first bytes after the block, is mapped, and it ends
with an access violation there when it is not. -/
theorem AllocateBufferChecked_fresh (mapped : Nat → Bool) (st : State) (os : Nat → Nat)
    (pOrigin fuel b : Nat) (tr : List Nat)
    (hscan : scanBlocksChecked mapped fuel st.mem (windowLo st pOrigin) (windowHi st pOrigin)
      st.g_pMemoryBlocks = Run.ok 0)
    (hprobe : probeNew fuel os (windowLo st pOrigin) (windowHi st pOrigin) pOrigin
      = some (b, tr))
    (hb : b ≠ 0) (hlt : b + 2 * MH_BLOCK_SIZE ≤ PTR_MOD) (hfuel : 64 ≤ fuel) :
    (mapped8 mapped (b + MH_BLOCK_SIZE) = false →
      AllocateBufferChecked mapped fuel os st pOrigin = Run.fault (b + MH_BLOCK_SIZE))
    ∧ (mapped8 mapped (b + MH_BLOCK_SIZE) = true →
      ∃ st2, AllocateBufferChecked mapped fuel os st pOrigin
          = Run.ok (b + MH_BLOCK_SIZE, st2, tr)
        ∧ AllocateBuffer fuel os st pOrigin = some (b + MH_BLOCK_SIZE, st2, tr)) := by
  have hadd : addPtr b MH_SLOT_SIZE = b + MH_SLOT_SIZE * (0 + 1) := by
    unfold addPtr PTR_MOD MH_SLOT_SIZE MH_BLOCK_SIZE at *
    omega
  have hpf : mapped8 (mapBlock mapped b) (pFreeField b) = true :=
    mapped8_mapBlock_in mapped b (pFreeField b) (by unfold pFreeField; omega)
      (by unfold pFreeField MH_BLOCK_SIZE; omega)
  have hpn : mapped8 (mapBlock mapped b) b = true :=
    mapped8_mapBlock_in mapped b b (le_refl _) (by unfold MH_BLOCK_SIZE; omega)
  constructor
  · intro hun
    unfold AllocateBufferChecked GetMemoryBlockChecked
    rw [hscan]
    simp only [ne_eq, not_true_eq_false, if_false, hprobe, hb, not_false_eq_true, if_true]
    unfold initBlockChecked
    rw [if_pos hpf, hadd,
      buildSlotsChecked_fresh_fault mapped b hlt hun fuel 0 _ (by omega) (by omega)]
  · intro hmp
    obtain ⟨st1, hi⟩ := initBlock_total st b fuel hlt hfuel
    obtain ⟨_, e2, _, _⟩ := initBlock_free st st1 b fuel hlt hi
    have hic : initBlockChecked (mapBlock mapped b) fuel st b = Run.ok st1 := by
      unfold initBlock at hi
      unfold initBlockChecked
      rw [if_pos hpf]
      rw [hadd] at hi ⊢
      cases hbs : buildSlots fuel (store64 st.mem (pFreeField b) 0) b
          (b + MH_SLOT_SIZE * (0 + 1)) with
      | none => rw [hbs] at hi; simp at hi
      | some m2 =>
        rw [hbs] at hi
        rw [buildSlotsChecked_fresh_ok mapped b hlt hmp fuel 0 _ m2 (by omega) hbs]
        simp only
        rw [if_pos hpn]
        exact congrArg Run.ok (Option.some.inj hi)
    have hslot : mapped8 (mapBlock mapped b) (b + MH_BLOCK_SIZE) = true := by
      rw [mapped8_mapBlock_out mapped b (b + MH_BLOCK_SIZE) (Or.inr (le_refl _)), hmp]
    have hc : AllocateBufferChecked mapped fuel os st pOrigin
        = Run.ok (b + MH_BLOCK_SIZE, { st1 with mem := (store64 st1.mem (pFreeField b)
            (load64 st1.mem (b + MH_BLOCK_SIZE))) }, tr) := by
      unfold AllocateBufferChecked GetMemoryBlockChecked
      rw [hscan]
      simp only [ne_eq, not_true_eq_false, if_false, hprobe, hb, not_false_eq_true, if_true,
        hic, hpf, e2, hslot]
    exact ⟨_, hc, AllocateBufferChecked_ok mapped fuel os st pOrigin _ hc⟩

/-! ## Exhaustive probing and the store past the block -/

/-- The probe is exhaustive as far as a `NULL` return goes: for every state,
every 64-bit origin and an operating system that returns `NULL` or pointers
at least two pages below `2 ^ 64`, if `AllocateBuffer(origin)` returns `NULL`
then the memory holds a `NULL`-terminated block list, no block of it inside
`[lo, hi)` has a free slot, and the operating system has refused every
`MH_BLOCK_SIZE`-aligned address of `[lo, hi)` other than `start`. -/
theorem AllocateBuffer_null_exhaustive (st : State) (os : Nat → Nat) (pOrigin : Nat)
    (ho : pOrigin < PTR_MOD)
    (hos : ∀ a, os a + 2 * MH_BLOCK_SIZE ≤ PTR_MOD)
    (fuel : Nat) (st2 : State) (tr : List Nat)
    (h : AllocateBuffer fuel os st pOrigin = some (0, st2, tr)) :
    (∃ blocks, IsChain st.mem st.g_pMemoryBlocks blocks
      ∧ ∀ b ∈ blocks, windowLo st pOrigin ≤ b → b < windowHi st pOrigin →
          load64 st.mem (pFreeField b) = 0)
    ∧ ∀ a, a % MH_BLOCK_SIZE = 0 → windowLo st pOrigin ≤ a → a < windowHi st pOrigin →
        a ≠ pOrigin / MH_BLOCK_SIZE * MH_BLOCK_SIZE → os a = 0 := by
  have hhi : windowHi st pOrigin ≤ PTR_MOD := by
    unfold windowHi
    exact le_trans (min_le_right _ _) (le_of_lt (addPtr_lt _ _))
  obtain ⟨n1, n2, _⟩ := AllocateBuffer_null st os pOrigin fuel st2 tr hos h
  exact ⟨scanBlocks_zero_chain st.mem _ _ fuel _ n1,
    probeNew_cover os _ _ pOrigin fuel tr ho hhi n2⟩

/-- On the empty block list left by `UninitializeBuffer`, if the operating
system accepts an aligned address of `[lo, hi)` other than `start`, the probe
loops obtain a block `N` from it, for every fuel above `2 ^ 52`.  What follows
depends on the first bytes after the block: if the pointer field at
`N + MH_BLOCK_SIZE` is not mapped, `AllocateBuffer` ends with an access
violation there; if it is mapped, `AllocateBuffer` returns the buffer
`N + MH_BLOCK_SIZE` and the block list is then the one block `N`. -/
theorem AllocateBufferChecked_after_teardown (mapped : Nat → Bool) (st0 st : State)
    (fuel0 : Nat) (trf : List Nat) (os : Nat → Nat) (pOrigin : Nat)
    (hun : UninitializeBuffer fuel0 st0 = some (st, trf))
    (ho : pOrigin < PTR_MOD)
    (hos : ∀ a, os a + 2 * MH_BLOCK_SIZE ≤ PTR_MOD)
    (hacc : ∃ a, a % MH_BLOCK_SIZE = 0 ∧ windowLo st pOrigin ≤ a ∧ a < windowHi st pOrigin
      ∧ a ≠ pOrigin / MH_BLOCK_SIZE * MH_BLOCK_SIZE ∧ os a ≠ 0)
    (fuel : Nat) (hfuel : PTR_MOD / MH_BLOCK_SIZE < fuel) :
    ∃ N tr, N ≠ 0 ∧ (∃ x, os x = N)
      ∧ probeNew fuel os (windowLo st pOrigin) (windowHi st pOrigin) pOrigin = some (N, tr)
      ∧ (mapped8 mapped (N + MH_BLOCK_SIZE) = false →
          AllocateBufferChecked mapped fuel os st pOrigin = Run.fault (N + MH_BLOCK_SIZE))
      ∧ (mapped8 mapped (N + MH_BLOCK_SIZE) = true →
          ∃ st2, AllocateBufferChecked mapped fuel os st pOrigin
              = Run.ok (N + MH_BLOCK_SIZE, st2, tr)
            ∧ IsChain st2.mem st2.g_pMemoryBlocks [N]) := by
  obtain ⟨a, a1, a2, a3, a4, a5⟩ := hacc
  have hhi : windowHi st pOrigin ≤ PTR_MOD := by
    unfold windowHi
    exact le_trans (min_le_right _ _) (le_of_lt (addPtr_lt _ _))
  have hg : st.g_pMemoryBlocks = 0 := by
    rw [UninitializeBuffer_empty st0 st fuel0 trf hun]
  have hfuel2 : 2 ^ 52 < fuel := by
    unfold PTR_MOD MH_BLOCK_SIZE at hfuel
    omega
  obtain ⟨p, tr, hp, hp0⟩ := probeNew_reach os _ _ pOrigin fuel a ho hhi a1 a2 a3 a4 a5 hfuel
  obtain ⟨x, hx⟩ := probeNew_os os _ _ pOrigin fuel p tr hp hp0
  have hv := hos x
  rw [hx] at hv
  have hscan : scanBlocks fuel st.mem (windowLo st pOrigin) (windowHi st pOrigin)
      st.g_pMemoryBlocks = some 0 := by
    cases fuel with
    | zero => omega
    | succ n => simp [scanBlocks, hg]
  have hscanc : scanBlocksChecked mapped fuel st.mem (windowLo st pOrigin)
      (windowHi st pOrigin) st.g_pMemoryBlocks = Run.ok 0 := by
    cases fuel with
    | zero => omega
    | succ n => simp [scanBlocksChecked, hg]
  obtain ⟨c1, c2⟩ := AllocateBufferChecked_fresh mapped st os pOrigin fuel p tr hscanc hp hp0 hv
    (by omega)
  refine ⟨p, tr, hp0, ⟨x, hx⟩, hp, c1, ?_⟩
  intro hmp
  obtain ⟨st2, d1, d2⟩ := c2 hmp
  obtain ⟨st1, st2b, _, _, f3, f4, _, f6⟩ :=
    AllocateBuffer_fresh st os pOrigin fuel p tr hscan hp hp0 hv (by omega)
  have hsame : st2 = st2b := by
    rw [d2] at f3
    simp only [Option.some.injEq, Prod.mk.injEq] at f3
    exact f3.2.1
  refine ⟨st2, d1, ?_⟩
  rw [hsame, f4]
  refine ⟨rfl, hp0, ?_⟩
  rw [f6 (by rw [hg]; decide), hg]
  rfl

/-- C11 (code bug): the block list is empty, as `UninitializeBuffer` leaves
it.  For the origin `0x20010` the window is `[0x10000, 0x1020010)` and
`start = 0x20000`; the operating system accepts the aligned address `0x1F000`
and refuses the others.  (1) When no byte after the block is mapped,
`AllocateBuffer(0x20010)` does not return: the slot loop stores a link at
`0x1F000 + MH_BLOCK_SIZE = 0x20000`, past the `MH_BLOCK_SIZE` bytes mapped
for the block, and the run ends there with an access violation.  (2) When the
page at `0x20000` happens to be mapped, the call returns `0x20000`. -/
theorem C11_fresh_block_access_violation :
    (UninitializeBuffer 1 demoRange).map (fun r => (r.1.g_pMemoryBlocks, r.2)) = some (0, [])
    ∧ (windowLo (stateAfterTeardown 1 demoRange) 0x20010,
        windowHi (stateAfterTeardown 1 demoRange) 0x20010,
        0x20010 / MH_BLOCK_SIZE * MH_BLOCK_SIZE) = (0x10000, 0x1020010, 0x20000)
    ∧ (osGrantOnly 0x1F000 0x1F000, 0x1F000 % MH_BLOCK_SIZE) = (0x1F000, 0)
    ∧ (AllocateBufferChecked mappedNone 100 (osGrantOnly 0x1F000)
        (stateAfterTeardown 1 demoRange) 0x20010).faultAt = some 0x20000
    ∧ (AllocateBufferChecked mappedNone 100 (osGrantOnly 0x1F000)
        (stateAfterTeardown 1 demoRange) 0x20010).result.map (fun r => (r.1, r.2.2)) = none
    ∧ (AllocateBufferChecked mappedNextPage 100 (osGrantOnly 0x1F000)
        (stateAfterTeardown 1 demoRange) 0x20010).result.map (fun r => (r.1, r.2.2))
        = some (0x20000, [0x1F000]) := by
  refine ⟨by decide!, by decide!, by decide!, by decide!, by decide!, by decide!⟩

/-- C20: for every run in which `GetMemoryBlock` creates a new block at `b`,
at least two pages below `2 ^ 64`, and `AllocateBuffer` returns: the free list
`GetMemoryBlock` has built is `b + 64 * 64, b + 64 * 63, ..., b + 64`, the
buffer returned is its head `b + 64 * 64`, the highest slot built, and the
remaining free list of the block is `b + 64 * 63, ..., b + 64`: 63 entries,
entry `i` being `b + MH_SLOT_SIZE * (63 - i)`, strictly descending, hence
pairwise distinct, consecutive entries `MH_SLOT_SIZE` apart, the last one
`b + MH_SLOT_SIZE`.  The slot `b + 64 * 64` starts at `b + MH_BLOCK_SIZE`,
past the block: a run returns only when the store to it causes no access
violation. -/
theorem C20_fresh_block_free_list (st : State) (os : Nat → Nat) (pOrigin fuel b B : Nat)
    (st1 st2 : State) (tr tr2 : List Nat)
    (hg : GetMemoryBlock fuel os st pOrigin = some (b, st1, tr))
    (hb : b ≠ 0) (hnew : tr ≠ []) (hlt : b + 2 * MH_BLOCK_SIZE ≤ PTR_MOD)
    (ha : AllocateBuffer fuel os st pOrigin = some (B, st2, tr2)) :
    IsChain st1.mem (load64 st1.mem (pFreeField b)) (slotsDown b 64)
      ∧ slotsDown b 64 = (b + MH_SLOT_SIZE * 64) :: slotsDown b 63
      ∧ B = b + MH_SLOT_SIZE * 64
      ∧ tr2 = tr
      ∧ st2.g_pMemoryBlocks = b
      ∧ IsChain st2.mem (load64 st2.mem (pFreeField b)) (slotsDown b 63)
      ∧ (slotsDown b 63).length = 63
      ∧ (∀ i, i < 63 → (slotsDown b 63)[i]? = some (b + MH_SLOT_SIZE * (63 - i)))
      ∧ (slotsDown b 63).Pairwise (fun x y => y < x)
      ∧ (slotsDown b 63).Nodup
      ∧ (slotsDown b 63).getLast? = some (b + MH_SLOT_SIZE) := by
  have hi : initBlock fuel st b = some st1 := by
    rcases GetMemoryBlock_cases fuel os st pOrigin b st1 tr hg with
      ⟨_, _, _, htr⟩ | ⟨_, _, c3, _⟩
    · exact absurd htr hnew
    · exact c3 hb
  obtain ⟨e1, e2, e3, _⟩ := initBlock_free st st1 b fuel hlt hi
  have hB : b + MH_BLOCK_SIZE = b + MH_SLOT_SIZE * 64 := by
    unfold MH_BLOCK_SIZE MH_SLOT_SIZE
    omega
  have e3c := e3
  obtain ⟨_, _, c3⟩ : b + MH_BLOCK_SIZE = b + MH_SLOT_SIZE * (63 + 1)
      ∧ b + MH_SLOT_SIZE * (63 + 1) ≠ 0
      ∧ IsChain st1.mem (load64 st1.mem (b + MH_SLOT_SIZE * (63 + 1))) (slotsDown b 63) := e3
  have hsep : ∀ s ∈ slotsDown b 63, Disj8 (pFreeField b) s := by
    intro s hs
    obtain ⟨k, h1, h2, h3⟩ := (mem_slotsDown b 63 s).mp hs
    unfold Disj8 pFreeField MH_SLOT_SIZE at *
    omega
  unfold AllocateBuffer at ha
  rw [hg] at ha
  simp only [if_neg hb, e2, hB, Option.some.injEq, Prod.mk.injEq] at ha
  obtain ⟨a1, a2, a3⟩ := ha
  have hlast : (slotsDown b 63).getLast? = some (b + MH_SLOT_SIZE) := by
    rw [List.getLast?_eq_getElem?, slotsDown_length, slotsDown_getElem b 63 62 (by omega)]
    rfl
  refine ⟨by rw [e2]; exact e3c, rfl, a1.symm, a3.symm, by rw [← a2]; exact e1, ?_,
    slotsDown_length b 63, slotsDown_getElem b 63, slotsDown_descending b 63,
    slotsDown_nodup b 63, hlast⟩
  rw [← a2]
  show IsChain (store64 st1.mem (pFreeField b) (load64 st1.mem (b + MH_SLOT_SIZE * 64)))
    (load64 (store64 st1.mem (pFreeField b) (load64 st1.mem (b + MH_SLOT_SIZE * 64)))
      (pFreeField b)) (slotsDown b 63)
  rw [load64_store64_same _ _ _ (load64_lt _ _)]
  exact IsChain.store _ _ _ _ _ c3 hsep

/-- Witness for C20: the first allocation at `0x20010` on the empty list
creates the block `0x1F000`; with the page at `0x20000` mapped the run ends
without an access violation. -/
theorem C20_fresh_block_free_list_witness :
    (AllocateBufferChecked mappedNextPage 100 osGrantAll demoRange 0x20010).result.map
        (fun r => (r.1, r.2.2)) = some (0x20000, [0x1F000])
    ∧ ∃ B st1 st2 tr2,
      GetMemoryBlock 100 osGrantAll demoRange 0x20010 = some (0x1F000, st1, [0x1F000])
      ∧ AllocateBuffer 100 osGrantAll demoRange 0x20010 = some (B, st2, tr2)
      ∧ IsChain st1.mem (load64 st1.mem (pFreeField 0x1F000)) (slotsDown 0x1F000 64)
      ∧ slotsDown 0x1F000 64 = (0x1F000 + MH_SLOT_SIZE * 64) :: slotsDown 0x1F000 63
      ∧ B = 0x1F000 + MH_SLOT_SIZE * 64
      ∧ tr2 = [0x1F000]
      ∧ st2.g_pMemoryBlocks = 0x1F000
      ∧ IsChain st2.mem (load64 st2.mem (pFreeField 0x1F000)) (slotsDown 0x1F000 63)
      ∧ (slotsDown 0x1F000 63).length = 63
      ∧ (∀ i, i < 63 → (slotsDown 0x1F000 63)[i]? = some (0x1F000 + MH_SLOT_SIZE * (63 - i)))
      ∧ (slotsDown 0x1F000 63).Pairwise (fun x y => y < x)
      ∧ (slotsDown 0x1F000 63).Nodup
      ∧ (slotsDown 0x1F000 63).getLast? = some (0x1F000 + MH_SLOT_SIZE) := by
  refine ⟨by decide!, ?_⟩
  have hv : (GetMemoryBlock 100 osGrantAll demoRange 0x20010).map (fun r => (r.1, r.2.2))
      = some (0x1F000, [0x1F000]) := by decide!
  have hv2 : (AllocateBuffer 100 osGrantAll demoRange 0x20010).isSome = true := by decide!
  cases hg : GetMemoryBlock 100 osGrantAll demoRange 0x20010 with
  | none => rw [hg] at hv; simp at hv
  | some r =>
    obtain ⟨p, st1, tr⟩ := r
    rw [hg] at hv
    simp only [Option.map_some', Option.some.injEq, Prod.mk.injEq] at hv
    obtain ⟨e1, e2⟩ := hv
    subst e1 e2
    cases ha : AllocateBuffer 100 osGrantAll demoRange 0x20010 with
    | none => rw [ha] at hv2; simp at hv2
    | some r2 =>
      obtain ⟨B, st2, tr2⟩ := r2
      exact ⟨B, st1, st2, tr2, rfl, rfl,
        C20_fresh_block_free_list demoRange osGrantAll 0x20010 100 0x1F000 B st1 st2
          [0x1F000] tr2 hg (by decide) (by decide) (by decide) ha⟩

/-! ## Alignment of the blocks -/

/-- The downward loop started at an aligned address asks for aligned
addresses only, also past a wrap-around: `2 ^ 64` is a multiple of
`MH_BLOCK_SIZE`. -/
theorem probeDown_aligned (os : Nat → Nat) (lo : Nat) :
    ∀ (n a p : Nat) (tr : List Nat), a % MH_BLOCK_SIZE = 0 →
      probeDown n os lo a = some (p, tr) → p ≠ 0 →
      ∃ x, x % MH_BLOCK_SIZE = 0 ∧ os x = p := by
  intro n
  induction n with
  | zero => intro a p tr _ h; simp [probeDown] at h
  | succ k ih =>
    intro a p tr ha h hp
    unfold probeDown at h
    simp only [eager_eq] at h
    by_cases hge : a ≥ lo
    · rw [if_pos hge] at h
      by_cases hos : os a ≠ 0
      · rw [if_pos hos] at h
        simp only [Option.some.injEq, Prod.mk.injEq] at h
        exact ⟨a, ha, h.1⟩
      · rw [if_neg hos] at h
        cases hrec : probeDown k os lo (subPtr a MH_BLOCK_SIZE) with
        | none => rw [hrec] at h; simp at h
        | some r =>
          obtain ⟨p2, tr2⟩ := r
          rw [hrec] at h
          simp only [Option.some.injEq, Prod.mk.injEq] at h
          obtain ⟨e1, _⟩ := h
          subst e1
          exact ih _ p2 tr2 (by unfold subPtr PTR_MOD MH_BLOCK_SIZE at *; omega) hrec hp
    · rw [if_neg hge] at h
      simp only [Option.some.injEq, Prod.mk.injEq] at h
      exact absurd h.1.symm hp

/-- The upward loop started at an aligned address asks for aligned addresses
only. -/
theorem probeUp_aligned (os : Nat → Nat) (hi : Nat) :
    ∀ (n a p : Nat) (tr : List Nat), a % MH_BLOCK_SIZE = 0 →
      probeUp n os hi a = some (p, tr) → p ≠ 0 →
      ∃ x, x % MH_BLOCK_SIZE = 0 ∧ os x = p := by
  intro n
  induction n with
  | zero => intro a p tr _ h; simp [probeUp] at h
  | succ k ih =>
    intro a p tr ha h hp
    unfold probeUp at h
    simp only [eager_eq] at h
    by_cases hge : a < hi
    · rw [if_pos hge] at h
      by_cases hos : os a ≠ 0
      · rw [if_pos hos] at h
        simp only [Option.some.injEq, Prod.mk.injEq] at h
        exact ⟨a, ha, h.1⟩
      · rw [if_neg hos] at h
        cases hrec : probeUp k os hi (addPtr a MH_BLOCK_SIZE) with
        | none => rw [hrec] at h; simp at h
        | some r =>
          obtain ⟨p2, tr2⟩ := r
          rw [hrec] at h
          simp only [Option.some.injEq, Prod.mk.injEq] at h
          obtain ⟨e1, _⟩ := h
          subst e1
          exact ih _ p2 tr2 (by unfold addPtr PTR_MOD MH_BLOCK_SIZE at *; omega) hrec hp
    · rw [if_neg hge] at h
      simp only [Option.some.injEq, Prod.mk.injEq] at h
      exact absurd h.1.symm hp

/-- The block the probe loops end with is the answer of the operating system
to a request for a multiple of `MH_BLOCK_SIZE`: `pStart` is the origin rounded
down to `MH_BLOCK_SIZE` and the loops step by `MH_BLOCK_SIZE`. -/
theorem probeNew_aligned (os : Nat → Nat) (lo hi pOrigin fuel p : Nat) (tr : List Nat)
    (h : probeNew fuel os lo hi pOrigin = some (p, tr)) (hp : p ≠ 0) :
    ∃ x, x % MH_BLOCK_SIZE = 0 ∧ os x = p := by
  unfold probeNew at h
  simp only at h
  have hS : (pOrigin / MH_BLOCK_SIZE * MH_BLOCK_SIZE) % MH_BLOCK_SIZE = 0 :=
    Nat.mul_mod_left _ _
  have ha0 : subPtr (pOrigin / MH_BLOCK_SIZE * MH_BLOCK_SIZE) MH_BLOCK_SIZE % MH_BLOCK_SIZE
      = 0 := by
    unfold subPtr PTR_MOD MH_BLOCK_SIZE at *
    omega
  have hb0 : addPtr (pOrigin / MH_BLOCK_SIZE * MH_BLOCK_SIZE) MH_BLOCK_SIZE % MH_BLOCK_SIZE
      = 0 := by
    unfold addPtr PTR_MOD MH_BLOCK_SIZE at *
    omega
  cases hd : probeDown fuel os lo (subPtr (pOrigin / MH_BLOCK_SIZE * MH_BLOCK_SIZE)
      MH_BLOCK_SIZE) with
  | none => rw [hd] at h; simp at h
  | some r =>
    obtain ⟨pb, tr1⟩ := r
    rw [hd] at h
    simp only at h
    by_cases hpb : pb = 0
    · rw [if_pos hpb] at h
      cases hu : probeUp fuel os hi (addPtr (pOrigin / MH_BLOCK_SIZE * MH_BLOCK_SIZE)
          MH_BLOCK_SIZE) with
      | none => rw [hu] at h; simp at h
      | some r2 =>
        obtain ⟨p2, tr2⟩ := r2
        rw [hu] at h
        simp only [Option.some.injEq, Prod.mk.injEq] at h
        obtain ⟨e1, _⟩ := h
        subst e1
        exact probeUp_aligned os hi fuel _ p2 tr2 hb0 hu hp
    · rw [if_neg hpb] at h
      simp only [Option.some.injEq, Prod.mk.injEq] at h
      obtain ⟨e1, _⟩ := h
      subst e1
      exact probeDown_aligned os lo fuel _ pb tr1 ha0 hd hp

/-- The three ways `AllocateBuffer` returns; a fresh block is the answer of
the operating system to a request for a multiple of `MH_BLOCK_SIZE`. -/
theorem AllocateBuffer_cases_aligned (fuel : Nat) (os : Nat → Nat) (st : State)
    (pOrigin B : Nat) (st2 : State) (tr : List Nat)
    (h : AllocateBuffer fuel os st pOrigin = some (B, st2, tr)) :
    (∃ b, scanBlocks fuel st.mem (windowLo st pOrigin) (windowHi st pOrigin)
          st.g_pMemoryBlocks = some b ∧ b ≠ 0
        ∧ B = load64 st.mem (pFreeField b)
        ∧ st2 = { st with mem := store64 st.mem (pFreeField b) (load64 st.mem B) })
    ∨ (∃ p st1, (∃ x, x % MH_BLOCK_SIZE = 0 ∧ os x = p) ∧ p ≠ 0
        ∧ initBlock fuel st p = some st1
        ∧ B = load64 st1.mem (pFreeField p)
        ∧ st2 = { st1 with mem := store64 st1.mem (pFreeField p) (load64 st1.mem B) })
    ∨ (B = 0 ∧ st2 = st) := by
  unfold AllocateBuffer at h
  cases hg : GetMemoryBlock fuel os st pOrigin with
  | none => rw [hg] at h; simp at h
  | some r =>
    obtain ⟨pBlock, st1, tr1⟩ := r
    rw [hg] at h
    simp only at h
    have hc := GetMemoryBlock_cases fuel os st pOrigin pBlock st1 tr1 hg
    by_cases hp : pBlock = 0
    · rw [if_pos hp] at h
      simp only [Option.some.injEq, Prod.mk.injEq] at h
      obtain ⟨e1, e2, _⟩ := h
      rcases hc with ⟨_, c, _, _⟩ | ⟨_, _, _, c4⟩
      · exact absurd hp c
      · exact Or.inr (Or.inr ⟨e1.symm, by rw [← e2]; exact c4 hp⟩)
    · rw [if_neg hp] at h
      simp only [Option.some.injEq, Prod.mk.injEq] at h
      obtain ⟨e1, e2, _⟩ := h
      rcases hc with ⟨c1, c2, c3, _⟩ | ⟨_, c2, c3, _⟩
      · subst c3
        exact Or.inl ⟨pBlock, c1, c2, e1.symm, by rw [← e2, ← e1]⟩
      · exact Or.inr (Or.inl ⟨pBlock, st1,
          probeNew_aligned os _ _ pOrigin fuel pBlock tr1 c2 hp, hp, c3 hp, e1.symm,
          by rw [← e2, ← e1]⟩)

/-- Every state reachable under `OsReturnsAsked`, teardown included,
satisfies the invariant: the alignment of the blocks comes from the
addresses `GetMemoryBlock` asks for. -/
theorem ReachAll.invariant_asked (st : State) (out : List Nat)
    (h : ReachAll OsReturnsAsked st out) : ∃ blocks fl, Sound st out blocks fl := by
  have hempty : ∀ s : State, s.g_pMemoryBlocks = 0 → Sound s [] [] (fun _ => []) := by
    intro s hs
    exact
      { wf :=
          { blocks_chain := hs
            free_chain := fun b hb => absurd hb (List.not_mem_nil b)
            pFree_pNext := fun b hb => absurd hb (List.not_mem_nil b)
            pFree_pFree := fun b hb => absurd hb (List.not_mem_nil b)
            pFree_slot := fun b hb => absurd hb (List.not_mem_nil b) }
        aligned := fun b hb => absurd hb (List.not_mem_nil b)
        apart := fun b hb => absurd hb (List.not_mem_nil b)
        free_nodup := fun b hb => absurd hb (List.not_mem_nil b)
        free_form := fun b hb => absurd hb (List.not_mem_nil b)
        out_nodup := List.nodup_nil
        out_form := fun B hB => absurd hB (List.not_mem_nil B)
        out_free := fun b hb => absurd hb (List.not_mem_nil b) }
  induction h with
  | init minAddress maxAddress m => exact ⟨[], fun _ => [], hempty _ rfl⟩
  | allocate st out os pOrigin fuel B st2 tr _ hok hcall hB ih =>
    obtain ⟨blocks, fl, hs⟩ := ih
    rcases AllocateBuffer_cases_aligned fuel os st pOrigin B st2 tr hcall with
      ⟨b, hscan, hb0, hBe, hst⟩ | ⟨p, st1, ⟨x, hal, hx⟩, hp0, hinit, hBe, hst⟩ | ⟨hB0, _⟩
    · have hb := scanBlocks_mem st.mem _ _ blocks _ fuel b hs.wf.blocks_chain hscan hb0
      have hfree : load64 st.mem (pFreeField b) ≠ 0 := hBe ▸ hB
      have := Sound.pop st out blocks fl b hs hb hfree
      rw [← hBe, ← hst] at this
      exact ⟨blocks, popFree fl b, this⟩
    · rcases hok x with h0 | ⟨hxx, hlt, hlist⟩
      · exact absurd (hx ▸ h0) hp0
      · have hpx : p = x := by rw [← hx, hxx]
        subst hpx
        obtain ⟨n1, n2, n3⟩ := hlist (blocks.length + 1) blocks
          (chain_of_isChain st.mem blocks _ _ hs.wf.blocks_chain (Nat.lt_succ_self _))
        have := Sound.fresh st st1 out blocks fl p fuel hs hp0 hal hlt n1 n2 n3 hinit
        rw [← hBe, ← hst] at this
        exact ⟨p :: blocks, _, this⟩
    · exact absurd hB0 hB
  | allocateFailed st out os pOrigin fuel st2 tr _ hok hcall ih =>
    obtain ⟨blocks, fl, hs⟩ := ih
    rcases AllocateBuffer_cases_aligned fuel os st pOrigin 0 st2 tr hcall with
      ⟨b, hscan, hb0, hBe, _⟩ | ⟨p, st1, ⟨x, _, hx⟩, hp0, hinit, hBe, _⟩ | ⟨_, hst⟩
    · exact absurd hBe.symm (scanBlocks_found st.mem _ _ fuel _ b hscan hb0).2.2
    · rcases hok x with h0 | ⟨hxx, hlt, _⟩
      · exact absurd (hx ▸ h0) hp0
      · have hpx : p = x := by rw [← hx, hxx]
        subst hpx
        obtain ⟨_, e5, _, _⟩ := initBlock_free st st1 p fuel hlt hinit
        rw [e5] at hBe
        unfold MH_BLOCK_SIZE at hBe
        omega
    · rw [hst]
      exact ⟨blocks, fl, hs⟩
  | release st out B fuel st2 _ hB hcall ih =>
    obtain ⟨blocks, fl, hs⟩ := ih
    obtain ⟨fl2, hs2⟩ := Sound.release st st2 out blocks fl B fuel hs hB hcall
    exact ⟨blocks, fl2, hs2⟩
  | teardown st out fuel st2 tr _ hcall _ =>
    refine ⟨[], fun _ => [], hempty st2 ?_⟩
    rw [UninitializeBuffer_empty st st2 fuel tr hcall]

/-- C12 (amended): in every state reachable from the empty block list by
`AllocateBuffer`, `FreeBuffer` and `UninitializeBuffer` calls, `FreeBuffer`
being applied only to buffers returned since the last `UninitializeBuffer` and
not released since, with an operating system that returns `NULL` or the
address asked, grants no address above `2 ^ 64 - 2 * MH_BLOCK_SIZE` and never
grants a block base or an address directly next to one, the memory holds a
`NULL`-terminated block list and the base of every block in it is a multiple
of `MH_BLOCK_SIZE`.  Nothing is assumed on the alignment of the addresses
granted: `GetMemoryBlock` asks for multiples of `MH_BLOCK_SIZE` only. -/
theorem C12_block_bases_aligned (st : State) (out : List Nat)
    (h : ReachAll OsReturnsAsked st out) :
    ∃ blocks, IsChain st.mem st.g_pMemoryBlocks blocks
      ∧ (∀ n l, blockList n st = some l → l = blocks)
      ∧ ∀ b ∈ blocks, b % MH_BLOCK_SIZE = 0 := by
  obtain ⟨blocks, fl, hs⟩ := ReachAll.invariant_asked st out h
  refine ⟨blocks, hs.wf.blocks_chain, ?_, fun b hb => (hs.aligned b hb).1⟩
  intro n l hl
  exact IsChain.unique st.mem l blocks _ (chain_isChain st.mem n _ l hl) hs.wf.blocks_chain

/-- Witness for C12: an allocation at origin `0x20010` from the empty list, the
operating system granting `0x1F000`, then a second allocation from the same
block. -/
theorem C12_block_bases_aligned_witness :
    ∃ st out, ReachAll OsReturnsAsked st out ∧ out = [0x1FFC0, 0x20000]
      ∧ ∃ blocks, IsChain st.mem st.g_pMemoryBlocks blocks
        ∧ (∀ n l, blockList n st = some l → l = blocks)
        ∧ ∀ b ∈ blocks, b % MH_BLOCK_SIZE = 0 := by
  have hv : (AllocateBuffer 100 (osGrantOnly 0x1F000) demoRange 0x20010).bind (fun r =>
      (AllocateBuffer 100 osRefuseAll r.2.1 0x20010).map (fun a => (r.1, a.1)))
      = some (0x20000, 0x1FFC0) := by decide!
  cases h1 : AllocateBuffer 100 (osGrantOnly 0x1F000) demoRange 0x20010 with
  | none => rw [h1] at hv; simp at hv
  | some r1 =>
    obtain ⟨B1, st1, tr1⟩ := r1
    rw [h1] at hv
    simp only [Option.some_bind] at hv
    cases h2 : AllocateBuffer 100 osRefuseAll st1 0x20010 with
    | none => rw [h2] at hv; simp at hv
    | some r2 =>
      obtain ⟨B2, st2, tr2⟩ := r2
      rw [h2] at hv
      simp only [Option.map_some', Option.some.injEq, Prod.mk.injEq] at hv
      obtain ⟨e1, e2⟩ := hv
      subst e1 e2
      have hok : OsReturnsAsked (osGrantOnly 0x1F000) demoRange := by
        intro a
        rcases demoRange_grantOnly a with h0 | ⟨c1, _, c3, c4⟩
        · exact Or.inl h0
        · exact Or.inr ⟨c1, c3, c4⟩
      have r0 : ReachAll OsReturnsAsked demoRange [] :=
        ReachAll.init 0x10000 0x7FFFFFFEFFFF (fun _ => 0)
      have hr1 : ReachAll OsReturnsAsked st1 [0x20000] :=
        ReachAll.allocate demoRange [] _ 0x20010 100 0x20000 st1 tr1 r0 hok h1 (by decide)
      have hr2 : ReachAll OsReturnsAsked st2 [0x1FFC0, 0x20000] :=
        ReachAll.allocate st1 [0x20000] osRefuseAll 0x20010 100 0x1FFC0 st2 tr2 hr1
          (fun _ => Or.inl rfl) h2 (by decide)
      exact ⟨st2, [0x1FFC0, 0x20000], hr2, rfl,
        C12_block_bases_aligned st2 [0x1FFC0, 0x20000] hr2⟩

end MinHook
